import Mathlib

/-!
# Cursor pagination over a chunked DynamoDB scan

A shallow embedding of `functions/pager/main.go` (`HandleRequest`, `encodeKey`,
`decodeKey`) together with the library functions the two cursor functions are
built from: `encoding/base64` (`StdEncoding`), `encoding/json` at the type
`map[string]*dynamodb.AttributeValue`, and `dynamodbattribute.Marshal` on the
scalar values a key attribute can hold. The DynamoDB client,
`dynamodbattribute.UnmarshalMap` and the failure of `json.Marshal` on the
response are parameters of the handler.

Conventions.
* A Go `string` is a Lean `String`: Go strings that are not valid UTF-8 are not
  represented (DynamoDB strings and attribute names are UTF-8).
* A Go `[]byte` is a `List Byte`; a nil slice, nil map or nil pointer is
  `none`, a non-nil one is `some _`.
* A Go `map[string]T` is an association list kept sorted by key without
  repeated keys (`GoMap`), which is also the order `json.Marshal` prints a map.
* A Go `error` is the text of its message; the position a decoding error
  reports is left out of the text.
* `int64` values are `Int`; the only arithmetic on them is `found++`, which
  counts scanned items and cannot leave the `int64` range.
* A JSON text is read as the sequence of its code points, bytes that are not
  well-formed UTF-8 replaced by U+FFFD one by one; this is what `encoding/json`
  does inside string literals, and outside of them such a byte is a syntax
  error either way.
* `json.Marshal` writes `\b`, `\f`, `\n`, `\r`, `\t` as two-character escapes
  (Go 1.22 and later) and the other control characters as `\u00XX`; the limit
  on nesting depth of later Go versions is not modelled.
* A run-time panic (`make` with a capacity out of range, line 125) is rendered
  as an error result with the text of the panic; running out of memory is not
  modelled.
-/

namespace Pager

abbrev Byte := Fin 256

abbrev GoError := String

/-! ## Go maps -/

/-- Lexicographic order on code-point lists: the order of Go's `<` on
(valid UTF-8) strings, by which `encoding/json` sorts map keys. -/
def ltChars : List Char → List Char → Bool
  | [], [] => false
  | [], _ :: _ => true
  | _ :: _, [] => false
  | a :: as, b :: bs =>
    if a.toNat < b.toNat then true
    else if b.toNat < a.toNat then false
    else ltChars as bs

/-- A Go `map[string]α`: entries sorted by key, no key twice. -/
abbrev GoMap (α : Type) := List (String × α)

/-- The assignment `m[k] = v`. -/
def GoMap.insert {α : Type} (k : String) (v : α) : GoMap α → GoMap α
  | [] => [(k, v)]
  | (k1, v1) :: rest =>
    if k = k1 then (k, v) :: rest
    else if ltChars k.data k1.data then (k, v) :: (k1, v1) :: rest
    else (k1, v1) :: GoMap.insert k v rest

/-- The lookup `m[k]` with its presence flag. -/
def GoMap.get {α : Type} (k : String) : GoMap α → Option α
  | [] => none
  | (k1, v1) :: rest => if k = k1 then some v1 else GoMap.get k rest

/-! ## `encoding/base64`, `StdEncoding` -/

/-- The alphabet `A-Z a-z 0-9 + /` by index. -/
def b64Char (n : Nat) : Char :=
  if n < 26 then Char.ofNat (65 + n)
  else if n < 52 then Char.ofNat (71 + n)
  else if n < 62 then Char.ofNat (n - 4)
  else if n = 62 then Char.ofNat 43
  else Char.ofNat 47

/-- The decode map of the alphabet; `none` for every other character. -/
def b64Val (c : Char) : Option Nat :=
  let v := c.toNat
  if 65 ≤ v ∧ v ≤ 90 then some (v - 65)
  else if 97 ≤ v ∧ v ≤ 122 then some (v - 71)
  else if 48 ≤ v ∧ v ≤ 57 then some (v + 4)
  else if v = 43 then some 62
  else if v = 47 then some 63
  else none

/-- The padding character `=`. -/
def b64Pad : Char := Char.ofNat 61

/-- `StdEncoding.EncodeToString`: three bytes become four characters, a final
group of one or two bytes is padded with `=`. -/
def base64Encode : List Byte → List Char
  | [] => []
  | [a] => [b64Char (a.val / 4), b64Char (a.val % 4 * 16), b64Pad, b64Pad]
  | [a, b] =>
    [b64Char (a.val / 4), b64Char (a.val % 4 * 16 + b.val / 16),
     b64Char (b.val % 16 * 4), b64Pad]
  | a :: b :: c :: rest =>
    b64Char (a.val / 4) :: b64Char (a.val % 4 * 16 + b.val / 16) ::
    b64Char (b.val % 16 * 4 + c.val / 64) :: b64Char (c.val % 64) ::
    base64Encode rest

/-- Carriage return or line feed, which the decoder skips. -/
def isNewline (c : Char) : Bool := c.toNat = 10 || c.toNat = 13

/-- Drops leading `\r` and `\n`. -/
def skipNewlines : List Char → List Char
  | [] => []
  | c :: rest => if isNewline c then skipNewlines rest else c :: rest

/-- What the decoder does at a padding character, `j` characters of the
current group read with accumulated value `val`: after two characters a second
`=` must follow, after three none; only newlines may come after the padding.
The unused low bits of `val` are dropped unchecked (the encoding is not
strict). -/
def base64Padding (j val : Nat) (rest : List Char) : Option (List Byte) :=
  if j = 2 then
    match skipNewlines rest with
    | p :: rest2 =>
      if p = b64Pad ∧ skipNewlines rest2 = [] then some [Fin.ofNat (val / 16)] else none
    | [] => none
  else if j = 3 then
    if skipNewlines rest = [] then some [Fin.ofNat (val / 1024), Fin.ofNat (val / 4)] else none
  else none

/-- The decoding loop of `StdEncoding.DecodeString`: `j` characters of the
current four-character group have been read and `val` holds their six-bit
values. Newlines are skipped anywhere; input may end only between groups. -/
def base64DecodeAux : Nat → Nat → List Char → Option (List Byte)
  | j, _, [] => if j = 0 then some [] else none
  | j, val, c :: rest =>
    match b64Val c with
    | some v =>
      if j = 3 then
        (base64DecodeAux 0 0 rest).map fun out =>
          Fin.ofNat ((val * 64 + v) / 65536) :: Fin.ofNat ((val * 64 + v) / 256) ::
          Fin.ofNat (val * 64 + v) :: out
      else base64DecodeAux (j + 1) (val * 64 + v) rest
    | none =>
      if isNewline c then base64DecodeAux j val rest
      else if c = b64Pad then base64Padding j val rest
      else none

/-- `StdEncoding.DecodeString`; `none` stands for a `CorruptInputError`, whose
byte offset is not modelled. -/
def base64Decode (s : List Char) : Option (List Byte) := base64DecodeAux 0 0 s

/-! ## UTF-8 -/

/-- `utf8.EncodeRune` on a Unicode scalar value. -/
def utf8EncodeChar (c : Char) : List Byte :=
  let n := c.toNat
  if n < 128 then [Fin.ofNat n]
  else if n < 2048 then [Fin.ofNat (192 + n / 64), Fin.ofNat (128 + n % 64)]
  else if n < 65536 then
    [Fin.ofNat (224 + n / 4096), Fin.ofNat (128 + n / 64 % 64), Fin.ofNat (128 + n % 64)]
  else
    [Fin.ofNat (240 + n / 262144), Fin.ofNat (128 + n / 4096 % 64),
     Fin.ofNat (128 + n / 64 % 64), Fin.ofNat (128 + n % 64)]

/-- The bytes of a Go string holding the given code points. -/
def utf8Encode (cs : List Char) : List Byte := cs.flatMap utf8EncodeChar

/-- A continuation byte `10xxxxxx`. -/
def isCont (b : Nat) : Bool := 128 ≤ b && b ≤ 191

/-- `utf8.DecodeRune`: the first rune of the input and its width. Any byte
that does not start a well-formed, shortest-form encoding of a scalar value
decodes to U+FFFD with width 1. -/
def utf8DecodeRune : List Byte → Char × Nat
  | [] => (Char.ofNat 65533, 1)
  | b0 :: rest =>
    let x := b0.val
    if x < 128 then (Char.ofNat x, 1)
    else if 194 ≤ x ∧ x ≤ 223 then
      match rest with
      | b1 :: _ =>
        if isCont b1.val then (Char.ofNat ((x - 192) * 64 + (b1.val - 128)), 2)
        else (Char.ofNat 65533, 1)
      | _ => (Char.ofNat 65533, 1)
    else if 224 ≤ x ∧ x ≤ 239 then
      match rest with
      | b1 :: b2 :: _ =>
        let lo := if x = 224 then 160 else 128
        let hi := if x = 237 then 159 else 191
        if lo ≤ b1.val ∧ b1.val ≤ hi ∧ isCont b2.val then
          (Char.ofNat ((x - 224) * 4096 + (b1.val - 128) * 64 + (b2.val - 128)), 3)
        else (Char.ofNat 65533, 1)
      | _ => (Char.ofNat 65533, 1)
    else if 240 ≤ x ∧ x ≤ 244 then
      match rest with
      | b1 :: b2 :: b3 :: _ =>
        let lo := if x = 240 then 144 else 128
        let hi := if x = 244 then 143 else 191
        if lo ≤ b1.val ∧ b1.val ≤ hi ∧ isCont b2.val ∧ isCont b3.val then
          (Char.ofNat ((x - 240) * 262144 + (b1.val - 128) * 4096 + (b2.val - 128) * 64
            + (b3.val - 128)), 4)
        else (Char.ofNat 65533, 1)
      | _ => (Char.ofNat 65533, 1)
    else (Char.ofNat 65533, 1)

/-- Rune-by-rune decoding of a byte string, as `encoding/json` coerces string
contents to well-formed UTF-8; `fuel` bounds the number of runes. -/
def utf8DecodeFuel : Nat → List Byte → List Char
  | 0, _ => []
  | _, [] => []
  | fuel + 1, b :: rest =>
    let r := utf8DecodeRune (b :: rest)
    r.1 :: utf8DecodeFuel fuel ((b :: rest).drop r.2)

/-- The code points of a byte string, invalid bytes replaced by U+FFFD. -/
def utf8Decode (bs : List Byte) : List Char := utf8DecodeFuel bs.length bs

/-! ## `dynamodb.AttributeValue` and its JSON form -/

/-- The struct `dynamodb.AttributeValue`; its fields in declaration order,
which is also the order `json.Marshal` prints them. -/
structure AttributeValue where
  B : Option (List Byte)
  BOOL : Option Bool
  BS : Option (List (Option (List Byte)))
  L : Option (List (Option AttributeValue))
  M : Option (List (String × Option AttributeValue))
  N : Option String
  NS : Option (List (Option String))
  NULL : Option Bool
  S : Option String
  SS : Option (List (Option String))

/-- The zero value of the struct: every field nil. -/
def AttributeValue.zero : AttributeValue :=
  ⟨none, none, none, none, none, none, none, none, none, none⟩

/-- A DynamoDB key or item: `map[string]*dynamodb.AttributeValue`. -/
abbrev AttrMap := GoMap (Option AttributeValue)

/-- A parsed JSON text. -/
inductive JValue where
  | null
  | bool (b : Bool)
  | num (lit : List Char)
  | str (s : String)
  | arr (xs : List JValue)
  | obj (ms : List (String × JValue))

/-- Lower-case hexadecimal digit. -/
def hexDigit (n : Nat) : Char :=
  if n < 10 then Char.ofNat (48 + n) else Char.ofNat (87 + n)

/-- How `json.Marshal` writes one code point inside a string: the two-character
escapes for the quote, the backslash, `\b`, `\f`, `\n`, `\r`, `\t`; `\u00XX` for
the other control characters and, with HTML escaping on, for `<`, `>`, `&`;
also for U+2028 and U+2029; everything else as itself. (Before Go 1.22 the
backspace and the form feed were written `\u0008` and `\u000c`; the decoder
reads either form.) -/
def jsonEscapeChar (c : Char) : List Char :=
  let n := c.toNat
  if n = 34 then [Char.ofNat 92, Char.ofNat 34]
  else if n = 92 then [Char.ofNat 92, Char.ofNat 92]
  else if n = 10 then [Char.ofNat 92, Char.ofNat 110]
  else if n = 13 then [Char.ofNat 92, Char.ofNat 114]
  else if n = 9 then [Char.ofNat 92, Char.ofNat 116]
  else if n = 8 then [Char.ofNat 92, Char.ofNat 98]
  else if n = 12 then [Char.ofNat 92, Char.ofNat 102]
  else if n < 32 ∨ n = 60 ∨ n = 62 ∨ n = 38 ∨ n = 8232 ∨ n = 8233 then
    [Char.ofNat 92, Char.ofNat 117, hexDigit (n / 4096 % 16), hexDigit (n / 256 % 16),
     hexDigit (n / 16 % 16), hexDigit (n % 16)]
  else [c]

/-- A JSON string literal. -/
def jsonQuote (s : String) : List Char :=
  Char.ofNat 34 :: (s.data.flatMap jsonEscapeChar ++ [Char.ofNat 34])

/-- The literal `null`. -/
def jsonNull : List Char := [Char.ofNat 110, Char.ofNat 117, Char.ofNat 108, Char.ofNat 108]

/-- The literals `true` and `false`. -/
def jsonBool (b : Bool) : List Char :=
  if b then [Char.ofNat 116, Char.ofNat 114, Char.ofNat 117, Char.ofNat 101]
  else [Char.ofNat 102, Char.ofNat 97, Char.ofNat 108, Char.ofNat 115, Char.ofNat 101]

/-- Texts separated by commas. -/
def jsonJoin : List (List Char) → List Char
  | [] => []
  | [x] => x
  | x :: y :: rest => x ++ Char.ofNat 44 :: jsonJoin (y :: rest)

/-- A JSON array of the given element texts. -/
def jsonArray (xs : List (List Char)) : List Char :=
  Char.ofNat 91 :: (jsonJoin xs ++ [Char.ofNat 93])

/-- A JSON object of the given members, printed in key order. -/
def jsonObject (ms : List (String × List Char)) : List Char :=
  Char.ofNat 123 ::
    (jsonJoin (ms.map fun m => jsonQuote m.1 ++ Char.ofNat 58 :: m.2) ++ [Char.ofNat 125])

/-- A nil pointer or slice prints as `null`. -/
def jsonOpt {α : Type} (f : α → List Char) : Option α → List Char
  | none => jsonNull
  | some a => f a

/-- A `[]byte` prints as a base64 string. -/
def jsonBytes (b : List Byte) : List Char :=
  Char.ofNat 34 :: (base64Encode b ++ [Char.ofNat 34])

/-- The members of a Go map in the order `json.Marshal` prints them. -/
def sortMembers {α : Type} (ms : List (String × α)) : GoMap α :=
  ms.foldl (fun acc m => GoMap.insert m.1 m.2 acc) []

mutual
/-- The text `json.Marshal` writes for an `AttributeValue` struct. -/
def jsonOfAttr : AttributeValue → List Char
  | ⟨b, bool, bs, l, m, n, ns, null, s, ss⟩ =>
    jsonObject [
      ("B", jsonOpt jsonBytes b),
      ("BOOL", jsonOpt jsonBool bool),
      ("BS", jsonOpt (fun xs => jsonArray (xs.map (jsonOpt jsonBytes))) bs),
      ("L", jsonOfAttrList l),
      ("M", jsonOfAttrMap m),
      ("N", jsonOpt jsonQuote n),
      ("NS", jsonOpt (fun xs => jsonArray (xs.map (jsonOpt jsonQuote))) ns),
      ("NULL", jsonOpt jsonBool null),
      ("S", jsonOpt jsonQuote s),
      ("SS", jsonOpt (fun xs => jsonArray (xs.map (jsonOpt jsonQuote))) ss)]
/-- The text of a `*AttributeValue`. -/
def jsonOfAttrPtr : Option AttributeValue → List Char
  | none => jsonNull
  | some a => jsonOfAttr a
/-- The text of the field `L`. -/
def jsonOfAttrList : Option (List (Option AttributeValue)) → List Char
  | none => jsonNull
  | some xs => jsonArray (jsonOfAttrElems xs)
/-- The element texts of a list of attribute values. -/
def jsonOfAttrElems : List (Option AttributeValue) → List (List Char)
  | [] => []
  | x :: xs => jsonOfAttrPtr x :: jsonOfAttrElems xs
/-- The text of the field `M`. -/
def jsonOfAttrMap : Option (List (String × Option AttributeValue)) → List Char
  | none => jsonNull
  | some ms => jsonObject (sortMembers (jsonOfAttrMembers ms))
/-- The member texts of a map of attribute values. -/
def jsonOfAttrMembers : List (String × Option AttributeValue) → List (String × List Char)
  | [] => []
  | (k, x) :: ms => (k, jsonOfAttrPtr x) :: jsonOfAttrMembers ms
end

/-- The text `json.Marshal` writes for a `map[string]*dynamodb.AttributeValue`:
`null` for a nil map, else an object with the keys in sorted order. -/
def jsonOfAttrMapTop : Option AttrMap → List Char
  | none => jsonNull
  | some m => jsonObject (sortMembers (m.map fun e => (e.1, jsonOfAttrPtr e.2)))

/-- `json.Marshal` at the type of a key map. It has no failing case at this
type; the error result is kept for the caller's check. -/
def jsonMarshal (key : Option AttrMap) : Except GoError (List Byte) :=
  .ok (utf8Encode (jsonOfAttrMapTop key))

/-! ## `encoding/json`: reading a JSON text -/

/-- JSON whitespace: space, tab, line feed, carriage return. -/
def isWS (c : Char) : Bool :=
  c.toNat = 32 || c.toNat = 9 || c.toNat = 10 || c.toNat = 13

/-- Drops leading whitespace. -/
def skipWS : List Char → List Char
  | [] => []
  | c :: rest => if isWS c then skipWS rest else c :: rest

/-- Value of a hexadecimal digit of either case. -/
def hexVal (c : Char) : Option Nat :=
  let v := c.toNat
  if 48 ≤ v ∧ v ≤ 57 then some (v - 48)
  else if 97 ≤ v ∧ v ≤ 102 then some (v - 87)
  else if 65 ≤ v ∧ v ≤ 70 then some (v - 55)
  else none

/-- Four hexadecimal digits at the head of the input. -/
def hex4 : List Char → Option (Nat × List Char)
  | a :: b :: c :: d :: rest =>
    match hexVal a, hexVal b, hexVal c, hexVal d with
    | some x, some y, some z, some w => some (x * 4096 + y * 256 + z * 16 + w, rest)
    | _, _, _, _ => none
  | _ => none

/-- An escape `\uXXXX` at the head of the input (`getu4`). -/
def unicodeEscape : List Char → Option (Nat × List Char)
  | b :: u :: rest => if b.toNat = 92 ∧ u.toNat = 117 then hex4 rest else none
  | _ => none

/-- The character a two-character escape stands for. -/
def simpleEscape (e : Char) : Option Char :=
  let n := e.toNat
  if n = 34 then some (Char.ofNat 34)
  else if n = 92 then some (Char.ofNat 92)
  else if n = 47 then some (Char.ofNat 47)
  else if n = 98 then some (Char.ofNat 8)
  else if n = 102 then some (Char.ofNat 12)
  else if n = 110 then some (Char.ofNat 10)
  else if n = 114 then some (Char.ofNat 13)
  else if n = 116 then some (Char.ofNat 9)
  else none

/-- Puts a character in front of a parsed string body. -/
def consChar (c : Char) (r : Option (List Char × List Char)) : Option (List Char × List Char) :=
  r.map fun p => (c :: p.1, p.2)

/-- The contents of a string literal after its opening quote, unquoted, and
the input after its closing quote. A surrogate escape that is not the first
half of a valid pair becomes U+FFFD. -/
def parseStringBody : Nat → List Char → Option (List Char × List Char)
  | 0, _ => none
  | _, [] => none
  | fuel + 1, c :: rest =>
    if c.toNat = 34 then some ([], rest)
    else if c.toNat = 92 then
      match rest with
      | [] => none
      | e :: rest2 =>
        if e.toNat = 117 then
          match hex4 rest2 with
          | none => none
          | some (u, rest3) =>
            if 55296 ≤ u ∧ u ≤ 57343 then
              match unicodeEscape rest3 with
              | some (lo, rest4) =>
                if u ≤ 56319 ∧ 56320 ≤ lo ∧ lo ≤ 57343 then
                  consChar (Char.ofNat (65536 + (u - 55296) * 1024 + (lo - 56320)))
                    (parseStringBody fuel rest4)
                else consChar (Char.ofNat 65533) (parseStringBody fuel rest3)
              | none => consChar (Char.ofNat 65533) (parseStringBody fuel rest3)
            else consChar (Char.ofNat u) (parseStringBody fuel rest3)
        else
          match simpleEscape e with
          | some x => consChar x (parseStringBody fuel rest2)
          | none => none
    else if c.toNat < 32 then none
    else consChar c (parseStringBody fuel rest)

/-- A decimal digit. -/
def isDigit (c : Char) : Bool := 48 ≤ c.toNat && c.toNat ≤ 57

/-- One or more digits at the head of the input. -/
def digits1 (cs : List Char) : Option (List Char × List Char) :=
  let r := cs.span isDigit
  if r.1.isEmpty then none else some r

/-- The integer part of a number: `0`, or a non-zero digit and more digits. -/
def parseInt : List Char → Option (List Char × List Char)
  | [] => none
  | d :: rest =>
    if d.toNat = 48 then some ([d], rest)
    else if isDigit d then
      let r := rest.span isDigit
      some (d :: r.1, r.2)
    else none

/-- An optional fraction `.digits`. -/
def parseFrac : List Char → Option (List Char × List Char)
  | [] => some ([], [])
  | c :: rest =>
    if c.toNat = 46 then (digits1 rest).map fun r => (c :: r.1, r.2)
    else some ([], c :: rest)

/-- An optional exponent `e`, optional sign, digits. -/
def parseExp : List Char → Option (List Char × List Char)
  | [] => some ([], [])
  | c :: rest =>
    if c.toNat = 101 ∨ c.toNat = 69 then
      match rest with
      | sg :: rest2 =>
        if sg.toNat = 43 ∨ sg.toNat = 45 then
          (digits1 rest2).map fun r => (c :: sg :: r.1, r.2)
        else (digits1 rest).map fun r => (c :: r.1, r.2)
      | [] => none
    else some ([], c :: rest)

/-- A number literal without its optional minus sign. -/
def parseUnsigned (cs : List Char) : Option (List Char × List Char) :=
  match parseInt cs with
  | none => none
  | some (i, r1) =>
    match parseFrac r1 with
    | none => none
    | some (f, r2) =>
      match parseExp r2 with
      | none => none
      | some (e, r3) => some (i ++ f ++ e, r3)

/-- A number literal at the head of the input. -/
def parseNumber : List Char → Option (List Char × List Char)
  | [] => none
  | c :: rest =>
    if c.toNat = 45 then (parseUnsigned rest).map fun r => (c :: r.1, r.2)
    else parseUnsigned (c :: rest)

/-- One of the literals `null`, `true`, `false` at the head of the input. -/
def parseLiteral : List Char → Option (JValue × List Char)
  | a :: b :: c :: d :: rest =>
    if [a, b, c, d] = jsonNull then some (.null, rest)
    else if [a, b, c, d] = jsonBool true then some (.bool true, rest)
    else
      match rest with
      | e :: rest2 => if [a, b, c, d, e] = jsonBool false then some (.bool false, rest2) else none
      | [] => none
  | _ => none

mutual
/-- A JSON value at the head of the input, after optional whitespace. -/
def parseValue : Nat → List Char → Option (JValue × List Char)
  | 0, _ => none
  | fuel + 1, cs =>
    match skipWS cs with
    | [] => none
    | c :: rest =>
      if c.toNat = 123 then
        match skipWS rest with
        | [] => none
        | d :: rest2 =>
          if d.toNat = 125 then some (.obj [], rest2)
          else (parseMembers fuel (d :: rest2)).map fun r => (.obj r.1, r.2)
      else if c.toNat = 91 then
        match skipWS rest with
        | [] => none
        | d :: rest2 =>
          if d.toNat = 93 then some (.arr [], rest2)
          else (parseElements fuel (d :: rest2)).map fun r => (.arr r.1, r.2)
      else if c.toNat = 34 then
        (parseStringBody fuel rest).map fun r => (.str (String.mk r.1), r.2)
      else if c.toNat = 110 ∨ c.toNat = 116 ∨ c.toNat = 102 then parseLiteral (c :: rest)
      else (parseNumber (c :: rest)).map fun r => (.num r.1, r.2)
/-- The elements of a non-empty array and its closing bracket. -/
def parseElements : Nat → List Char → Option (List JValue × List Char)
  | 0, _ => none
  | fuel + 1, cs =>
    match parseValue fuel cs with
    | none => none
    | some (v, rest) =>
      match skipWS rest with
      | [] => none
      | c :: rest2 =>
        if c.toNat = 44 then (parseElements fuel rest2).map fun r => (v :: r.1, r.2)
        else if c.toNat = 93 then some ([v], rest2)
        else none
/-- The members of a non-empty object and its closing brace. -/
def parseMembers : Nat → List Char → Option (List (String × JValue) × List Char)
  | 0, _ => none
  | fuel + 1, cs =>
    match skipWS cs with
    | [] => none
    | q :: rest =>
      if q.toNat = 34 then
        match parseStringBody fuel rest with
        | none => none
        | some (k, rest2) =>
          match skipWS rest2 with
          | [] => none
          | colon :: rest3 =>
            if colon.toNat = 58 then
              match parseValue fuel rest3 with
              | none => none
              | some (v, rest4) =>
                match skipWS rest4 with
                | [] => none
                | c :: rest5 =>
                  if c.toNat = 44 then
                    (parseMembers fuel rest5).map fun r => ((String.mk k, v) :: r.1, r.2)
                  else if c.toNat = 125 then some ([(String.mk k, v)], rest5)
                  else none
            else none
      else none
end

/-- A whole JSON text: one value, whitespace around it, nothing else. The fuel
is more than twice the input length, which no nesting can use up since every
second nested call consumes a character. -/
def parseJSON (cs : List Char) : Option JValue :=
  match parseValue (2 * cs.length + 2) cs with
  | none => none
  | some (v, rest) => if (skipWS rest).isEmpty then some v else none

/-! ## `encoding/json`: storing a JSON value into a key map -/

/-- The message of an `UnmarshalTypeError`. -/
def typeMismatch : GoError := "json: cannot unmarshal value into Go value"

/-- The fields of `dynamodb.AttributeValue`. -/
inductive AttrField where
  | B | BOOL | BS | L | M | N | NS | NULL | S | SS
  deriving DecidableEq

/-- Simple case folding as far as it reaches ASCII letters: lower case to upper
case, the long s to `S`, the Kelvin sign to `K`. -/
def foldChar (c : Char) : Char :=
  let n := c.toNat
  if 97 ≤ n ∧ n ≤ 122 then Char.ofNat (n - 32)
  else if n = 383 then Char.ofNat 83
  else if n = 8490 then Char.ofNat 75
  else c

/-- The struct field a member name selects: the field whose name equals it
under case folding, if any. -/
def attrFieldOf (k : String) : Option AttrField :=
  let f := String.mk (k.data.map foldChar)
  if f = "B" then some .B
  else if f = "BOOL" then some .BOOL
  else if f = "BS" then some .BS
  else if f = "L" then some .L
  else if f = "M" then some .M
  else if f = "N" then some .N
  else if f = "NS" then some .NS
  else if f = "NULL" then some .NULL
  else if f = "S" then some .S
  else if f = "SS" then some .SS
  else none

/-- Storing into a `*string`. -/
def decodeString : JValue → Except GoError (Option String)
  | .null => .ok none
  | .str s => .ok (some s)
  | _ => .error typeMismatch

/-- Storing into a `*bool`. -/
def decodeBool : JValue → Except GoError (Option Bool)
  | .null => .ok none
  | .bool b => .ok (some b)
  | _ => .error typeMismatch

/-- Storing into a `uint8` element: an unsigned integer literal up to 255;
`null` leaves the zero value. -/
def decodeUint8 : JValue → Except GoError Byte
  | .null => .ok 0
  | .num lit =>
    let v := lit.foldl (fun a c => a * 10 + (c.toNat - 48)) 0
    if lit.all isDigit ∧ v ≤ 255 then .ok (Fin.ofNat v) else .error typeMismatch
  | _ => .error typeMismatch

/-- Storing into a `[]byte`: a base64 string, or an array of small integers. -/
def decodeBytes : JValue → Except GoError (Option (List Byte))
  | .null => .ok none
  | .str s =>
    match base64Decode s.data with
    | some b => .ok (some b)
    | none => .error "illegal base64 data"
  | .arr xs => (xs.mapM decodeUint8).map some
  | _ => .error typeMismatch

/-- Storing into a `[]*string`. -/
def decodeStrings : JValue → Except GoError (Option (List (Option String)))
  | .null => .ok none
  | .arr xs => (xs.mapM decodeString).map some
  | _ => .error typeMismatch

/-- Storing into a `[][]byte`. -/
def decodeBytesList : JValue → Except GoError (Option (List (Option (List Byte))))
  | .null => .ok none
  | .arr xs => (xs.mapM decodeBytes).map some
  | _ => .error typeMismatch

mutual
/-- Storing into a `*AttributeValue`. -/
def decodeAttrPtr : JValue → Except GoError (Option AttributeValue)
  | .null => .ok none
  | .obj ms => (decodeAttrFields ms AttributeValue.zero).map some
  | _ => .error typeMismatch
/-- Storing the members of an object into the fields of an `AttributeValue`;
a member that names no field is skipped, a repeated member stores again. For a
repeated `L` the model keeps the later list alone. -/
def decodeAttrFields : List (String × JValue) → AttributeValue → Except GoError AttributeValue
  | [], av => .ok av
  | (k, v) :: rest, av =>
    match attrFieldOf k with
    | none => decodeAttrFields rest av
    | some .B => (decodeBytes v).bind fun x => decodeAttrFields rest { av with B := x }
    | some .BOOL => (decodeBool v).bind fun x => decodeAttrFields rest { av with BOOL := x }
    | some .BS => (decodeBytesList v).bind fun x => decodeAttrFields rest { av with BS := x }
    | some .L => (decodeAttrList v).bind fun x => decodeAttrFields rest { av with L := x }
    | some .M => (decodeAttrMap v av.M).bind fun x => decodeAttrFields rest { av with M := x }
    | some .N => (decodeString v).bind fun x => decodeAttrFields rest { av with N := x }
    | some .NS => (decodeStrings v).bind fun x => decodeAttrFields rest { av with NS := x }
    | some .NULL => (decodeBool v).bind fun x => decodeAttrFields rest { av with NULL := x }
    | some .S => (decodeString v).bind fun x => decodeAttrFields rest { av with S := x }
    | some .SS => (decodeStrings v).bind fun x => decodeAttrFields rest { av with SS := x }
/-- Storing into a `[]*AttributeValue`. -/
def decodeAttrList : JValue → Except GoError (Option (List (Option AttributeValue)))
  | .null => .ok none
  | .arr xs => (decodeAttrElems xs).map some
  | _ => .error typeMismatch
/-- Storing the elements of an array of attribute values. -/
def decodeAttrElems : List JValue → Except GoError (List (Option AttributeValue))
  | [] => .ok []
  | x :: xs =>
    (decodeAttrPtr x).bind fun a => (decodeAttrElems xs).map fun as => a :: as
/-- Storing into a `map[string]*AttributeValue` that currently holds `old`:
`null` makes it nil, an object adds its members to the entries already there. -/
def decodeAttrMap : JValue → Option AttrMap → Except GoError (Option AttrMap)
  | .null, _ => .ok none
  | .obj ms, old => (decodeAttrMembers ms (old.getD [])).map some
  | _, _ => .error typeMismatch
/-- Storing the members of an object into a map, each value into a fresh
element. -/
def decodeAttrMembers : List (String × JValue) → AttrMap → Except GoError AttrMap
  | [], m => .ok m
  | (k, v) :: rest, m =>
    (decodeAttrPtr v).bind fun a => decodeAttrMembers rest (GoMap.insert k a m)
end

/-- `json.Unmarshal(data, &key)` for `var key map[string]*dynamodb.AttributeValue`:
a syntax error anywhere in the text, or a value of the wrong JSON type for the
place it is stored into, is an error. The error texts are placeholders for the
messages of the library, which the model does not reproduce. -/
def jsonUnmarshal (data : List Byte) : Except GoError (Option AttrMap) :=
  match parseJSON (utf8Decode data) with
  | none => .error "invalid character in JSON input"
  | some j => decodeAttrMap j none

/-! ## Records and `dynamodbattribute.Marshal` -/

/-- A value held in a `node` (`interface{}`), as `dynamodbattribute.UnmarshalMap`
produces them. A `float64` is represented by the decimal text
`strconv.FormatFloat(x, 'f', -1, 64)` prints for it, which is all `Marshal`
uses of it. A value of any other dynamic type (slice, map, ...) is represented
by what `dynamodbattribute.Marshal` returns for it. -/
inductive GoValue where
  | nil
  | bool (b : Bool)
  | str (s : String)
  | num (text : String)
  | bytes (b : List Byte)
  | other (marshalled : Except GoError AttributeValue)

/-- The type `node`: `map[string]interface{}`. -/
abbrev node := GoMap GoValue

/-- The index expression `n[name]`: the nil interface when the key is absent. -/
def node.index (n : node) (name : String) : GoValue :=
  (GoMap.get name n).getD GoValue.nil

/-- `dynamodbattribute.Marshal` with the default encoder options: nil, the
empty string and the empty byte slice become `NULL: true`; a string becomes
`S`, a number `N`, a bool `BOOL`, a byte slice `B`. -/
def marshal : GoValue → Except GoError AttributeValue
  | .nil => .ok { AttributeValue.zero with NULL := some true }
  | .bool b => .ok { AttributeValue.zero with BOOL := some b }
  | .str s =>
    if s.data.isEmpty then .ok { AttributeValue.zero with NULL := some true }
    else .ok { AttributeValue.zero with S := some s }
  | .num text => .ok { AttributeValue.zero with N := some text }
  | .bytes b =>
    if b.isEmpty then .ok { AttributeValue.zero with NULL := some true }
    else .ok { AttributeValue.zero with B := some b }
  | .other r => r

/-- The struct `dynamodb.KeySchemaElement` (both fields are required by the
service and never nil). -/
structure KeySchemaElement where
  AttributeName : String
  KeyType : String

/-! ## The cursor functions of `main.go` -/

/-- The loop of `encodeKey` (lines 198-204): marshal `n[name]` for each schema
element and store it under that name. -/
def encodeKeyLoop : List KeySchemaElement → node → AttrMap → Except GoError AttrMap
  | [], _, key => .ok key
  | element :: rest, n, key =>
    match marshal (n.index element.AttributeName) with
    | .error err => .error err
    | .ok v => encodeKeyLoop rest n (GoMap.insert element.AttributeName (some v) key)

/-- The function `encodeKey` (lines 196-212). -/
def encodeKey (tableKeySchema : List KeySchemaElement) (n : node) : Except GoError String :=
  match encodeKeyLoop tableKeySchema n [] with
  | .error err => .error err
  | .ok key =>
    match jsonMarshal (some key) with
    | .error err => .error err
    | .ok marshaled => .ok (String.mk (base64Encode marshaled))

/-- The function `decodeKey` (lines 214-226). Which strings fail is modelled
exactly; of the error values of the two library calls the model keeps a fixed
text each, without the byte offset a `base64.CorruptInputError` reports and
without the detail of a `json.SyntaxError` or `json.UnmarshalTypeError`. -/
def decodeKey (encoded : String) : Except GoError (Option AttrMap) :=
  match base64Decode encoded.data with
  | none => .error "illegal base64 data"
  | some jsn =>
    match jsonUnmarshal jsn with
    | .error err => .error err
    | .ok key => .ok key

/-! ## The request handler of `main.go` -/

/-- The constant `defaultPageSize`. -/
def defaultPageSize : Int := 100

/-- The struct `dynamoFilterExpression`. -/
structure dynamoFilterExpression where
  Expression : String
  Names : Option (GoMap (Option String))
  Values : Option AttrMap

/-- The struct `payload`; `Filter` is a pointer. -/
structure payload where
  TableName : String
  Filter : Option dynamoFilterExpression
  First : Int
  Last : Int
  After : String
  Before : String

/-- The struct `pageInfo`. -/
structure pageInfo where
  HasNext : Bool
  HasPrev : Bool
  StartCursor : String
  EndCursor : String

/-- The struct `edge`; `Node` points to the node built for the item. -/
structure edge where
  Cursor : String
  Node : node

/-- The struct `response`. -/
structure response where
  Edges : List edge
  PageInfo : pageInfo

/-- The fields of `dynamodb.ScanInput` that `HandleRequest` sets. -/
structure ScanInput where
  ExpressionAttributeNames : Option (GoMap (Option String))
  ExpressionAttributeValues : Option AttrMap
  FilterExpression : String
  TableName : String
  Limit : Int
  ExclusiveStartKey : Option AttrMap

/-- The fields of `dynamodb.ScanOutput` that `HandleRequest` reads. -/
structure ScanOutput where
  Items : List (Option AttrMap)
  LastEvaluatedKey : Option AttrMap

/-- What `HandleRequest` calls outside the repository: the DynamoDB client
`svc`, whose answers may depend on a state `σ` of the service,
`dynamodbattribute.UnmarshalMap` into a `node`, and `json.Marshal` of the
response. `describeTable` returns `table.Table.KeySchema`. Of
`json.Marshal(resp)` (line 189) the model keeps whether it fails:
`marshalError resp` is its error, `none` when it succeeds, in which case its
output is the string `HandleRequest` returns. -/
structure Collaborators (σ : Type) where
  describeTable : σ → String → Except GoError (List KeySchemaElement) × σ
  scan : σ → ScanInput → Except GoError ScanOutput × σ
  unmarshalMap : Option AttrMap → Except GoError node
  marshalError : response → Option GoError

/-- A call made on the DynamoDB client. -/
inductive Call where
  | describeTable (tableName : String)
  | scan (input : ScanInput)

/-- What a run of `HandleRequest` amounts to: the value it returns (the
response whose serialisation by `json.Marshal` at line 189 is the string
returned, or the error returned with the empty string), the calls made on the
client in order, and the state the service is left in. `result = none` means that the loop of lines 132-183
is still running after the allowed number of scan calls. -/
structure Outcome (σ : Type) where
  result : Option (Except GoError response)
  calls : List Call
  state : σ

/-- `errors.Wrap(err, msg)`. -/
def wrapError (err : GoError) (msg : String) : GoError := msg ++ ": " ++ err

/-- The inner loop, lines 139-171, over the items of one scan result: returns
the response and the counter `found` as they are when the loop is left, by
exhausting the items or by the `break` of line 169. -/
def scanItems (unmarshalMap : Option AttrMap → Except GoError node)
    (tableKeySchema : List KeySchemaElement) (first : Int) :
    List (Option AttrMap) → response → Int → Except GoError (response × Int)
  | [], resp, found => .ok (resp, found)
  | item :: rest, resp, found =>
    match unmarshalMap item with
    | .error err => .error err
    | .ok n =>
      match encodeKey tableKeySchema n with
      | .error err => .error (wrapError err "failed to encode key")
      | .ok cursor =>
        let resp1 : response := { resp with Edges := resp.Edges ++ [⟨cursor, n⟩] }
        if found + 1 = first then
          .ok ({ resp1 with
                  PageInfo := { resp1.PageInfo with HasNext := true, EndCursor := cursor } },
               found + 1)
        else scanItems unmarshalMap tableKeySchema first rest resp1 (found + 1)

/-- The outer loop, lines 132-183; `fuel` is the number of scan calls it may
still make. -/
def scanLoop {σ : Type} (c : Collaborators σ) (tableKeySchema : List KeySchemaElement)
    (first : Int) :
    Nat → σ → ScanInput → response → Int → List Call → Outcome σ
  | 0, s, _, resp, _, calls =>
    if (resp.Edges.length : Int) < first then ⟨none, calls, s⟩
    else ⟨some (.ok resp), calls, s⟩
  | fuel + 1, s, input, resp, found, calls =>
    if (resp.Edges.length : Int) < first then
      match c.scan s input with
      | (.error err, s1) => ⟨some (.error err), calls ++ [Call.scan input], s1⟩
      | (.ok result, s1) =>
        match scanItems c.unmarshalMap tableKeySchema first result.Items resp found with
        | .error err => ⟨some (.error err), calls ++ [Call.scan input], s1⟩
        | .ok (resp1, found1) =>
          match result.LastEvaluatedKey with
          | none => ⟨some (.ok resp1), calls ++ [Call.scan input], s1⟩
          | some k =>
            scanLoop c tableKeySchema first fuel s1 { input with ExclusiveStartKey := some k }
              resp1 found1 (calls ++ [Call.scan input])
    else ⟨some (.ok resp), calls, s⟩

/-- The value of `p.First` after lines 84-86. -/
def pageSize (p : payload) : Int := if p.First = 0 then defaultPageSize else p.First

/-- The scan input of lines 92-98, before the start key is set. -/
def scanInputOf (p : payload) (filter : dynamoFilterExpression) : ScanInput :=
  { ExpressionAttributeNames := filter.Names
    ExpressionAttributeValues := filter.Values
    FilterExpression := filter.Expression
    TableName := p.TableName
    Limit := pageSize p
    ExclusiveStartKey := none }

/-- The size of an `edge` in bytes on a 64-bit platform: a string header and a
pointer. -/
def edgeSize : Int := 24

/-- The constant `maxAlloc` of the Go runtime on the 64-bit platforms a Lambda
runs on: 2^48 bytes. -/
def maxAlloc : Int := 281474976710656

/-- Lines 189-193, after the loop: `json.Marshal(resp)` and its error check.
An error the loop returned has left the function before. -/
def serialise {σ : Type} (c : Collaborators σ) (o : Outcome σ) : Outcome σ :=
  match o.result with
  | some (.ok resp) =>
    match c.marshalError resp with
    | some err => ⟨some (.error err), o.calls, o.state⟩
    | none => o
  | _ => o

/-- The function `HandleRequest` (lines 65-194), run from service state `s`
with at most `fuel` scan calls. `make([]edge, 0, p.First)` panics
(`makeslice: cap out of range`) for a negative capacity and for a capacity
whose `edgeSize` multiple exceeds `maxAlloc`; the panic is rendered as an
error result. Below that limit the allocation is taken to succeed: a machine
that runs out of memory earlier is not modelled. -/
def HandleRequest {σ : Type} (c : Collaborators σ) (fuel : Nat) (s : σ) (p : payload) :
    Outcome σ :=
  if p.TableName = "" then ⟨some (.error "request missing tableName"), [], s⟩
  else
    match p.Filter with
    | none => ⟨some (.error "request missing filter expression"), [], s⟩
    | some filter =>
      if p.Before ≠ "" ∨ p.Last > 0 then
        ⟨some (.error "backwards paging not yet supported"), [], s⟩
      else
        let input := scanInputOf p filter
        let start : Except GoError ScanInput :=
          if p.After ≠ "" then
            match decodeKey p.After with
            | .error err => .error (wrapError err "unable to decode \x27after\x27 cursor")
            | .ok after => .ok { input with ExclusiveStartKey := after }
          else .ok input
        match start with
        | .error err => ⟨some (.error err), [], s⟩
        | .ok input1 =>
          match c.describeTable s p.TableName with
          | (.error err, s1) => ⟨some (.error err), [Call.describeTable p.TableName], s1⟩
          | (.ok tableKeySchema, s1) =>
            if tableKeySchema.length = 0 then
              ⟨some (.error "empty table key schema - unable to determine key fields"),
                [Call.describeTable p.TableName], s1⟩
            else if pageSize p < 0 ∨ maxAlloc < edgeSize * pageSize p then
              ⟨some (.error "panic: runtime error: makeslice: cap out of range"),
                [Call.describeTable p.TableName], s1⟩
            else
              serialise c (scanLoop c tableKeySchema (pageSize p) fuel s1 input1
                ⟨[], ⟨false, false, "", ""⟩⟩ 0 [Call.describeTable p.TableName])

/-! ## Notions used to state the properties -/

/-- The chunk sequence of the scan collaborator: the results it gives from
state `s` when each continuation key is threaded into the next call, up to and
including the first result without a continuation key. `none` when a call
fails or no such result comes within `n` calls. -/
def scanChunks {σ : Type} (c : Collaborators σ) : Nat → σ → ScanInput → Option (List ScanOutput)
  | 0, _, _ => none
  | n + 1, s, input =>
    match c.scan s input with
    | (.error _, _) => none
    | (.ok out, s1) =>
      match out.LastEvaluatedKey with
      | none => some [out]
      | some k =>
        (scanChunks c n s1 { input with ExclusiveStartKey := some k }).map fun rest => out :: rest

/-- The items of a chunk sequence, concatenated in scan order. -/
def chunkItems (cs : List ScanOutput) : List (Option AttrMap) := cs.flatMap fun out => out.Items

/-- The start key lines 99-105 give the first scan call. -/
def startKey (p : payload) : Except GoError (Option AttrMap) :=
  if p.After ≠ "" then decodeKey p.After else .ok none

/-- The request passes the checks of lines 67-77 with filter `filter`, its
page size is positive after defaulting, its cursor (if any) decodes to `k`,
and the table description answers with the non-empty key schema `schema`,
leaving the service in state `s1`. -/
def Accepted {σ : Type} (c : Collaborators σ) (s : σ) (p : payload)
    (filter : dynamoFilterExpression) (k : Option AttrMap)
    (schema : List KeySchemaElement) (s1 : σ) : Prop :=
  p.TableName ≠ "" ∧ p.Filter = some filter ∧ p.Before = "" ∧ p.Last ≤ 0 ∧
  0 < pageSize p ∧ startKey p = .ok k ∧
  c.describeTable s p.TableName = (.ok schema, s1) ∧ schema ≠ []

/-- The input of the first scan call of an accepted request. -/
def firstInput (p : payload) (filter : dynamoFilterExpression) (k : Option AttrMap) : ScanInput :=
  { scanInputOf p filter with ExclusiveStartKey := k }

/-- `e` is the edge of `item`: its node is the unmarshalled item and its
cursor is the encoded key of that node. -/
def IsEdgeOf {σ : Type} (c : Collaborators σ) (schema : List KeySchemaElement)
    (item : Option AttrMap) (e : edge) : Prop :=
  c.unmarshalMap item = .ok e.Node ∧ encodeKey schema e.Node = .ok e.Cursor

/-- The page information of a response under construction before any cutoff. -/
def pageInfo.zero : pageInfo := ⟨false, false, "", ""⟩

/-- The scan inputs among the calls of a run, in order. -/
def scanInputs : List Call → List ScanInput
  | [] => []
  | Call.scan input :: rest => input :: scanInputs rest
  | Call.describeTable _ :: rest => scanInputs rest

/-- The typed attribute value of a key field: `S` for a string, `N` for a
number, `B` for binary data, the field's value unchanged. -/
def typedAttr : GoValue → AttributeValue
  | .str s => { AttributeValue.zero with S := some s }
  | .num text => { AttributeValue.zero with N := some text }
  | .bytes b => { AttributeValue.zero with B := some b }
  | .bool b => { AttributeValue.zero with BOOL := some b }
  | .nil => { AttributeValue.zero with NULL := some true }
  | .other _ => AttributeValue.zero

/-- A populated key field: a non-empty string, a number, or non-empty binary
data (the values DynamoDB admits for a key attribute). -/
def Populated : GoValue → Prop
  | .str s => s ≠ ""
  | .num _ => True
  | .bytes b => b ≠ []
  | _ => False

/-- The record restricted to the field names of the key schema, each field
with its typed value. -/
def restrict (schema : List KeySchemaElement) (n : node) : AttrMap :=
  schema.foldl
    (fun key element =>
      GoMap.insert element.AttributeName (some (typedAttr (n.index element.AttributeName))) key)
    []

/-- The cursor of the last edge of a list, the empty string for no edge. -/
def lastCursor (es : List edge) : String := (es.getLast?.map fun e => e.Cursor).getD ""

/-- The shape of every response the loop can return for page size `first`:
below `first` edges the page information is untouched; at `first` edges the
cutoff of lines 162-170 has run on the last edge. -/
def PageShape (first : Int) (resp : response) : Prop :=
  ((resp.Edges.length : Int) < first ∧ resp.PageInfo = pageInfo.zero) ∨
  ((resp.Edges.length : Int) = first ∧
    resp.PageInfo = ⟨true, false, "", lastCursor resp.Edges⟩ ∧ resp.Edges ≠ [])

/-- The number of edges of a successful run. -/
def Outcome.edgeCount {σ : Type} (o : Outcome σ) : Option Nat :=
  match o.result with
  | some (.ok resp) => some resp.Edges.length
  | _ => none

/-- The cursors of the edges of a successful run. -/
def Outcome.cursors {σ : Type} (o : Outcome σ) : Option (List String) :=
  match o.result with
  | some (.ok resp) => some (resp.Edges.map fun e => e.Cursor)
  | _ => none

/-- The `hasNextPage` of a successful run. -/
def Outcome.hasNext {σ : Type} (o : Outcome σ) : Option Bool :=
  match o.result with
  | some (.ok resp) => some resp.PageInfo.HasNext
  | _ => none

/-- The `endCursor` of a successful run. -/
def Outcome.endCursor {σ : Type} (o : Outcome σ) : Option String :=
  match o.result with
  | some (.ok resp) => some resp.PageInfo.EndCursor
  | _ => none

/-- The error message of a failed run. -/
def Outcome.failure {σ : Type} (o : Outcome σ) : Option GoError :=
  match o.result with
  | some (.error err) => some err
  | _ => none

/-! ## Example collaborators -/

/-- An instance of `UnmarshalMap` on one attribute, for the examples: scalar
attributes with `N` already in the text `FormatFloat` prints. -/
def unmarshalScalar (av : AttributeValue) : Except GoError GoValue :=
  match av.S, av.N, av.B, av.BOOL, av.NULL with
  | some s, _, _, _, _ => .ok (.str s)
  | none, some t, _, _, _ => .ok (.num t)
  | none, none, some b, _, _ => .ok (.bytes b)
  | none, none, none, some b, _ => .ok (.bool b)
  | none, none, none, none, some _ => .ok .nil
  | none, none, none, none, none => .error "unsupported attribute in example"

/-- The entries of an item unmarshalled one by one. -/
def unmarshalEntries : AttrMap → Except GoError node
  | [] => .ok []
  | (k, v) :: rest =>
    match v, unmarshalEntries rest with
    | _, .error err => .error err
    | none, .ok n => .ok (GoMap.insert k GoValue.nil n)
    | some av, .ok n =>
      match unmarshalScalar av with
      | .error err => .error err
      | .ok x => .ok (GoMap.insert k x n)

/-- An instance of `UnmarshalMap` for the examples: items of scalar
attributes. -/
def unmarshalScalars : Option AttrMap → Except GoError node
  | none => .ok []
  | some m => unmarshalEntries m

/-- The error of `json.Marshal` on one record value, for the examples: a
`float64` that is NaN or infinite is an unsupported value. Values of other
dynamic types do not occur in the examples. -/
def unsupportedValue : GoValue → Option GoError
  | .num t =>
    if t = "NaN" ∨ t = "+Inf" ∨ t = "-Inf" then some ("json: unsupported value: " ++ t)
    else none
  | _ => none

/-- The first unsupported value of a record, in key order. -/
def nodeMarshalError : node → Option GoError
  | [] => none
  | (_, v) :: rest =>
    match unsupportedValue v with
    | some err => some err
    | none => nodeMarshalError rest

/-- The first unsupported value among the records of a list of edges. -/
def edgesMarshalError : List edge → Option GoError
  | [] => none
  | e :: rest =>
    match nodeMarshalError e.Node with
    | some err => some err
    | none => edgesMarshalError rest

/-- An instance of the failure of `json.Marshal(resp)` for the examples:
responses whose records hold scalar values. -/
def marshalErrorScalars (resp : response) : Option GoError := edgesMarshalError resp.Edges

/-- A collaborator that answers the scan calls with a fixed list of results,
whatever the input, and describes every table with the same key schema. -/
def scripted (schema : List KeySchemaElement) : Collaborators (List ScanOutput) where
  describeTable := fun s _ => (.ok schema, s)
  scan := fun s _ =>
    match s with
    | [] => (.error "no more results", [])
    | out :: rest => (.ok out, rest)
  unmarshalMap := unmarshalScalars
  marshalError := marshalErrorScalars

/-- The key of a table row under a key schema: its attributes at the schema
field names. -/
def keyOfItem (schema : List KeySchemaElement) (row : AttrMap) : AttrMap :=
  schema.foldl
    (fun key element =>
      GoMap.insert element.AttributeName ((GoMap.get element.AttributeName row).getD none) key)
    []

/-- Two key attributes are the same: key attributes are strings, numbers or
binary data, compared field by field (numbers by their text). -/
def sameAttr : Option AttributeValue → Option AttributeValue → Bool
  | none, none => true
  | some a, some b => a.S == b.S && a.N == b.N && a.B == b.B
  | _, _ => false

/-- Two keys are the same: the same field names with the same attributes. -/
def sameKey : AttrMap → AttrMap → Bool
  | [], [] => true
  | (k1, v1) :: r1, (k2, v2) :: r2 => k1 == k2 && sameAttr v1 v2 && sameKey r1 r2
  | _, _ => false

/-- The rows of a table strictly after the row whose key is `k`; no row when
none has that key. -/
def recordsAfter (schema : List KeySchemaElement) (k : AttrMap) : List AttrMap → List AttrMap
  | [] => []
  | row :: rest =>
    if sameKey (keyOfItem schema row) k then rest else recordsAfter schema k rest

/-- An unchanging table as an ordered list of rows (the rows that match the
filter): a scan without start key answers with all rows, a scan with start key
`k` with the rows strictly after the row whose key is `k`, in one chunk. -/
def tableOf (schema : List KeySchemaElement) (unmarshalMap : Option AttrMap → Except GoError node)
    (rows : List AttrMap) : Collaborators Unit where
  describeTable := fun s _ => (.ok schema, s)
  scan := fun s input =>
    match input.ExclusiveStartKey with
    | none => (.ok ⟨rows.map some, none⟩, s)
    | some k => (.ok ⟨(recordsAfter schema k rows).map some, none⟩, s)
  unmarshalMap := unmarshalMap
  marshalError := marshalErrorScalars

/-- The hash key schema `id` of the examples. -/
def idSchema : List KeySchemaElement := [⟨"id", "HASH"⟩]

/-- The three-row table `a`, `b`, `c` with hash key `id`. -/
def threeRows : Collaborators Unit :=
  tableOf idSchema unmarshalScalars
    [[("id", some { AttributeValue.zero with S := some "a" })],
     [("id", some { AttributeValue.zero with S := some "b" })],
     [("id", some { AttributeValue.zero with S := some "c" })]]

/-- An item with the single string attribute `id`. -/
def idItem (v : String) : Option AttrMap :=
  some [("id", some { AttributeValue.zero with S := some v })]

/-- A request for table `t` with a filter, page size `first` and cursor
`after`. -/
def request (first : Int) (after : String) : payload :=
  ⟨"t", some ⟨"attribute_exists(id)", none, none⟩, first, 0, after, ""⟩

/-- The filter of `request`. -/
def requestFilter : dynamoFilterExpression := ⟨"attribute_exists(id)", none, none⟩

/-- The record of `TestEncodeKey`. -/
def testNode : node :=
  [("fluffy", GoValue.bool true), ("id", GoValue.str "11111"), ("species", GoValue.str "panda")]

/-- The cursor of `TestEncodeKey` and `TestDecodeKey`. -/
def testCursor : String :=
  "eyJpZCI6eyJCIjpudWxsLCJCT09MIjpudWxsLCJCUyI6bnVsbCwiTCI6bnVsbCwiTSI6bnVsbCwiTiI6bnVsbCwiTlMiOm51bGwsIk5VTEwiOm51bGwsIlMiOiIxMTExMSIsIlNTIjpudWxsfX0="

/-- The edges of a successful run. -/
def Outcome.edges {σ : Type} (o : Outcome σ) : Option (List edge) :=
  match o.result with
  | some (.ok resp) => some resp.Edges
  | _ => none

/-- The nodes of the edges of a successful run. -/
def Outcome.nodes {σ : Type} (o : Outcome σ) : Option (List node) :=
  match o.result with
  | some (.ok resp) => some (resp.Edges.map fun e => e.Node)
  | _ => none

/-- The record with the single field `id`. -/
def idNode (v : String) : node := [("id", GoValue.str v)]

/-- The cursor of the record with `id = "a"`. -/
def cursorA : String :=
  "eyJpZCI6eyJCIjpudWxsLCJCT09MIjpudWxsLCJCUyI6bnVsbCwiTCI6bnVsbCwiTSI6bnVsbCwiTiI6bnVsbCwiTlMiOm51bGwsIk5VTEwiOm51bGwsIlMiOiJhIiwiU1MiOm51bGx9fQ=="

/-- The cursor of the record with `id = "b"`. -/
def cursorB : String :=
  "eyJpZCI6eyJCIjpudWxsLCJCT09MIjpudWxsLCJCUyI6bnVsbCwiTCI6bnVsbCwiTSI6bnVsbCwiTiI6bnVsbCwiTlMiOm51bGwsIk5VTEwiOm51bGwsIlMiOiJiIiwiU1MiOm51bGx9fQ=="

/-- The cursor of the record with `id = "c"`. -/
def cursorC : String :=
  "eyJpZCI6eyJCIjpudWxsLCJCT09MIjpudWxsLCJCUyI6bnVsbCwiTCI6bnVsbCwiTSI6bnVsbCwiTiI6bnVsbCwiTlMiOm51bGwsIk5VTEwiOm51bGwsIlMiOiJjIiwiU1MiOm51bGx9fQ=="

/-- The key of the record with the given `id`. -/
def idKey (v : String) : AttrMap := [("id", some { AttributeValue.zero with S := some v })]

/-- Two chunks: `a` with a continuation key, then `b` without. -/
def chunksAB : List ScanOutput := [⟨[idItem "a"], some (idKey "a")⟩, ⟨[idItem "b"], none⟩]

/-- The same two items split otherwise: an empty chunk, then `a` and `b`. -/
def chunksAB2 : List ScanOutput := [⟨[], some (idKey "0")⟩, ⟨[idItem "a", idItem "b"], none⟩]

/-- A chunk sequence of one chunk that holds `n` times the item with `id = "a"`. -/
def repeated (n : Nat) : List ScanOutput := [⟨List.replicate n (idItem "a"), none⟩]

/-! ## Notions used in the proofs -/

/-- The text parses as the value `v`, whatever follows it, with any fuel beyond
its length. -/
def Parses (text : List Char) (v : JValue) : Prop :=
  ∀ (f : Nat) (rest : List Char), text.length < f → parseValue f (text ++ rest) = some (v, rest)

/-- The text of an object member: quoted name, colon, value text. -/
def memberText (m : String × List Char × JValue) : List Char :=
  jsonQuote m.1 ++ Char.ofNat 58 :: m.2.1

/-- The keys of a map are strictly increasing. -/
def KeysSorted {α : Type} (m : GoMap α) : Prop :=
  List.Pairwise (fun a b => ltChars a.1.data b.1.data = true) m

/-- The JSON value of a nil or non-nil optional. -/
def jOpt {α : Type} (g : α → JValue) : Option α → JValue
  | none => .null
  | some a => g a

/-- The JSON value of a byte slice: its base64 string. -/
def jOfBytes (b : List Byte) : JValue := .str (String.mk (base64Encode b))

/-- The JSON value of an attribute value without collection fields. -/
def jOfAttr (av : AttributeValue) : JValue :=
  .obj [("B", jOpt jOfBytes av.B), ("BOOL", jOpt JValue.bool av.BOOL), ("BS", .null),
    ("L", .null), ("M", .null), ("N", jOpt JValue.str av.N), ("NS", .null),
    ("NULL", jOpt JValue.bool av.NULL), ("S", jOpt JValue.str av.S), ("SS", .null)]

/-- The JSON value of a pointer to such an attribute value. -/
def jOfAttrPtr : Option AttributeValue → JValue
  | none => .null
  | some av => jOfAttr av

/-- An attribute value without collection fields: `BS`, `L`, `M`, `NS`, `SS`
are nil. -/
def Flat (av : AttributeValue) : Prop :=
  av.BS = none ∧ av.L = none ∧ av.M = none ∧ av.NS = none ∧ av.SS = none

/-- A map all of whose attribute values are without collection fields. -/
def FlatMap (m : AttrMap) : Prop := ∀ e ∈ m, ∀ av, e.2 = some av → Flat av

/-- A key map in the sense of the data model: at least one field (the
partition key), each field holding a string, a number or binary data. -/
def IsKeyMap (m : AttrMap) : Prop :=
  m ≠ [] ∧ ∀ e ∈ m, ∃ av, e.2 = some av ∧ (av.S ≠ none ∨ av.N ≠ none ∨ av.B ≠ none)

/-- The bytes are a serialized key map: they deserialize to a key map. -/
def SerializesKeyMap (bs : List Byte) : Prop :=
  ∃ m, IsKeyMap m ∧ jsonUnmarshal bs = .ok (some m)

/-! ## Notions used to state the later properties -/

/-- The three messages of the checks of lines 67-77. -/
def validationErrors : List GoError :=
  ["request missing tableName", "request missing filter expression",
    "backwards paging not yet supported"]

/-- Lines 109-193 of `HandleRequest`, for a request that passed the checks with
filter `filter` and whose start key is `k`: the table description, the
allocation of the edges, the scan loop and the serialisation. -/
def describeAndScan {σ : Type} (c : Collaborators σ) (fuel : Nat) (s : σ) (p : payload)
    (filter : dynamoFilterExpression) (k : Option AttrMap) : Outcome σ :=
  match c.describeTable s p.TableName with
  | (.error err, s1) => ⟨some (.error err), [Call.describeTable p.TableName], s1⟩
  | (.ok tableKeySchema, s1) =>
    if tableKeySchema.length = 0 then
      ⟨some (.error "empty table key schema - unable to determine key fields"),
        [Call.describeTable p.TableName], s1⟩
    else if pageSize p < 0 ∨ maxAlloc < edgeSize * pageSize p then
      ⟨some (.error "panic: runtime error: makeslice: cap out of range"),
        [Call.describeTable p.TableName], s1⟩
    else
      serialise c (scanLoop c tableKeySchema (pageSize p) fuel s1
        { scanInputOf p filter with ExclusiveStartKey := k }
        ⟨[], ⟨false, false, "", ""⟩⟩ 0 [Call.describeTable p.TableName])

/-- The scan inputs `rest` that follow the input `i` given in state `s` are
threaded: each call before the last succeeded and reported a continuation key,
and the next input is the previous one with that key as its start key. -/
def Threaded {σ : Type} (c : Collaborators σ) : σ → ScanInput → List ScanInput → Prop
  | _, _, [] => True
  | s, i, j :: rest =>
    match c.scan s i with
    | (.ok out, s1) =>
      (∃ k, out.LastEvaluatedKey = some k ∧ j = { i with ExclusiveStartKey := some k }) ∧
        Threaded c s1 j rest
    | (.error _, _) => False

/-- The first `j` scan results from state `s` when each of them succeeds and
reports a continuation key that is threaded into the next call, with the state
and the input the next call would get; `none` when one of the `j` calls fails
or reports no continuation key. -/
def scanPrefix {σ : Type} (c : Collaborators σ) :
    Nat → σ → ScanInput → Option (List ScanOutput × σ × ScanInput)
  | 0, s, input => some ([], s, input)
  | j + 1, s, input =>
    match c.scan s input with
    | (.error _, _) => none
    | (.ok out, s1) =>
      match out.LastEvaluatedKey with
      | none => none
      | some k =>
        (scanPrefix c j s1 { input with ExclusiveStartKey := some k }).map
          fun r => (out :: r.1, r.2)

/-- A collaborator whose every scan result is an empty chunk with a
continuation key. -/
def endless : Collaborators Unit where
  describeTable := fun s _ => (.ok [⟨"id", "HASH"⟩], s)
  scan := fun s _ => (.ok ⟨[], some [("id", some { AttributeValue.zero with S := some "0" })]⟩, s)
  unmarshalMap := unmarshalScalars
  marshalError := marshalErrorScalars

/-- The number of scan calls a chunk sequence calls for when `first` more
items are wanted: up to the first chunk with which the items reach `first`, or
all of them. -/
def callsNeeded : Nat → List ScanOutput → Nat
  | _, [] => 0
  | k, out :: rest =>
    if k ≤ out.Items.length then 1 else 1 + callsNeeded (k - out.Items.length) rest

/-- A key field for which `dynamodbattribute.Marshal` keeps the type of the
value: nothing, a bool, a number, a non-empty string or non-empty binary
data. -/
def Typed : GoValue → Prop
  | .nil => True
  | .bool _ => True
  | .num _ => True
  | .str s => s ≠ ""
  | .bytes b => b ≠ []
  | .other _ => False

/-- A record whose key field `id` is the empty string. -/
def emptyIdNode : node := [("id", GoValue.str "")]

/-- The cursor of a key whose field `id` is `NULL: true`. -/
def nullCursor : String :=
  "eyJpZCI6eyJCIjpudWxsLCJCT09MIjpudWxsLCJCUyI6bnVsbCwiTCI6bnVsbCwiTSI6bnVsbCwiTiI6bnVsbCwiTlMiOm51bGwsIk5VTEwiOnRydWUsIlMiOm51bGwsIlNTIjpudWxsfX0="

/-- The cursor of a key whose field `id` is the string-typed attribute with
the empty string. -/
def emptyStringCursor : String :=
  "eyJpZCI6eyJCIjpudWxsLCJCT09MIjpudWxsLCJCUyI6bnVsbCwiTCI6bnVsbCwiTSI6bnVsbCwiTiI6bnVsbCwiTlMiOm51bGwsIk5VTEwiOm51bGwsIlMiOiIiLCJTUyI6bnVsbH19"

/-- The wire format of a key map: the standard base64 text of its JSON
serialization. -/
def wireFormat (key : AttrMap) : String :=
  String.mk (base64Encode (utf8Encode (jsonOfAttrMapTop (some key))))

/-- Three chunks of one item each, `a`, `b`, `c`; only the last one without a
continuation key. -/
def chunksABC : List ScanOutput :=
  [⟨[idItem "a"], some (idKey "a")⟩, ⟨[idItem "b"], some (idKey "b")⟩, ⟨[idItem "c"], none⟩]
/-- What `strconv.ParseFloat` followed by `strconv.FormatFloat` makes of the
number texts of the example table: 2^53 + 1 is not a `float64` and is rounded
to 2^53; the other numbers of the example are `float64` values and keep their
text. -/
def float64Text (t : String) : String :=
  if t = "9007199254740993" then "9007199254740992" else t

/-- A record value after the passage of its number through `float64`. -/
def viaFloat64 : GoValue → GoValue
  | .num t => .num (float64Text t)
  | v => v

/-- An instance of `UnmarshalMap` for the example with numbers: items of
scalar attributes, a number attribute becoming the `float64` nearest to it, as
`UnmarshalMap` into a `map[string]interface{}` does. -/
def unmarshalFloats (item : Option AttrMap) : Except GoError node :=
  match unmarshalScalars item with
  | .error err => .error err
  | .ok n => .ok (n.map fun e => (e.1, viaFloat64 e.2))

/-- The key with the single number attribute `id`. -/
def numKey (t : String) : AttrMap := [("id", some { AttributeValue.zero with N := some t })]

/-- The rows of the example table: the number keys 2^53, 2^53 + 1 and
2^53 + 2. -/
def bigRows : List AttrMap :=
  [numKey "9007199254740992", numKey "9007199254740993", numKey "9007199254740994"]

/-- The example table with number keys. -/
def bigTable : Collaborators Unit := tableOf idSchema unmarshalFloats bigRows

/-- The record of a row with the number `id`, as unmarshalled. -/
def numNode (t : String) : node := [("id", GoValue.num t)]

/-- The cursor of the key `id = 9007199254740992`. -/
def cursorN : String :=
  "eyJpZCI6eyJCIjpudWxsLCJCT09MIjpudWxsLCJCUyI6bnVsbCwiTCI6bnVsbCwiTSI6bnVsbCwiTiI6IjkwMDcxOTkyNTQ3NDA5OTIiLCJOUyI6bnVsbCwiTlVMTCI6bnVsbCwiUyI6bnVsbCwiU1MiOm51bGx9fQ=="

/-- The cursor of the key `id = 9007199254740994`. -/
def cursorN2 : String :=
  "eyJpZCI6eyJCIjpudWxsLCJCT09MIjpudWxsLCJCUyI6bnVsbCwiTCI6bnVsbCwiTSI6bnVsbCwiTiI6IjkwMDcxOTkyNTQ3NDA5OTQiLCJOUyI6bnVsbCwiTlVMTCI6bnVsbCwiUyI6bnVsbCwiU1MiOm51bGx9fQ=="

/-- The input without its CR and LF characters, which `DecodeString`
ignores. -/
def stripNewlines (cs : List Char) : List Char := cs.filter fun c => !isNewline c

/-- Groups of four characters of the base64 alphabet, the last group possibly
ending in one or two padding characters (RFC 4648, section 4). -/
def validGroups : List Char → Bool
  | [] => true
  | a :: b :: c :: d :: rest =>
    (b64Val a).isSome && (b64Val b).isSome &&
      (((b64Val c).isSome && (b64Val d).isSome && validGroups rest) ||
       ((b64Val c).isSome && d == b64Pad && rest.isEmpty) ||
       (c == b64Pad && d == b64Pad && rest.isEmpty))
  | _ => false

/-- Valid standard base64, line breaks aside. -/
def ValidBase64 (s : String) : Prop := validGroups (stripNewlines s.data) = true

/-- The decoder state as a recogniser, on input without line breaks: `j`
characters of the current group have been read. -/
def validFrom : Nat → List Char → Bool
  | j, [] => j == 0
  | j, c :: rest =>
    if (b64Val c).isSome then
      if j = 3 then validFrom 0 rest else validFrom (j + 1) rest
    else if c = b64Pad then (j == 2 && rest == [b64Pad]) || (j == 3 && rest.isEmpty)
    else false

/-- A JSON value a `*string` takes: a string or `null`. -/
def fitsString : JValue → Bool
  | .null => true
  | .str _ => true
  | _ => false

/-- A JSON value a `*bool` takes: a boolean or `null`. -/
def fitsBool : JValue → Bool
  | .null => true
  | .bool _ => true
  | _ => false

/-- A JSON value a `uint8` takes: an unsigned integer literal up to 255, or
`null`. -/
def fitsUint8 : JValue → Bool
  | .null => true
  | .num lit =>
    lit.all isDigit && decide (lit.foldl (fun a c => a * 10 + (c.toNat - 48)) 0 ≤ 255)
  | _ => false

/-- A JSON value a `[]byte` takes: a string of valid base64, an array of small
integers, or `null`. -/
def fitsBytes : JValue → Bool
  | .null => true
  | .str s => validGroups (stripNewlines s.data)
  | .arr xs => xs.all fitsUint8
  | _ => false

/-- A JSON value a `[]*string` takes. -/
def fitsStrings : JValue → Bool
  | .null => true
  | .arr xs => xs.all fitsString
  | _ => false

/-- A JSON value a `[][]byte` takes. -/
def fitsBytesList : JValue → Bool
  | .null => true
  | .arr xs => xs.all fitsBytes
  | _ => false

mutual
/-- A JSON value that is an attribute value: `null`, or an object in which
every member that names a field of `dynamodb.AttributeValue` has a value of
the type of that field. -/
def fitsAttr : JValue → Bool
  | .null => true
  | .obj ms => fitsFields ms
  | _ => false
/-- The members of an attribute value. -/
def fitsFields : List (String × JValue) → Bool
  | [] => true
  | (k, v) :: rest =>
    (match attrFieldOf k with
      | none => true
      | some .B => fitsBytes v
      | some .BOOL => fitsBool v
      | some .BS => fitsBytesList v
      | some .L => fitsAttrList v
      | some .M => fitsMap v
      | some .N => fitsString v
      | some .NS => fitsStrings v
      | some .NULL => fitsBool v
      | some .S => fitsString v
      | some .SS => fitsStrings v) && fitsFields rest
/-- A JSON value that is a list of attribute values. -/
def fitsAttrList : JValue → Bool
  | .null => true
  | .arr xs => fitsElems xs
  | _ => false
/-- The elements of a list of attribute values. -/
def fitsElems : List JValue → Bool
  | [] => true
  | x :: xs => fitsAttr x && fitsElems xs
/-- A JSON value that is a map of attribute values: `null`, or an object whose
members are attribute values. -/
def fitsMap : JValue → Bool
  | .null => true
  | .obj ms => fitsMembers ms
  | _ => false
/-- The members of a map of attribute values. -/
def fitsMembers : List (String × JValue) → Bool
  | [] => true
  | (_, v) :: rest => fitsAttr v && fitsMembers rest
end

/-- The bytes are a serialized map of attribute values: the JSON text of an
object whose members are attribute values. -/
def SerializedMap (bs : List Byte) : Bool :=
  match parseJSON (utf8Decode bs) with
  | some (.obj ms) => fitsMembers ms
  | _ => false

/-- The bytes are the JSON text `null`. -/
def NullText (bs : List Byte) : Bool :=
  match parseJSON (utf8Decode bs) with
  | some .null => true
  | _ => false

/-! # Theorems -/

set_option maxRecDepth 100000

/-! ## Base64 round trip -/

theorem b64Val_b64Char : ∀ n, n < 64 → b64Val (b64Char n) = some n := by decide

theorem fin_ofNat_val (a : Byte) (x : Nat) (h : x % 256 = a.val) : (Fin.ofNat x : Byte) = a := by
  apply Fin.ext
  simp only [Fin.ofNat]
  exact h

theorem base64DecodeAux_encode (bs : List Byte) :
    base64DecodeAux 0 0 (base64Encode bs) = some bs := by
  induction bs using base64Encode.induct with
  | case1 => rfl
  | case2 a =>
    have ha := a.isLt
    have hp : b64Val b64Pad = none := by decide
    have hn : isNewline b64Pad = false := by decide
    simp only [base64Encode, base64DecodeAux, b64Val_b64Char _ (show a.val / 4 < 64 by omega),
      b64Val_b64Char _ (show a.val % 4 * 16 < 64 by omega), hp, hn, base64Padding, skipNewlines,
      Bool.false_eq_true, if_false, if_true, and_self, Nat.reduceAdd, Nat.reduceEqDiff,
      Option.some.injEq, List.cons.injEq, and_true, zero_mul, zero_add, OfNat.zero_ne_ofNat,
      OfNat.one_ne_ofNat]
    exact fin_ofNat_val a _ (by omega)
  | case3 a b =>
    have ha := a.isLt
    have hb := b.isLt
    have hp : b64Val b64Pad = none := by decide
    have hn : isNewline b64Pad = false := by decide
    simp only [base64Encode, base64DecodeAux, b64Val_b64Char _ (show a.val / 4 < 64 by omega),
      b64Val_b64Char _ (show a.val % 4 * 16 + b.val / 16 < 64 by omega),
      b64Val_b64Char _ (show b.val % 16 * 4 < 64 by omega), hp, hn, base64Padding, skipNewlines,
      Bool.false_eq_true, if_false, if_true, Nat.reduceAdd, Nat.reduceEqDiff,
      Option.some.injEq, List.cons.injEq, and_true, zero_mul, zero_add, OfNat.zero_ne_ofNat,
      OfNat.one_ne_ofNat]
    exact ⟨fin_ofNat_val a _ (by omega), fin_ofNat_val b _ (by omega)⟩
  | case4 a b c rest ih =>
    have ha := a.isLt
    have hb := b.isLt
    have hc := c.isLt
    simp only [base64Encode, base64DecodeAux, b64Val_b64Char _ (show a.val / 4 < 64 by omega),
      b64Val_b64Char _ (show a.val % 4 * 16 + b.val / 16 < 64 by omega),
      b64Val_b64Char _ (show b.val % 16 * 4 + c.val / 64 < 64 by omega),
      b64Val_b64Char _ (show c.val % 64 < 64 by omega), ih, Nat.reduceAdd, Nat.reduceEqDiff,
      Option.map_some', Option.some.injEq, List.cons.injEq, and_true, zero_mul, zero_add,
      OfNat.zero_ne_ofNat, OfNat.one_ne_ofNat, if_false, if_true]
    exact ⟨fin_ofNat_val a _ (by omega), fin_ofNat_val b _ (by omega),
      fin_ofNat_val c _ (by omega)⟩

theorem base64Decode_encode (bs : List Byte) : base64Decode (base64Encode bs) = some bs :=
  base64DecodeAux_encode bs

/-! ## UTF-8 round trip -/

theorem char_valid (c : Char) : c.toNat < 55296 ∨ (57343 < c.toNat ∧ c.toNat < 1114112) := by
  have h := c.valid
  simp only [UInt32.isValidChar, Nat.isValidChar] at h
  exact h

theorem fin_ofNat_val_lt (x : Nat) (h : x < 256) : (Fin.ofNat x : Byte).val = x := by
  simp only [Fin.ofNat]
  exact Nat.mod_eq_of_lt h

theorem char_ofNat_eq (c : Char) (x : Nat) (h : x = c.toNat) : Char.ofNat x = c := by
  rw [h, Char.ofNat_toNat]

theorem utf8DecodeRune_encodeChar (c : Char) (rest : List Byte) :
    utf8DecodeRune (utf8EncodeChar c ++ rest) = (c, (utf8EncodeChar c).length) := by
  have hv := char_valid c
  unfold utf8EncodeChar
  simp only
  by_cases h1 : c.toNat < 128
  · simp only [h1, if_true, List.cons_append, List.nil_append, utf8DecodeRune,
      fin_ofNat_val_lt _ (show c.toNat < 256 by omega), List.length_singleton, Prod.mk.injEq,
      and_true]
    exact char_ofNat_eq c _ rfl
  · simp only [h1, if_false]
    by_cases h2 : c.toNat < 2048
    · have e0 := fin_ofNat_val_lt (192 + c.toNat / 64) (by omega)
      have e1 := fin_ofNat_val_lt (128 + c.toNat % 64) (by omega)
      simp only [h2, if_true, List.cons_append, List.nil_append, utf8DecodeRune, e0, e1, isCont]
      have c0 : ¬ (192 + c.toNat / 64 < 128) := by omega
      have c1 : 194 ≤ 192 + c.toNat / 64 ∧ 192 + c.toNat / 64 ≤ 223 := by omega
      have c2 : (decide (128 ≤ 128 + c.toNat % 64) && decide (128 + c.toNat % 64 ≤ 191)) = true := by
        simp only [Bool.and_eq_true, decide_eq_true_eq]; omega
      simp only [c0, c1, c2, if_false, if_true, and_self, List.length_cons, List.length_nil,
        Prod.mk.injEq, and_true]
      exact char_ofNat_eq c _ (by omega)
    · simp only [h2, if_false]
      by_cases h3 : c.toNat < 65536
      · have e0 := fin_ofNat_val_lt (224 + c.toNat / 4096) (by omega)
        have e1 := fin_ofNat_val_lt (128 + c.toNat / 64 % 64) (by omega)
        have e2 := fin_ofNat_val_lt (128 + c.toNat % 64) (by omega)
        simp only [h3, if_true, List.cons_append, List.nil_append, utf8DecodeRune, e0, e1, e2,
          isCont]
        have c0 : ¬ (224 + c.toNat / 4096 < 128) := by omega
        have c1 : ¬ (194 ≤ 224 + c.toNat / 4096 ∧ 224 + c.toNat / 4096 ≤ 223) := by omega
        have c2 : 224 ≤ 224 + c.toNat / 4096 ∧ 224 + c.toNat / 4096 ≤ 239 := by omega
        have c3 : ((if 224 + c.toNat / 4096 = 224 then 160 else 128) ≤ 128 + c.toNat / 64 % 64 ∧
            128 + c.toNat / 64 % 64 ≤ (if 224 + c.toNat / 4096 = 237 then 159 else 191) ∧
            (decide (128 ≤ 128 + c.toNat % 64) && decide (128 + c.toNat % 64 ≤ 191)) = true) := by
          simp only [Bool.and_eq_true, decide_eq_true_eq]
          refine ⟨?_, ?_, ?_⟩
          · split <;> omega
          · split <;> omega
          · omega
        simp only [c0, c1, c2, c3, if_false, if_true, and_self, List.length_cons,
          List.length_nil, Prod.mk.injEq, and_true]
        exact char_ofNat_eq c _ (by omega)
      · have e0 := fin_ofNat_val_lt (240 + c.toNat / 262144) (by omega)
        have e1 := fin_ofNat_val_lt (128 + c.toNat / 4096 % 64) (by omega)
        have e2 := fin_ofNat_val_lt (128 + c.toNat / 64 % 64) (by omega)
        have e3 := fin_ofNat_val_lt (128 + c.toNat % 64) (by omega)
        simp only [h3, if_false, List.cons_append, List.nil_append, utf8DecodeRune, e0, e1, e2,
          e3, isCont]
        have c0 : ¬ (240 + c.toNat / 262144 < 128) := by omega
        have c1 : ¬ (194 ≤ 240 + c.toNat / 262144 ∧ 240 + c.toNat / 262144 ≤ 223) := by omega
        have c2 : ¬ (224 ≤ 240 + c.toNat / 262144 ∧ 240 + c.toNat / 262144 ≤ 239) := by omega
        have c3 : 240 ≤ 240 + c.toNat / 262144 ∧ 240 + c.toNat / 262144 ≤ 244 := by omega
        have c4 : ((if 240 + c.toNat / 262144 = 240 then 144 else 128) ≤
              128 + c.toNat / 4096 % 64 ∧
            128 + c.toNat / 4096 % 64 ≤ (if 240 + c.toNat / 262144 = 244 then 143 else 191) ∧
            (decide (128 ≤ 128 + c.toNat / 64 % 64) && decide (128 + c.toNat / 64 % 64 ≤ 191))
              = true ∧
            (decide (128 ≤ 128 + c.toNat % 64) && decide (128 + c.toNat % 64 ≤ 191)) = true) := by
          simp only [Bool.and_eq_true, decide_eq_true_eq]
          refine ⟨?_, ?_, ?_, ?_⟩
          · split <;> omega
          · split <;> omega
          · omega
          · omega
        simp only [c0, c1, c2, c3, c4, if_false, if_true, and_self, List.length_cons,
          List.length_nil, Prod.mk.injEq, and_true]
        exact char_ofNat_eq c _ (by omega)

theorem utf8EncodeChar_length_pos (c : Char) : 0 < (utf8EncodeChar c).length := by
  unfold utf8EncodeChar
  simp only
  split
  · simp
  · split
    · simp
    · split <;> simp

theorem utf8DecodeFuel_encode : ∀ (cs : List Char) (fuel : Nat),
    (utf8Encode cs).length ≤ fuel → utf8DecodeFuel fuel (utf8Encode cs) = cs := by
  intro cs
  induction cs with
  | nil => intro fuel _; cases fuel <;> rfl
  | cons c cs ih =>
    intro fuel hfuel
    have hpos := utf8EncodeChar_length_pos c
    have henc : utf8Encode (c :: cs) = utf8EncodeChar c ++ utf8Encode cs := by
      simp [utf8Encode]
    rw [henc] at hfuel ⊢
    simp only [List.length_append] at hfuel
    obtain ⟨b, bs, hb⟩ : ∃ b bs, utf8EncodeChar c = b :: bs := by
      cases h : utf8EncodeChar c with
      | nil => simp [h] at hpos
      | cons b bs => exact ⟨b, bs, rfl⟩
    obtain ⟨fuel, rfl⟩ : ∃ f, fuel = f + 1 := ⟨fuel - 1, by omega⟩
    have hrune := utf8DecodeRune_encodeChar c (utf8Encode cs)
    rw [hb] at hrune
    simp only [hb, List.cons_append, utf8DecodeFuel]
    rw [List.cons_append] at hrune
    rw [hrune]
    simp only [List.cons.injEq, true_and]
    have hdrop : List.drop (b :: bs).length (b :: (bs ++ utf8Encode cs)) = utf8Encode cs := by
      rw [← List.cons_append, List.drop_left]
    rw [hdrop]
    apply ih
    rw [hb] at hfuel
    simp only [List.length_cons] at hfuel
    omega

theorem utf8Decode_encode (cs : List Char) : utf8Decode (utf8Encode cs) = cs :=
  utf8DecodeFuel_encode cs _ (le_refl _)

/-! ## String literals -/

theorem hexVal_hexDigit : ∀ d, d < 16 → hexVal (hexDigit d) = some d := by decide

theorem char_eq_of_toNat (c : Char) (n : Nat) (h : c.toNat = n) : Char.ofNat n = c := by
  rw [← h, Char.ofNat_toNat]

theorem jsonEscapeChar_length_pos (c : Char) : 0 < (jsonEscapeChar c).length := by
  unfold jsonEscapeChar
  simp only
  repeat' split
  all_goals simp

theorem parseStringBody_escapeChar (c : Char) (fuel : Nat) (tail : List Char) :
    parseStringBody (fuel + 1) (jsonEscapeChar c ++ tail) =
      consChar c (parseStringBody fuel tail) := by
  have hv : c.toNat < 55296 ∨ (57343 < c.toNat ∧ c.toNat < 1114112) := by
    have h := c.valid
    simp only [UInt32.isValidChar, Nat.isValidChar] at h
    exact h
  unfold jsonEscapeChar
  simp only
  by_cases h1 : c.toNat = 34
  · have := char_eq_of_toNat c 34 h1
    subst this
    rfl
  by_cases h2 : c.toNat = 92
  · have := char_eq_of_toNat c 92 h2
    subst this
    rfl
  by_cases h3 : c.toNat = 10
  · have := char_eq_of_toNat c 10 h3
    subst this
    rfl
  by_cases h4 : c.toNat = 13
  · have := char_eq_of_toNat c 13 h4
    subst this
    rfl
  by_cases h5 : c.toNat = 9
  · have := char_eq_of_toNat c 9 h5
    subst this
    rfl
  by_cases h5a : c.toNat = 8
  · have := char_eq_of_toNat c 8 h5a
    subst this
    rfl
  by_cases h5b : c.toNat = 12
  · have := char_eq_of_toNat c 12 h5b
    subst this
    rfl
  simp only [h1, h2, h3, h4, h5, h5a, h5b, if_false]
  by_cases h6 : c.toNat < 32 ∨ c.toNat = 60 ∨ c.toNat = 62 ∨ c.toNat = 38 ∨ c.toNat = 8232 ∨
      c.toNat = 8233
  · have hlt : c.toNat < 65536 := by omega
    simp only [h6, if_true, List.cons_append, List.nil_append, parseStringBody, hex4,
      hexVal_hexDigit _ (show c.toNat / 4096 % 16 < 16 by omega),
      hexVal_hexDigit _ (show c.toNat / 256 % 16 < 16 by omega),
      hexVal_hexDigit _ (show c.toNat / 16 % 16 < 16 by omega),
      hexVal_hexDigit _ (show c.toNat % 16 < 16 by omega)]
    have e1 : ¬ (Char.ofNat 92).toNat = 34 := by decide
    have e2 : (Char.ofNat 92).toNat = 92 := by decide
    have e3 : (Char.ofNat 117).toNat = 117 := by decide
    have hval : c.toNat / 4096 % 16 * 4096 + c.toNat / 256 % 16 * 256 + c.toNat / 16 % 16 * 16
        + c.toNat % 16 = c.toNat := by omega
    have hs : ¬ (55296 ≤ c.toNat ∧ c.toNat ≤ 57343) := by omega
    simp only [e1, e2, e3, if_false, if_true, hval, hs, Char.ofNat_toNat]
    simp
  · have h7 : ¬ c.toNat < 32 := by omega
    rw [if_neg h6]
    simp only [List.cons_append, List.nil_append, parseStringBody, h1, h2, h7, if_false]
    rfl

theorem parseStringBody_escape : ∀ (cs : List Char) (fuel : Nat) (rest : List Char),
    cs.length < fuel →
    parseStringBody fuel (cs.flatMap jsonEscapeChar ++ Char.ofNat 34 :: rest) = some (cs, rest) := by
  intro cs
  induction cs with
  | nil =>
    intro fuel rest h
    obtain ⟨fuel, rfl⟩ : ∃ f, fuel = f + 1 := ⟨fuel - 1, by omega⟩
    rfl
  | cons c cs ih =>
    intro fuel rest h
    obtain ⟨fuel, rfl⟩ : ∃ f, fuel = f + 1 := ⟨fuel - 1, by omega⟩
    simp only [List.flatMap_cons, List.append_assoc]
    rw [parseStringBody_escapeChar, ih fuel rest (by simpa using h)]
    rfl

theorem length_le_flatMap_escape (cs : List Char) :
    cs.length ≤ (cs.flatMap jsonEscapeChar).length := by
  induction cs with
  | nil => simp
  | cons c cs ih =>
    have := jsonEscapeChar_length_pos c
    simp only [List.flatMap_cons, List.length_append, List.length_cons]
    omega

/-! ## Parsing printed values -/

theorem parses_null : Parses jsonNull .null := by
  intro f rest h
  obtain ⟨f, rfl⟩ : ∃ g, f = g + 1 := ⟨f - 1, by omega⟩
  rfl

theorem parses_bool (b : Bool) : Parses (jsonBool b) (.bool b) := by
  intro f rest h
  obtain ⟨f, rfl⟩ : ∃ g, f = g + 1 := ⟨f - 1, by omega⟩
  cases b <;> rfl

theorem parseValue_quote (f : Nat) (body rest : List Char) :
    parseValue (f + 1) (Char.ofNat 34 :: (body ++ rest)) =
      (parseStringBody f (body ++ rest)).map fun r => (JValue.str (String.mk r.1), r.2) := by
  rfl

theorem parses_quote (s : String) : Parses (jsonQuote s) (.str s) := by
  intro f rest h
  obtain ⟨f, rfl⟩ : ∃ g, f = g + 1 := ⟨f - 1, by omega⟩
  have hlen := length_le_flatMap_escape s.data
  simp only [jsonQuote, List.length_cons, List.length_append, List.length_nil] at h
  simp only [jsonQuote, List.cons_append, List.append_assoc, List.nil_append]
  rw [parseValue_quote, parseStringBody_escape s.data f rest (by omega)]
  rfl

theorem jsonEscapeChar_b64Char : ∀ n, n < 64 → jsonEscapeChar (b64Char n) = [b64Char n] := by
  decide

theorem flatMap_escape_base64 (b : List Byte) :
    (base64Encode b).flatMap jsonEscapeChar = base64Encode b := by
  have hp : jsonEscapeChar b64Pad = [b64Pad] := by decide
  induction b using base64Encode.induct with
  | case1 => rfl
  | case2 a =>
    have ha := a.isLt
    simp [base64Encode, jsonEscapeChar_b64Char _ (show a.val / 4 < 64 by omega),
      jsonEscapeChar_b64Char _ (show a.val % 4 * 16 < 64 by omega), hp]
  | case3 a b =>
    have ha := a.isLt
    have hb := b.isLt
    simp [base64Encode, jsonEscapeChar_b64Char _ (show a.val / 4 < 64 by omega),
      jsonEscapeChar_b64Char _ (show a.val % 4 * 16 + b.val / 16 < 64 by omega),
      jsonEscapeChar_b64Char _ (show b.val % 16 * 4 < 64 by omega), hp]
  | case4 a b c rest ih =>
    have ha := a.isLt
    have hb := b.isLt
    have hc := c.isLt
    simp [base64Encode, jsonEscapeChar_b64Char _ (show a.val / 4 < 64 by omega),
      jsonEscapeChar_b64Char _ (show a.val % 4 * 16 + b.val / 16 < 64 by omega),
      jsonEscapeChar_b64Char _ (show b.val % 16 * 4 + c.val / 64 < 64 by omega),
      jsonEscapeChar_b64Char _ (show c.val % 64 < 64 by omega), ih]

theorem jsonBytes_eq_quote (b : List Byte) : jsonBytes b = jsonQuote (String.mk (base64Encode b)) := by
  simp [jsonBytes, jsonQuote, flatMap_escape_base64]

theorem parses_bytes (b : List Byte) :
    Parses (jsonBytes b) (.str (String.mk (base64Encode b))) := by
  rw [jsonBytes_eq_quote]
  exact parses_quote _

theorem skipWS_quote (t : List Char) : skipWS (Char.ofNat 34 :: t) = Char.ofNat 34 :: t := rfl

theorem parseMembers_step (f : Nat) (k : String) (vt tail : List Char) (v : JValue)
    (hk : k.data.length < f) (hv : Parses vt v) (hvt : vt.length < f) (sep : Char) :
    parseMembers (f + 1) (jsonQuote k ++ Char.ofNat 58 :: (vt ++ sep :: tail)) =
      if isWS sep then
        (match skipWS tail with
        | [] => none
        | c :: rest5 =>
          if c.toNat = 44 then (parseMembers f rest5).map fun r => ((k, v) :: r.1, r.2)
          else if c.toNat = 125 then some ([(k, v)], rest5)
          else none)
      else if sep.toNat = 44 then (parseMembers f tail).map fun r => ((k, v) :: r.1, r.2)
      else if sep.toNat = 125 then some ([(k, v)], tail)
      else none := by
  simp only [jsonQuote, List.cons_append, List.append_assoc, List.nil_append]
  rw [parseMembers]
  simp only [skipWS_quote]
  have h34 : (Char.ofNat 34).toNat = 34 := by decide
  simp only [h34, if_true]
  rw [parseStringBody_escape k.data f _ hk]
  have hc : skipWS (Char.ofNat 58 :: (vt ++ sep :: tail)) = Char.ofNat 58 :: (vt ++ sep :: tail) :=
    rfl
  have h58 : (Char.ofNat 58).toNat = 58 := by decide
  simp only [hc, h58, if_true]
  rw [hv f (sep :: tail) hvt]
  simp only [skipWS]
  by_cases hws : isWS sep = true
  · simp only [hws, if_true]
    try rfl
  · simp only [hws, Bool.false_eq_true, if_false]
    try rfl

/-! ## Parsing printed objects -/

theorem jsonQuote_length (k : String) : k.data.length + 2 ≤ (jsonQuote k).length := by
  have := length_le_flatMap_escape k.data
  simp only [jsonQuote, List.length_cons, List.length_append, List.length_nil]
  omega

theorem parseMembers_join : ∀ (ms : List (String × List Char × JValue)), ms ≠ [] →
    (∀ m ∈ ms, Parses m.2.1 m.2.2) → ∀ (f : Nat) (rest : List Char),
    (jsonJoin (ms.map memberText)).length < f →
    parseMembers f (jsonJoin (ms.map memberText) ++ Char.ofNat 125 :: rest) =
      some (ms.map (fun m => (m.1, m.2.2)), rest) := by
  intro ms
  induction ms with
  | nil => intro h; exact absurd rfl h
  | cons m ms ih =>
    intro _ hall f rest hlen
    obtain ⟨k, vt, v⟩ := m
    have hv : Parses vt v := hall (k, vt, v) (List.mem_cons_self _ _)
    have hq := jsonQuote_length k
    obtain ⟨f, rfl⟩ : ∃ g, f = g + 1 := ⟨f - 1, by omega⟩
    cases ms with
    | nil =>
      simp only [List.map_cons, List.map_nil, jsonJoin, memberText, List.length_append,
        List.length_cons] at hlen ⊢
      rw [List.append_assoc, List.cons_append]
      rw [parseMembers_step f k vt rest v (by omega) hv (by omega)]
      have h1 : isWS (Char.ofNat 125) = false := by decide
      have h2 : ¬ (Char.ofNat 125).toNat = 44 := by decide
      have h3 : (Char.ofNat 125).toNat = 125 := by decide
      simp only [h1, h2, h3, Bool.false_eq_true, if_false, if_true]
      simp
    | cons m2 ms2 =>
      have hall2 : ∀ x ∈ m2 :: ms2, Parses x.2.1 x.2.2 := fun x hx =>
        hall x (List.mem_cons_of_mem _ hx)
      simp only [List.map_cons, jsonJoin, memberText, List.length_append,
        List.length_cons] at hlen ⊢
      rw [List.append_assoc, List.cons_append, List.append_assoc, List.cons_append]
      rw [parseMembers_step f k vt _ v (by omega) hv (by omega)]
      have h1 : isWS (Char.ofNat 44) = false := by decide
      have h2 : (Char.ofNat 44).toNat = 44 := by decide
      simp only [h1, h2, Bool.false_eq_true, if_false, if_true]
      have := ih (List.cons_ne_nil _ _) hall2 f rest
        (by simp only [List.map_cons, memberText]; omega)
      simp only [List.map_cons, memberText] at this
      rw [this]
      rfl

theorem parses_object (ms : List (String × List Char × JValue))
    (hall : ∀ m ∈ ms, Parses m.2.1 m.2.2) :
    Parses (jsonObject (ms.map fun m => (m.1, m.2.1))) (.obj (ms.map fun m => (m.1, m.2.2))) := by
  intro f rest hlen
  obtain ⟨f, rfl⟩ : ∃ g, f = g + 1 := ⟨f - 1, by omega⟩
  cases ms with
  | nil => rfl
  | cons m ms =>
    have hmap : ((m :: ms).map fun m => (m.1, m.2.1)).map
        (fun m => jsonQuote m.1 ++ Char.ofNat 58 :: m.2) = (m :: ms).map memberText := by
      simp [memberText]
    have hj := parseMembers_join (m :: ms) (List.cons_ne_nil _ _) hall f rest
    simp only [jsonObject, hmap, List.length_cons, List.length_append, List.length_nil]
      at hlen ⊢
    have hj2 := hj (by omega)
    obtain ⟨k, vt, v⟩ := m
    cases ms with
    | nil =>
      simp only [List.map_cons, List.map_nil, jsonJoin, memberText, jsonQuote,
        List.cons_append, List.append_assoc, List.nil_append] at hj2 ⊢
      rw [parseValue]
      simp only [skipWS]
      have h1 : isWS (Char.ofNat 123) = false := by decide
      have h2 : (Char.ofNat 123).toNat = 123 := by decide
      have h3 : isWS (Char.ofNat 34) = false := by decide
      have h4 : ¬ (Char.ofNat 34).toNat = 125 := by decide
      simp only [h1, h2, Bool.false_eq_true, if_false, if_true, skipWS_quote, h4, hj2,
        Option.map_some']
    | cons m2 ms2 =>
      simp only [List.map_cons, jsonJoin, memberText, jsonQuote,
        List.cons_append, List.append_assoc, List.nil_append] at hj2 ⊢
      rw [parseValue]
      simp only [skipWS]
      have h1 : isWS (Char.ofNat 123) = false := by decide
      have h2 : (Char.ofNat 123).toNat = 123 := by decide
      have h3 : isWS (Char.ofNat 34) = false := by decide
      have h4 : ¬ (Char.ofNat 34).toNat = 125 := by decide
      simp only [h1, h2, Bool.false_eq_true, if_false, if_true, skipWS_quote, h4, hj2,
        Option.map_some']

/-! ## Sorted maps -/

theorem ltChars_irrefl : ∀ (a : List Char), ltChars a a = false := by
  intro a
  induction a with
  | nil => rfl
  | cons c cs ih => simp [ltChars, ih]

theorem ltChars_asymm : ∀ (a b : List Char), ltChars a b = true → ltChars b a = false := by
  intro a
  induction a with
  | nil => intro b _; cases b <;> rfl
  | cons c cs ih =>
    intro b h
    cases b with
    | nil => simp [ltChars] at h
    | cons d ds =>
      simp only [ltChars] at h ⊢
      by_cases h1 : c.toNat < d.toNat
      · have h2 : ¬ d.toNat < c.toNat := by omega
        simp [h1, h2]
      · by_cases h2 : d.toNat < c.toNat
        · simp [h1, h2] at h
        · simp only [h1, h2, if_false] at h ⊢
          exact ih ds h

theorem ltChars_trans : ∀ (a b c : List Char), ltChars a b = true → ltChars b c = true →
    ltChars a c = true := by
  intro a
  induction a with
  | nil =>
    intro b c h1 h2
    cases b with
    | nil => simp [ltChars] at h1
    | cons d ds =>
      cases c with
      | nil => simp [ltChars] at h2
      | cons e es => rfl
  | cons x xs ih =>
    intro b c h1 h2
    cases b with
    | nil => simp [ltChars] at h1
    | cons d ds =>
      cases c with
      | nil => simp [ltChars] at h2
      | cons e es =>
        simp only [ltChars] at h1 h2 ⊢
        by_cases a1 : x.toNat < d.toNat
        · by_cases b1 : d.toNat < e.toNat
          · have : x.toNat < e.toNat := by omega
            simp [this]
          · by_cases b2 : e.toNat < d.toNat
            · simp [b1, b2] at h2
            · have : x.toNat < e.toNat := by omega
              simp [this]
        · by_cases a2 : d.toNat < x.toNat
          · simp [a1, a2] at h1
          · simp only [a1, a2, if_false] at h1
            by_cases b1 : d.toNat < e.toNat
            · have : x.toNat < e.toNat := by omega
              simp [this]
            · by_cases b2 : e.toNat < d.toNat
              · simp [b1, b2] at h2
              · simp only [b1, b2, if_false] at h2
                have c1 : ¬ x.toNat < e.toNat := by omega
                have c2 : ¬ e.toNat < x.toNat := by omega
                simp only [c1, c2, if_false]
                exact ih ds es h1 h2

theorem char_toNat_inj (c d : Char) (h : c.toNat = d.toNat) : c = d := by
  rw [← Char.ofNat_toNat c, ← Char.ofNat_toNat d, h]

theorem ltChars_total : ∀ (a b : List Char), a ≠ b → ltChars a b = false → ltChars b a = true := by
  intro a
  induction a with
  | nil =>
    intro b h1 h2
    cases b with
    | nil => exact absurd rfl h1
    | cons d ds => simp [ltChars] at h2
  | cons c cs ih =>
    intro b h1 h2
    cases b with
    | nil => rfl
    | cons d ds =>
      simp only [ltChars] at h2 ⊢
      by_cases a1 : c.toNat < d.toNat
      · simp [a1] at h2
      · by_cases a2 : d.toNat < c.toNat
        · simp [a2]
        · simp only [a1, a2, if_false] at h2 ⊢
          have hcd : c = d := char_toNat_inj c d (by omega)
          subst hcd
          exact ih ds (fun h => h1 (by rw [h])) h2

theorem string_ne_data (k k1 : String) (h : k ≠ k1) : k.data ≠ k1.data := by
  intro hd
  apply h
  cases k; cases k1
  simp only at hd
  rw [hd]

theorem insert_append {α : Type} (k : String) (v : α) : ∀ (acc : GoMap α),
    (∀ e ∈ acc, ltChars e.1.data k.data = true) → GoMap.insert k v acc = acc ++ [(k, v)] := by
  intro acc
  induction acc with
  | nil => intro _; rfl
  | cons e rest ih =>
    intro h
    obtain ⟨k1, v1⟩ := e
    have hlt : ltChars k1.data k.data = true := h (k1, v1) (List.mem_cons_self _ _)
    have hne : ¬ k = k1 := by
      intro heq
      subst heq
      rw [ltChars_irrefl] at hlt
      exact Bool.false_ne_true hlt
    have hnlt : ltChars k.data k1.data = false := ltChars_asymm _ _ hlt
    simp only [GoMap.insert, hne, hnlt, if_false, Bool.false_eq_true, List.cons_append]
    rw [ih (fun e he => h e (List.mem_cons_of_mem _ he))]

theorem foldl_insert_sorted {α : Type} : ∀ (l acc : GoMap α), KeysSorted l →
    (∀ a ∈ acc, ∀ b ∈ l, ltChars a.1.data b.1.data = true) →
    l.foldl (fun acc m => GoMap.insert m.1 m.2 acc) acc = acc ++ l := by
  intro l
  induction l with
  | nil => intro acc _ _; simp
  | cons e l ih =>
    intro acc hs hlt
    simp only [List.foldl_cons]
    rw [insert_append e.1 e.2 acc (fun a ha => hlt a ha e (List.mem_cons_self _ _))]
    have hs2 := List.pairwise_cons.mp hs
    rw [ih (acc ++ [(e.1, e.2)]) hs2.2]
    · simp
    · intro a ha b hb
      rcases List.mem_append.mp ha with ha | ha
      · exact hlt a ha b (List.mem_cons_of_mem _ hb)
      · simp only [List.mem_singleton] at ha
        subst ha
        exact hs2.1 b hb

theorem sortMembers_of_sorted {α : Type} (m : GoMap α) (h : KeysSorted m) : sortMembers m = m := by
  unfold sortMembers
  rw [foldl_insert_sorted m [] h (by simp)]
  simp

theorem mem_insert {α : Type} (k : String) (v : α) : ∀ (m : GoMap α) (e : String × α),
    e ∈ GoMap.insert k v m → e = (k, v) ∨ e ∈ m := by
  intro m
  induction m with
  | nil => intro e h; simp [GoMap.insert] at h; exact Or.inl h
  | cons x rest ih =>
    intro e h
    obtain ⟨k1, v1⟩ := x
    simp only [GoMap.insert] at h
    by_cases h1 : k = k1
    · simp only [h1, if_true, List.mem_cons] at h
      rcases h with h | h
      · exact Or.inl (by rw [h, h1])
      · exact Or.inr (List.mem_cons_of_mem _ h)
    · simp only [h1, if_false] at h
      by_cases h2 : ltChars k.data k1.data = true
      · simp only [h2, if_true, List.mem_cons] at h
        rcases h with h | h | h
        · exact Or.inl h
        · exact Or.inr (List.mem_cons.mpr (Or.inl h))
        · exact Or.inr (List.mem_cons_of_mem _ h)
      · simp only [h2, Bool.false_eq_true, if_false, List.mem_cons] at h
        rcases h with h | h
        · exact Or.inr (List.mem_cons.mpr (Or.inl h))
        · rcases ih e h with h | h
          · exact Or.inl h
          · exact Or.inr (List.mem_cons_of_mem _ h)

theorem insert_sorted {α : Type} (k : String) (v : α) : ∀ (m : GoMap α), KeysSorted m →
    KeysSorted (GoMap.insert k v m) := by
  intro m
  induction m with
  | nil => intro _; simp [GoMap.insert, KeysSorted]
  | cons x rest ih =>
    intro h
    obtain ⟨k1, v1⟩ := x
    have h2 := List.pairwise_cons.mp h
    simp only [GoMap.insert]
    by_cases e1 : k = k1
    · subst e1
      simp only [if_true]
      exact List.pairwise_cons.mpr ⟨h2.1, h2.2⟩
    · simp only [e1, if_false]
      by_cases e2 : ltChars k.data k1.data = true
      · simp only [e2, if_true]
        refine List.pairwise_cons.mpr ⟨?_, h⟩
        intro b hb
        rcases List.mem_cons.mp hb with hb | hb
        · rw [hb]; exact e2
        · exact ltChars_trans _ _ _ e2 (h2.1 b hb)
      · simp only [e2, if_false]
        refine List.pairwise_cons.mpr ⟨?_, ih h2.2⟩
        intro b hb
        rcases mem_insert k v rest b hb with hb | hb
        · rw [hb]
          exact ltChars_total _ _ (string_ne_data _ _ e1) (by simpa using e2)
        · exact h2.1 b hb

theorem get_insert {α : Type} (k : String) (v : α) (name : String) : ∀ (m : GoMap α),
    GoMap.get name (GoMap.insert k v m) = if name = k then some v else GoMap.get name m := by
  intro m
  induction m with
  | nil => simp [GoMap.insert, GoMap.get]
  | cons x rest ih =>
    obtain ⟨k1, v1⟩ := x
    simp only [GoMap.insert]
    by_cases e1 : k = k1
    · subst e1
      simp only [if_true, GoMap.get]
      by_cases e3 : name = k <;> simp [e3]
    · simp only [e1, if_false]
      by_cases e2 : ltChars k.data k1.data = true
      · simp only [e2, if_true, GoMap.get]
      · simp only [e2, if_false, GoMap.get, ih]
        by_cases e3 : name = k1
        · have : ¬ k1 = k := fun h => e1 h.symm
          simp [e3, this]
        · simp [e3]

/-! ## Attribute values -/

theorem parses_opt {α : Type} (f : α → List Char) (g : α → JValue)
    (h : ∀ a, Parses (f a) (g a)) (o : Option α) : Parses (jsonOpt f o) (jOpt g o) := by
  cases o with
  | none => exact parses_null
  | some a => exact h a

theorem parses_attr (av : AttributeValue) (h : Flat av) : Parses (jsonOfAttr av) (jOfAttr av) := by
  obtain ⟨b, bool, bs, l, m, n, ns, null, s, ss⟩ := av
  obtain ⟨h1, h2, h3, h4, h5⟩ := h
  simp only at h1 h2 h3 h4 h5
  subst h1 h2 h3 h4 h5
  have key := parses_object
    [("B", jsonOpt jsonBytes b, jOpt jOfBytes b),
     ("BOOL", jsonOpt jsonBool bool, jOpt JValue.bool bool),
     ("BS", jsonNull, JValue.null), ("L", jsonNull, JValue.null), ("M", jsonNull, JValue.null),
     ("N", jsonOpt jsonQuote n, jOpt JValue.str n), ("NS", jsonNull, JValue.null),
     ("NULL", jsonOpt jsonBool null, jOpt JValue.bool null),
     ("S", jsonOpt jsonQuote s, jOpt JValue.str s), ("SS", jsonNull, JValue.null)]
    (by
      intro x hx
      simp only [List.mem_cons, List.mem_singleton, List.not_mem_nil, or_false] at hx
      rcases hx with rfl | rfl | rfl | rfl | rfl | rfl | rfl | rfl | rfl | rfl
      · exact parses_opt _ _ parses_bytes b
      · exact parses_opt _ _ parses_bool bool
      · exact parses_null
      · exact parses_null
      · exact parses_null
      · exact parses_opt _ _ parses_quote n
      · exact parses_null
      · exact parses_opt _ _ parses_bool null
      · exact parses_opt _ _ parses_quote s
      · exact parses_null)
  exact key

theorem parses_attrPtr (x : Option AttributeValue) (h : ∀ av, x = some av → Flat av) :
    Parses (jsonOfAttrPtr x) (jOfAttrPtr x) := by
  cases x with
  | none => exact parses_null
  | some av => exact parses_attr av (h av rfl)

theorem decodeBytes_jOpt (b : Option (List Byte)) : decodeBytes (jOpt jOfBytes b) = .ok b := by
  cases b with
  | none => rfl
  | some x => simp [jOpt, jOfBytes, decodeBytes, base64Decode_encode]

theorem decodeBool_jOpt (b : Option Bool) : decodeBool (jOpt JValue.bool b) = .ok b := by
  cases b <;> rfl

theorem decodeString_jOpt (s : Option String) : decodeString (jOpt JValue.str s) = .ok s := by
  cases s <;> rfl

theorem decodeAttrPtr_jOfAttr (av : AttributeValue) (h : Flat av) :
    decodeAttrPtr (jOfAttr av) = .ok (some av) := by
  obtain ⟨b, bool, bs, l, m, n, ns, null, s, ss⟩ := av
  obtain ⟨h1, h2, h3, h4, h5⟩ := h
  simp only at h1 h2 h3 h4 h5
  subst h1 h2 h3 h4 h5
  have f1 : attrFieldOf "B" = some .B := by decide
  have f2 : attrFieldOf "BOOL" = some .BOOL := by decide
  have f3 : attrFieldOf "BS" = some .BS := by decide
  have f4 : attrFieldOf "L" = some .L := by decide
  have f5 : attrFieldOf "M" = some .M := by decide
  have f6 : attrFieldOf "N" = some .N := by decide
  have f7 : attrFieldOf "NS" = some .NS := by decide
  have f8 : attrFieldOf "NULL" = some .NULL := by decide
  have f9 : attrFieldOf "S" = some .S := by decide
  have f10 : attrFieldOf "SS" = some .SS := by decide
  simp only [jOfAttr, decodeAttrPtr, decodeAttrFields, f1, f2, f3, f4, f5, f6, f7, f8, f9, f10,
    decodeBytes_jOpt, decodeBool_jOpt, decodeString_jOpt, decodeBytesList, decodeStrings,
    decodeAttrList, decodeAttrMap, Except.bind, Except.map, AttributeValue.zero]

theorem decodeAttrPtr_jOfAttrPtr (x : Option AttributeValue) (h : ∀ av, x = some av → Flat av) :
    decodeAttrPtr (jOfAttrPtr x) = .ok x := by
  cases x with
  | none => rfl
  | some av => exact decodeAttrPtr_jOfAttr av (h av rfl)

/-! ## The cursor round trip -/

theorem keysSorted_map {α β : Type} (m : GoMap α) (g : String × α → β) (h : KeysSorted m) :
    KeysSorted (m.map fun e => (e.1, g e)) := by
  unfold KeysSorted at h ⊢
  rw [List.pairwise_map]
  exact h

theorem parses_keymap (m : AttrMap) (hs : KeysSorted m) (hf : FlatMap m) :
    Parses (jsonOfAttrMapTop (some m)) (.obj (m.map fun e => (e.1, jOfAttrPtr e.2))) := by
  have h1 : jsonOfAttrMapTop (some m) =
      jsonObject ((m.map fun e => (e.1, jsonOfAttrPtr e.2, jOfAttrPtr e.2)).map
        fun t => (t.1, t.2.1)) := by
    simp only [jsonOfAttrMapTop, List.map_map]
    rw [sortMembers_of_sorted _ (keysSorted_map m (fun e => jsonOfAttrPtr e.2) hs)]
    rfl
  have h2 : (m.map fun e => (e.1, jOfAttrPtr e.2)) =
      (m.map fun e => (e.1, jsonOfAttrPtr e.2, jOfAttrPtr e.2)).map fun t => (t.1, t.2.2) := by
    simp only [List.map_map]
    rfl
  rw [h1, h2]
  apply parses_object
  intro t ht
  simp only [List.mem_map] at ht
  obtain ⟨e, he, rfl⟩ := ht
  exact parses_attrPtr e.2 (hf e he)

theorem decodeAttrMembers_map : ∀ (m acc : AttrMap), FlatMap m →
    decodeAttrMembers (m.map fun e => (e.1, jOfAttrPtr e.2)) acc =
      .ok (m.foldl (fun acc e => GoMap.insert e.1 e.2 acc) acc) := by
  intro m
  induction m with
  | nil => intro acc _; rfl
  | cons e m ih =>
    intro acc hf
    simp only [List.map_cons, decodeAttrMembers, List.foldl_cons]
    rw [decodeAttrPtr_jOfAttrPtr e.2 (hf e (List.mem_cons_self _ _))]
    simp only [Except.bind]
    exact ih _ (fun x hx => hf x (List.mem_cons_of_mem _ hx))

theorem decodeAttrMap_keymap (m : AttrMap) (hs : KeysSorted m) (hf : FlatMap m) :
    decodeAttrMap (.obj (m.map fun e => (e.1, jOfAttrPtr e.2))) none = .ok (some m) := by
  simp only [decodeAttrMap, Option.getD_none]
  rw [decodeAttrMembers_map m [] hf, foldl_insert_sorted m [] hs (by simp)]
  rfl

theorem parseJSON_of_parses (text : List Char) (v : JValue) (h : Parses text v) :
    parseJSON text = some v := by
  unfold parseJSON
  have := h (2 * text.length + 2) [] (by omega)
  rw [List.append_nil] at this
  rw [this]
  rfl

theorem jsonUnmarshal_marshal (m : AttrMap) (hs : KeysSorted m) (hf : FlatMap m) :
    jsonUnmarshal (utf8Encode (jsonOfAttrMapTop (some m))) = .ok (some m) := by
  unfold jsonUnmarshal
  rw [utf8Decode_encode, parseJSON_of_parses _ _ (parses_keymap m hs hf)]
  exact decodeAttrMap_keymap m hs hf

theorem decodeKey_cursor (m : AttrMap) (hs : KeysSorted m) (hf : FlatMap m) :
    decodeKey (String.mk (base64Encode (utf8Encode (jsonOfAttrMapTop (some m))))) =
      .ok (some m) := by
  unfold decodeKey
  simp only [base64Decode_encode, jsonUnmarshal_marshal m hs hf]

theorem encodeKey_of_loop (schema : List KeySchemaElement) (n : node) (key : AttrMap)
    (h : encodeKeyLoop schema n [] = .ok key) :
    encodeKey schema n =
      .ok (String.mk (base64Encode (utf8Encode (jsonOfAttrMapTop (some key))))) := by
  unfold encodeKey
  rw [h]
  rfl

theorem encodeKeyLoop_sorted_flat : ∀ (schema : List KeySchemaElement) (n : node)
    (acc key : AttrMap), KeysSorted acc → FlatMap acc →
    (∀ el ∈ schema, ∀ av, marshal (n.index el.AttributeName) = .ok av → Flat av) →
    encodeKeyLoop schema n acc = .ok key → KeysSorted key ∧ FlatMap key := by
  intro schema
  induction schema with
  | nil =>
    intro n acc key hs hf _ h
    simp only [encodeKeyLoop, Except.ok.injEq] at h
    subst h
    exact ⟨hs, hf⟩
  | cons el schema ih =>
    intro n acc key hs hf hm h
    simp only [encodeKeyLoop] at h
    cases hv : marshal (n.index el.AttributeName) with
    | error e => rw [hv] at h; simp at h
    | ok v =>
      rw [hv] at h
      simp only at h
      refine ih n _ key (insert_sorted _ _ acc hs) ?_
        (fun x hx => hm x (List.mem_cons_of_mem _ hx)) h
      intro e he av hav
      rcases mem_insert _ _ acc e he with he | he
      · rw [he] at hav
        simp only [Option.some.injEq] at hav
        subst hav
        exact hm el (List.mem_cons_self _ _) v hv
      · exact hf e he av hav

theorem decodeKey_encodeKey (schema : List KeySchemaElement) (n : node) (key : AttrMap)
    (hm : ∀ el ∈ schema, ∀ av, marshal (n.index el.AttributeName) = .ok av → Flat av)
    (h : encodeKeyLoop schema n [] = .ok key) :
    ∃ cursor, encodeKey schema n = .ok cursor ∧ decodeKey cursor = .ok (some key) := by
  obtain ⟨hs, hf⟩ := encodeKeyLoop_sorted_flat schema n [] key
    (by simp [KeysSorted]) (by intro e he; simp at he) hm h
  exact ⟨_, encodeKey_of_loop schema n key h, decodeKey_cursor key hs hf⟩

theorem marshal_populated (v : GoValue) (h : Populated v) : marshal v = .ok (typedAttr v) := by
  cases v with
  | nil => exact absurd h (by simp [Populated])
  | bool b => exact absurd h (by simp [Populated])
  | str s =>
    have hne : s.data.isEmpty = false := by
      cases s with
      | mk d =>
        cases d with
        | nil => exact absurd rfl h
        | cons c cs => rfl
    simp [marshal, typedAttr, hne]
  | num t => rfl
  | bytes b =>
    have hne : b.isEmpty = false := by
      cases b with
      | nil => exact absurd rfl h
      | cons c cs => rfl
    simp [marshal, typedAttr, hne]
  | other r => exact absurd h (by simp [Populated])

theorem typedAttr_flat (v : GoValue) : Flat (typedAttr v) := by
  cases v <;> exact ⟨rfl, rfl, rfl, rfl, rfl⟩

theorem encodeKeyLoop_populated : ∀ (schema : List KeySchemaElement) (n : node) (acc : AttrMap),
    (∀ el ∈ schema, Populated (n.index el.AttributeName)) →
    encodeKeyLoop schema n acc =
      .ok (schema.foldl (fun key element =>
        GoMap.insert element.AttributeName
          (some (typedAttr (n.index element.AttributeName))) key) acc) := by
  intro schema
  induction schema with
  | nil => intro n acc _; rfl
  | cons el schema ih =>
    intro n acc h
    simp only [encodeKeyLoop, List.foldl_cons]
    rw [marshal_populated _ (h el (List.mem_cons_self _ _))]
    exact ih n _ (fun x hx => h x (List.mem_cons_of_mem _ hx))

theorem get_foldl_restrict (n : node) (name : String) : ∀ (schema : List KeySchemaElement)
    (acc : AttrMap),
    GoMap.get name (schema.foldl (fun key element =>
        GoMap.insert element.AttributeName
          (some (typedAttr (n.index element.AttributeName))) key) acc) =
      if name ∈ schema.map (fun el => el.AttributeName) then
        some (some (typedAttr (n.index name)))
      else GoMap.get name acc := by
  intro schema
  induction schema with
  | nil => intro acc; simp
  | cons el schema ih =>
    intro acc
    simp only [List.foldl_cons, List.map_cons, List.mem_cons]
    rw [ih, get_insert]
    by_cases h1 : name ∈ schema.map (fun el => el.AttributeName)
    · simp [h1]
    · by_cases h2 : name = el.AttributeName
      · simp [h1, h2]
      · simp [h1, h2]

theorem round_trip_populated (schema : List KeySchemaElement) (n : node)
    (h : ∀ el ∈ schema, Populated (n.index el.AttributeName)) :
    ∃ cursor, encodeKey schema n = .ok cursor ∧
      decodeKey cursor = .ok (some (restrict schema n)) := by
  have hloop := encodeKeyLoop_populated schema n [] h
  exact decodeKey_encodeKey schema n (restrict schema n)
    (by
      intro el hel av hav
      rw [marshal_populated _ (h el hel)] at hav
      simp only [Except.ok.injEq] at hav
      subst hav
      exact typedAttr_flat _)
    hloop

theorem restrict_sorted (schema : List KeySchemaElement) (n : node) :
    KeysSorted (restrict schema n) := by
  have h : ∀ (l : List KeySchemaElement) (acc : AttrMap), KeysSorted acc →
      KeysSorted (l.foldl (fun key element => GoMap.insert element.AttributeName
        (some (typedAttr (n.index element.AttributeName))) key) acc) := by
    intro l
    induction l with
    | nil => intro acc hacc; exact hacc
    | cons el l ih =>
      intro acc hacc
      simp only [List.foldl_cons]
      exact ih _ (insert_sorted _ _ acc hacc)
  exact h schema [] (by simp [KeysSorted])

/-- C1. Cursor round trip: for every key schema and every record whose key
fields are populated (a non-empty string, a number, or non-empty binary data),
`encodeKey` succeeds and `decodeKey` of its cursor succeeds with the record
restricted to the schema: a map with strictly increasing keys that holds
exactly the schema's field names, each with the typed value of the record's
field unchanged. -/
theorem cursor_round_trip (schema : List KeySchemaElement) (n : node)
    (h : ∀ el ∈ schema, Populated (n.index el.AttributeName)) :
    ∃ cursor, encodeKey schema n = .ok cursor ∧
      decodeKey cursor = .ok (some (restrict schema n)) ∧
      KeysSorted (restrict schema n) ∧
      ∀ name, GoMap.get name (restrict schema n) =
        if name ∈ schema.map (fun el => el.AttributeName) then
          some (some (typedAttr (n.index name)))
        else none := by
  obtain ⟨cursor, h1, h2⟩ := round_trip_populated schema n h
  refine ⟨cursor, h1, h2, restrict_sorted schema n, ?_⟩
  intro name
  unfold restrict
  rw [get_foldl_restrict]
  rfl

theorem cursor_round_trip_witness :
    (∀ el ∈ [(⟨"id", "HASH"⟩ : KeySchemaElement)], Populated (testNode.index el.AttributeName)) ∧
    (∃ cursor, encodeKey [⟨"id", "HASH"⟩] testNode = .ok cursor ∧
      decodeKey cursor = .ok (some (restrict [⟨"id", "HASH"⟩] testNode)) ∧
      KeysSorted (restrict [⟨"id", "HASH"⟩] testNode) ∧
      ∀ name, GoMap.get name (restrict [⟨"id", "HASH"⟩] testNode) =
        if name ∈ [(⟨"id", "HASH"⟩ : KeySchemaElement)].map (fun el => el.AttributeName) then
          some (some (typedAttr (testNode.index name)))
        else none) ∧
    encodeKey [⟨"id", "HASH"⟩] testNode = .ok testCursor ∧
    decodeKey testCursor = .ok (some [("id", some { AttributeValue.zero with S := some "11111" })]) :=
  have hp : ∀ el ∈ [(⟨"id", "HASH"⟩ : KeySchemaElement)],
      Populated (testNode.index el.AttributeName) := by
    intro el hel
    simp only [List.mem_singleton] at hel
    subst hel
    show Populated (GoValue.str "11111")
    simp [Populated]
  ⟨hp, cursor_round_trip [⟨"id", "HASH"⟩] testNode hp, rfl, rfl⟩

/-! ## What the string parser consumes -/

theorem skipWS_length_le : ∀ (cs : List Char), (skipWS cs).length ≤ cs.length := by
  intro cs
  induction cs with
  | nil => simp [skipWS]
  | cons c cs ih =>
    simp only [skipWS]
    split
    · simp only [List.length_cons]; omega
    · simp

theorem hex4_rest (cs : List Char) (u : Nat) (rest : List Char) (h : hex4 cs = some (u, rest)) :
    rest.length + 4 = cs.length := by
  match cs, h with
  | a :: b :: c :: d :: r, h =>
    simp only [hex4] at h
    split at h
    · simp only [Option.some.injEq, Prod.mk.injEq] at h
      obtain ⟨_, rfl⟩ := h
      simp
    · simp at h
  | [], h => simp [hex4] at h
  | [_], h => simp [hex4] at h
  | [_, _], h => simp [hex4] at h
  | [_, _, _], h => simp [hex4] at h

theorem unicodeEscape_rest (cs : List Char) (u : Nat) (rest : List Char)
    (h : unicodeEscape cs = some (u, rest)) : rest.length + 6 = cs.length := by
  match cs, h with
  | b :: c :: r, h =>
    simp only [unicodeEscape] at h
    split at h
    · have := hex4_rest _ _ _ h
      simp only [List.length_cons]
      omega
    · simp at h
  | [], h => simp [unicodeEscape] at h
  | [_], h => simp [unicodeEscape] at h

theorem consChar_eq_some (c : Char) (r : Option (List Char × List Char)) (s rest : List Char)
    (h : consChar c r = some (s, rest)) : ∃ s1, r = some (s1, rest) := by
  cases r with
  | none => simp [consChar] at h
  | some p =>
    simp only [consChar, Option.map_some', Option.some.injEq, Prod.mk.injEq] at h
    exact ⟨p.1, by rw [← h.2]⟩

theorem parseStringBody_rest : ∀ (f : Nat) (cs s rest : List Char),
    parseStringBody f cs = some (s, rest) → rest.length < cs.length := by
  intro f
  induction f with
  | zero => intro cs s rest h; simp [parseStringBody] at h
  | succ f ih =>
    intro cs s rest h
    cases cs with
    | nil => simp [parseStringBody] at h
    | cons c tl =>
      simp only [parseStringBody] at h
      split at h
      · simp only [Option.some.injEq, Prod.mk.injEq] at h
        obtain ⟨_, rfl⟩ := h
        simp
      · split at h
        · cases tl with
          | nil => simp at h
          | cons e rest2 =>
            simp only at h
            split at h
            · cases hx : hex4 rest2 with
              | none => rw [hx] at h; simp at h
              | some p =>
                obtain ⟨u, rest3⟩ := p
                rw [hx] at h
                simp only at h
                have h4 := hex4_rest _ _ _ hx
                split at h
                · cases hu : unicodeEscape rest3 with
                  | none =>
                    rw [hu] at h
                    simp only at h
                    obtain ⟨s1, hs⟩ := consChar_eq_some _ _ _ _ h
                    have := ih _ _ _ hs
                    simp only [List.length_cons]; omega
                  | some q =>
                    obtain ⟨lo, rest4⟩ := q
                    rw [hu] at h
                    simp only at h
                    have h6 := unicodeEscape_rest _ _ _ hu
                    split at h
                    · obtain ⟨s1, hs⟩ := consChar_eq_some _ _ _ _ h
                      have := ih _ _ _ hs
                      simp only [List.length_cons]; omega
                    · obtain ⟨s1, hs⟩ := consChar_eq_some _ _ _ _ h
                      have := ih _ _ _ hs
                      simp only [List.length_cons]; omega
                · obtain ⟨s1, hs⟩ := consChar_eq_some _ _ _ _ h
                  have := ih _ _ _ hs
                  simp only [List.length_cons]; omega
            · cases hs : simpleEscape e with
              | none => rw [hs] at h; simp at h
              | some x =>
                rw [hs] at h
                simp only at h
                obtain ⟨s1, hs1⟩ := consChar_eq_some _ _ _ _ h
                have := ih _ _ _ hs1
                simp only [List.length_cons]; omega
        · split at h
          · simp at h
          · obtain ⟨s1, hs1⟩ := consChar_eq_some _ _ _ _ h
            have := ih _ _ _ hs1
            simp only [List.length_cons]; omega

theorem parseStringBody_fuel : ∀ (f : Nat) (cs : List Char), cs.length < f →
    parseStringBody (f + 1) cs = parseStringBody f cs := by
  intro f
  induction f with
  | zero => intro cs h; simp at h
  | succ f ih =>
    intro cs h
    cases cs with
    | nil => simp [parseStringBody]
    | cons c tl =>
      simp only [List.length_cons] at h
      have etl : parseStringBody (f + 1) tl = parseStringBody f tl := ih tl (by omega)
      simp only [parseStringBody]
      split
      · rfl
      · split
        · cases tl with
          | nil => rfl
          | cons e rest2 =>
            simp only [List.length_cons] at h
            simp only
            split
            · cases hx : hex4 rest2 with
              | none => rfl
              | some p =>
                obtain ⟨u, rest3⟩ := p
                simp only
                have h4 := hex4_rest _ _ _ hx
                have e3 : parseStringBody (f + 1) rest3 = parseStringBody f rest3 :=
                  ih rest3 (by omega)
                split
                · cases hu : unicodeEscape rest3 with
                  | none => simp only [e3]
                  | some q =>
                    obtain ⟨lo, rest4⟩ := q
                    have h6 := unicodeEscape_rest _ _ _ hu
                    have e4 : parseStringBody (f + 1) rest4 = parseStringBody f rest4 :=
                      ih rest4 (by omega)
                    simp only [e3, e4]
                · simp only [e3]
            · cases hs : simpleEscape e with
              | none => rfl
              | some x => simp only [ih rest2 (by omega)]
        · split
          · rfl
          · rw [etl]

/-! ## What the number and literal parsers consume -/

theorem span_snd_length_le (p : Char → Bool) : ∀ (cs : List Char),
    (cs.span p).2.length ≤ cs.length := by
  intro cs
  induction cs with
  | nil => simp
  | cons c cs ih =>
    by_cases hp : p c = true
    · have : List.span p (c :: cs) = (c :: (cs.span p).1, (cs.span p).2) := by
        simp [List.span_eq_take_drop, List.takeWhile_cons, List.dropWhile_cons, hp]
      rw [this]
      simp only [List.length_cons]; omega
    · have : List.span p (c :: cs) = ([], c :: cs) := by
        simp [List.span_eq_take_drop, List.takeWhile_cons, List.dropWhile_cons, hp]
      rw [this]

theorem digits1_rest (cs l rest : List Char) (h : digits1 cs = some (l, rest)) :
    rest.length ≤ cs.length := by
  unfold digits1 at h
  simp only at h
  split at h
  · simp at h
  · simp only [Option.some.injEq] at h
    have := span_snd_length_le isDigit cs
    rw [h] at this
    exact this

theorem parseInt_rest (cs l rest : List Char) (h : parseInt cs = some (l, rest)) :
    rest.length < cs.length := by
  cases cs with
  | nil => simp [parseInt] at h
  | cons d tl =>
    simp only [parseInt] at h
    split at h
    · simp only [Option.some.injEq, Prod.mk.injEq] at h
      obtain ⟨_, rfl⟩ := h
      simp
    · split at h
      · simp only [Option.some.injEq, Prod.mk.injEq] at h
        have := span_snd_length_le isDigit tl
        rw [h.2] at this
        simp only [List.length_cons]; omega
      · simp at h

theorem parseFrac_rest (cs l rest : List Char) (h : parseFrac cs = some (l, rest)) :
    rest.length ≤ cs.length := by
  cases cs with
  | nil =>
    simp only [parseFrac, Option.some.injEq, Prod.mk.injEq] at h
    rw [← h.2]
  | cons c tl =>
    simp only [parseFrac] at h
    split at h
    · cases hd : digits1 tl with
      | none => rw [hd] at h; simp at h
      | some p =>
        rw [hd] at h
        simp only [Option.map_some', Option.some.injEq, Prod.mk.injEq] at h
        have := digits1_rest tl p.1 p.2 (by rw [hd])
        rw [h.2] at this
        simp only [List.length_cons]; omega
    · simp only [Option.some.injEq, Prod.mk.injEq] at h
      rw [← h.2]

theorem parseExp_rest (cs l rest : List Char) (h : parseExp cs = some (l, rest)) :
    rest.length ≤ cs.length := by
  cases cs with
  | nil =>
    simp only [parseExp, Option.some.injEq, Prod.mk.injEq] at h
    rw [← h.2]
  | cons c tl =>
    simp only [parseExp] at h
    split at h
    · cases tl with
      | nil => simp at h
      | cons sg rest2 =>
        simp only at h
        split at h
        · cases hd : digits1 rest2 with
          | none => rw [hd] at h; simp at h
          | some p =>
            rw [hd] at h
            simp only [Option.map_some', Option.some.injEq, Prod.mk.injEq] at h
            have := digits1_rest rest2 p.1 p.2 (by rw [hd])
            rw [h.2] at this
            simp only [List.length_cons]; omega
        · cases hd : digits1 (sg :: rest2) with
          | none => rw [hd] at h; simp at h
          | some p =>
            rw [hd] at h
            simp only [Option.map_some', Option.some.injEq, Prod.mk.injEq] at h
            have := digits1_rest (sg :: rest2) p.1 p.2 (by rw [hd])
            rw [h.2] at this
            simp only [List.length_cons] at this ⊢; omega
    · simp only [Option.some.injEq, Prod.mk.injEq] at h
      rw [← h.2]

theorem parseUnsigned_rest (cs l rest : List Char) (h : parseUnsigned cs = some (l, rest)) :
    rest.length < cs.length := by
  unfold parseUnsigned at h
  cases h1 : parseInt cs with
  | none => rw [h1] at h; simp at h
  | some p1 =>
    obtain ⟨i, r1⟩ := p1
    rw [h1] at h
    simp only at h
    cases h2 : parseFrac r1 with
    | none => rw [h2] at h; simp at h
    | some p2 =>
      obtain ⟨fr, r2⟩ := p2
      rw [h2] at h
      simp only at h
      cases h3 : parseExp r2 with
      | none => rw [h3] at h; simp at h
      | some p3 =>
        obtain ⟨e, r3⟩ := p3
        rw [h3] at h
        simp only [Option.some.injEq, Prod.mk.injEq] at h
        have a1 := parseInt_rest _ _ _ h1
        have a2 := parseFrac_rest _ _ _ h2
        have a3 := parseExp_rest _ _ _ h3
        rw [← h.2]
        omega

theorem parseNumber_rest (cs l rest : List Char) (h : parseNumber cs = some (l, rest)) :
    rest.length < cs.length := by
  cases cs with
  | nil => simp [parseNumber] at h
  | cons c tl =>
    simp only [parseNumber] at h
    split at h
    · cases hu : parseUnsigned tl with
      | none => rw [hu] at h; simp at h
      | some p =>
        rw [hu] at h
        simp only [Option.map_some', Option.some.injEq, Prod.mk.injEq] at h
        have := parseUnsigned_rest tl p.1 p.2 (by rw [hu])
        rw [h.2] at this
        simp only [List.length_cons]; omega
    · exact parseUnsigned_rest _ _ _ h

theorem parseLiteral_rest (cs : List Char) (v : JValue) (rest : List Char)
    (h : parseLiteral cs = some (v, rest)) : rest.length < cs.length := by
  match cs, h with
  | a :: b :: c :: d :: r, h =>
    simp only [parseLiteral] at h
    split at h
    · simp only [Option.some.injEq, Prod.mk.injEq] at h
      rw [← h.2]; simp only [List.length_cons]; omega
    · split at h
      · simp only [Option.some.injEq, Prod.mk.injEq] at h
        rw [← h.2]; simp only [List.length_cons]; omega
      · cases r with
        | nil => simp at h
        | cons e r2 =>
          simp only at h
          split at h
          · simp only [Option.some.injEq, Prod.mk.injEq] at h
            rw [← h.2]; simp only [List.length_cons]; omega
          · simp at h
  | [], h => simp [parseLiteral] at h
  | [_], h => simp [parseLiteral] at h
  | [_, _], h => simp [parseLiteral] at h
  | [_, _, _], h => simp [parseLiteral] at h

/-! ## What the value parser consumes -/

/-- Every successful parse consumes at least one character. -/
theorem parse_rest : ∀ (f : Nat),
    (∀ cs v rest, parseValue f cs = some (v, rest) → rest.length < cs.length) ∧
    (∀ cs vs rest, parseElements f cs = some (vs, rest) → rest.length < cs.length) ∧
    (∀ cs ms rest, parseMembers f cs = some (ms, rest) → rest.length < cs.length) := by
  intro f
  induction f with
  | zero =>
    refine ⟨?_, ?_, ?_⟩ <;> intro cs v rest h <;> simp [parseValue, parseElements, parseMembers] at h
  | succ f ih =>
    obtain ⟨ihV, ihE, ihM⟩ := ih
    refine ⟨?_, ?_, ?_⟩
    · intro cs v rest h
      have hw := skipWS_length_le cs
      simp only [parseValue] at h
      cases h1 : skipWS cs with
      | nil => rw [h1] at h; simp at h
      | cons c r1 =>
        rw [h1] at h hw
        simp only [List.length_cons] at hw
        simp only at h
        split at h
        · have hw2 := skipWS_length_le r1
          cases h2 : skipWS r1 with
          | nil => rw [h2] at h; simp at h
          | cons d r2 =>
            rw [h2] at h hw2
            simp only [List.length_cons] at hw2
            simp only at h
            split at h
            · simp only [Option.some.injEq, Prod.mk.injEq] at h
              rw [← h.2]; omega
            · cases h3 : parseMembers f (d :: r2) with
              | none => rw [h3] at h; simp at h
              | some p =>
                rw [h3] at h
                simp only [Option.map_some', Option.some.injEq, Prod.mk.injEq] at h
                have := ihM _ p.1 p.2 (by rw [h3])
                rw [h.2] at this
                simp only [List.length_cons] at this; omega
        · split at h
          · have hw2 := skipWS_length_le r1
            cases h2 : skipWS r1 with
            | nil => rw [h2] at h; simp at h
            | cons d r2 =>
              rw [h2] at h hw2
              simp only [List.length_cons] at hw2
              simp only at h
              split at h
              · simp only [Option.some.injEq, Prod.mk.injEq] at h
                rw [← h.2]; omega
              · cases h3 : parseElements f (d :: r2) with
                | none => rw [h3] at h; simp at h
                | some p =>
                  rw [h3] at h
                  simp only [Option.map_some', Option.some.injEq, Prod.mk.injEq] at h
                  have := ihE _ p.1 p.2 (by rw [h3])
                  rw [h.2] at this
                  simp only [List.length_cons] at this; omega
          · split at h
            · cases h3 : parseStringBody f r1 with
              | none => rw [h3] at h; simp at h
              | some p =>
                rw [h3] at h
                simp only [Option.map_some', Option.some.injEq, Prod.mk.injEq] at h
                have := parseStringBody_rest f r1 p.1 p.2 (by rw [h3])
                rw [h.2] at this
                omega
            · split at h
              · have := parseLiteral_rest _ _ _ h
                simp only [List.length_cons] at this; omega
              · cases h3 : parseNumber (c :: r1) with
                | none => rw [h3] at h; simp at h
                | some p =>
                  rw [h3] at h
                  simp only [Option.map_some', Option.some.injEq, Prod.mk.injEq] at h
                  have := parseNumber_rest _ p.1 p.2 (by rw [h3])
                  rw [h.2] at this
                  simp only [List.length_cons] at this; omega
    · intro cs vs rest h
      simp only [parseElements] at h
      cases h1 : parseValue f cs with
      | none => rw [h1] at h; simp at h
      | some p =>
        obtain ⟨v, r1⟩ := p
        rw [h1] at h
        simp only at h
        have a1 := ihV _ _ _ h1
        have hw := skipWS_length_le r1
        cases h2 : skipWS r1 with
        | nil => rw [h2] at h; simp at h
        | cons c r2 =>
          rw [h2] at h hw
          simp only [List.length_cons] at hw
          simp only at h
          split at h
          · cases h3 : parseElements f r2 with
            | none => rw [h3] at h; simp at h
            | some q =>
              rw [h3] at h
              simp only [Option.map_some', Option.some.injEq, Prod.mk.injEq] at h
              have := ihE _ q.1 q.2 (by rw [h3])
              rw [h.2] at this
              omega
          · split at h
            · simp only [Option.some.injEq, Prod.mk.injEq] at h
              rw [← h.2]; omega
            · simp at h
    · intro cs ms rest h
      simp only [parseMembers] at h
      have hw := skipWS_length_le cs
      cases h1 : skipWS cs with
      | nil => rw [h1] at h; simp at h
      | cons q r1 =>
        rw [h1] at h hw
        simp only [List.length_cons] at hw
        simp only at h
        split at h
        · cases h2 : parseStringBody f r1 with
          | none => rw [h2] at h; simp at h
          | some p =>
            obtain ⟨k, r2⟩ := p
            rw [h2] at h
            simp only at h
            have a2 := parseStringBody_rest f r1 k r2 h2
            have hw3 := skipWS_length_le r2
            cases h3 : skipWS r2 with
            | nil => rw [h3] at h; simp at h
            | cons colon r3 =>
              rw [h3] at h hw3
              simp only [List.length_cons] at hw3
              simp only at h
              split at h
              · cases h4 : parseValue f r3 with
                | none => rw [h4] at h; simp at h
                | some p4 =>
                  obtain ⟨v, r4⟩ := p4
                  rw [h4] at h
                  simp only at h
                  have a4 := ihV _ _ _ h4
                  have hw5 := skipWS_length_le r4
                  cases h5 : skipWS r4 with
                  | nil => rw [h5] at h; simp at h
                  | cons c r5 =>
                    rw [h5] at h hw5
                    simp only [List.length_cons] at hw5
                    simp only at h
                    split at h
                    · cases h6 : parseMembers f r5 with
                      | none => rw [h6] at h; simp at h
                      | some p6 =>
                        rw [h6] at h
                        simp only [Option.map_some', Option.some.injEq, Prod.mk.injEq] at h
                        have := ihM _ p6.1 p6.2 (by rw [h6])
                        rw [h.2] at this
                        omega
                    · split at h
                      · simp only [Option.some.injEq, Prod.mk.injEq] at h
                        rw [← h.2]; omega
                      · simp at h
              · simp at h
        · simp at h

/-! ## The fuel of the parser and of the rune decoder is enough -/

/-- One more unit of fuel changes nothing once the fuel exceeds twice the
input length. -/
theorem parse_fuel_succ : ∀ (f : Nat),
    (∀ cs, 2 * cs.length + 2 ≤ f → parseValue (f + 1) cs = parseValue f cs) ∧
    (∀ cs, 2 * cs.length + 3 ≤ f → parseElements (f + 1) cs = parseElements f cs) ∧
    (∀ cs, 2 * cs.length + 3 ≤ f → parseMembers (f + 1) cs = parseMembers f cs) := by
  intro f
  induction f with
  | zero =>
    refine ⟨?_, ?_, ?_⟩ <;> intro cs h <;> omega
  | succ f ih =>
    obtain ⟨ihV, ihE, ihM⟩ := ih
    refine ⟨?_, ?_, ?_⟩
    · intro cs hf
      have hw := skipWS_length_le cs
      rw [parseValue, parseValue]
      cases h1 : skipWS cs with
      | nil => rfl
      | cons c r1 =>
        rw [h1] at hw
        simp only [List.length_cons] at hw
        simp only
        have hw2 := skipWS_length_le r1
        have hs : parseStringBody (f + 1) r1 = parseStringBody f r1 :=
          parseStringBody_fuel f r1 (by omega)
        rw [hs]
        cases h2 : skipWS r1 with
        | nil => rfl
        | cons d r2 =>
          rw [h2] at hw2
          simp only [List.length_cons] at hw2
          simp only
          rw [ihM (d :: r2) (by simp only [List.length_cons]; omega),
            ihE (d :: r2) (by simp only [List.length_cons]; omega)]
    · intro cs hf
      rw [parseElements, parseElements]
      rw [ihV cs (by omega)]
      cases h1 : parseValue f cs with
      | none => rfl
      | some p =>
        obtain ⟨v, r1⟩ := p
        simp only
        have a1 := (parse_rest f).1 _ _ _ h1
        have hw := skipWS_length_le r1
        cases h2 : skipWS r1 with
        | nil => rfl
        | cons c r2 =>
          rw [h2] at hw
          simp only [List.length_cons] at hw
          simp only
          rw [ihE r2 (by omega)]
    · intro cs hf
      rw [parseMembers, parseMembers]
      have hw := skipWS_length_le cs
      cases h1 : skipWS cs with
      | nil => rfl
      | cons q r1 =>
        rw [h1] at hw
        simp only [List.length_cons] at hw
        simp only
        rw [parseStringBody_fuel f r1 (by omega)]
        cases h2 : parseStringBody f r1 with
        | none => rfl
        | some p =>
          obtain ⟨k, r2⟩ := p
          simp only
          have a2 := parseStringBody_rest f r1 k r2 h2
          have hw3 := skipWS_length_le r2
          cases h3 : skipWS r2 with
          | nil => rfl
          | cons colon r3 =>
            rw [h3] at hw3
            simp only [List.length_cons] at hw3
            simp only
            rw [ihV r3 (by omega)]
            cases h4 : parseValue f r3 with
            | none => rfl
            | some p4 =>
              obtain ⟨v, r4⟩ := p4
              simp only
              have a4 := (parse_rest f).1 _ _ _ h4
              have hw5 := skipWS_length_le r4
              cases h5 : skipWS r4 with
              | nil => rfl
              | cons c r5 =>
                rw [h5] at hw5
                simp only [List.length_cons] at hw5
                simp only
                rw [ihM r5 (by omega)]

/-- Fuel beyond twice the input length plus two is never used. -/
theorem parseValue_fuel (cs : List Char) (k : Nat) :
    parseValue (2 * cs.length + 2 + k) cs = parseValue (2 * cs.length + 2) cs := by
  induction k with
  | zero => rfl
  | succ k ih =>
    rw [← ih]
    exact (parse_fuel_succ (2 * cs.length + 2 + k)).1 cs (by omega)

/-- A rune is at least one byte wide. -/
theorem utf8DecodeRune_width_pos (bs : List Byte) : 1 ≤ (utf8DecodeRune bs).2 := by
  unfold utf8DecodeRune
  split
  · simp
  · simp only
    repeat (first | split | simp)

theorem utf8DecodeFuel_succ : ∀ (f : Nat) (bs : List Byte), bs.length ≤ f →
    utf8DecodeFuel (f + 1) bs = utf8DecodeFuel f bs := by
  intro f
  induction f with
  | zero =>
    intro bs h
    cases bs with
    | nil => simp [utf8DecodeFuel]
    | cons b r => simp at h
  | succ f ih =>
    intro bs h
    cases bs with
    | nil => simp [utf8DecodeFuel]
    | cons b r =>
      rw [utf8DecodeFuel, utf8DecodeFuel]
      rw [ih]
      have := utf8DecodeRune_width_pos (b :: r)
      simp only [List.length_drop, List.length_cons] at h ⊢
      omega

/-- The fuel given by utf8Decode is enough: more fuel decodes the same runes. -/
theorem utf8DecodeFuel_enough (bs : List Byte) (k : Nat) :
    utf8DecodeFuel (bs.length + k) bs = utf8Decode bs := by
  induction k with
  | zero => rfl
  | succ k ih =>
    rw [← ih]
    exact utf8DecodeFuel_succ (bs.length + k) bs (by omega)

/-- The fuel given by parseJSON is enough: with any larger fuel the parser
returns the same value or the same failure. -/
theorem parseJSON_fuel_enough (cs : List Char) (f : Nat) (h : 2 * cs.length + 2 ≤ f) :
    (match parseValue f cs with
      | none => none
      | some (v, rest) => if (skipWS rest).isEmpty then some v else none) = parseJSON cs := by
  obtain ⟨k, rfl⟩ := Nat.exists_eq_add_of_le h
  rw [parseValue_fuel]
  rfl

/-! ## The scan loop over a chunk sequence -/

theorem scanItems_append (um : Option AttrMap → Except GoError node)
    (schema : List KeySchemaElement) (first : Int) :
    ∀ (xs ys : List (Option AttrMap)) (resp : response) (found : Int), found < first →
      scanItems um schema first (xs ++ ys) resp found =
        match scanItems um schema first xs resp found with
        | .error e => .error e
        | .ok (r1, f1) =>
          if f1 = first then .ok (r1, f1) else scanItems um schema first ys r1 f1 := by
  intro xs
  induction xs with
  | nil =>
    intro ys resp found h
    have hne : found ≠ first := by omega
    simp [scanItems, hne]
  | cons x xs ih =>
    intro ys resp found h
    simp only [List.cons_append, scanItems]
    cases hu : um x with
    | error e => rfl
    | ok n =>
      simp only []
      cases he : encodeKey schema n with
      | error e => rfl
      | ok cursor =>
        simp only []
        by_cases hf : found + 1 = first
        · simp [hf]
        · have hlt : found + 1 < first := by omega
          simp only [hf, if_false]
          exact ih ys _ _ hlt

theorem scanItems_inv (um : Option AttrMap → Except GoError node)
    (schema : List KeySchemaElement) (first : Int) :
    ∀ (xs : List (Option AttrMap)) (resp : response) (found : Int) (r1 : response) (f1 : Int),
      found = resp.Edges.length → found < first →
      scanItems um schema first xs resp found = .ok (r1, f1) →
      f1 = r1.Edges.length ∧ f1 ≤ first := by
  intro xs
  induction xs with
  | nil =>
    intro resp found r1 f1 h1 h2 h
    simp only [scanItems, Except.ok.injEq, Prod.mk.injEq] at h
    obtain ⟨rfl, rfl⟩ := h
    exact ⟨h1, by omega⟩
  | cons x xs ih =>
    intro resp found r1 f1 h1 h2 h
    simp only [scanItems] at h
    cases hu : um x with
    | error e => simp [hu] at h
    | ok n =>
      cases he : encodeKey schema n with
      | error e => simp [hu, he] at h
      | ok cursor =>
        simp only [hu, he] at h
        by_cases hf : found + 1 = first
        · simp only [hf, if_true, Except.ok.injEq, Prod.mk.injEq] at h
          obtain ⟨rfl, rfl⟩ := h
          refine ⟨?_, le_refl _⟩
          simp only [List.length_append, List.length_singleton]
          rw [← hf, h1]; push_cast; rfl
        · simp only [hf, if_false] at h
          refine ih _ _ r1 f1 ?_ (by omega) h
          simp only [List.length_append, List.length_singleton]
          rw [h1]; push_cast; rfl

theorem scanItems_found (um : Option AttrMap → Except GoError node)
    (schema : List KeySchemaElement) (first : Int) :
    ∀ (xs : List (Option AttrMap)) (resp : response) (found : Int) (r1 : response) (f1 : Int),
      found < first → scanItems um schema first xs resp found = .ok (r1, f1) →
      f1 = if found + xs.length < first then found + xs.length else first := by
  intro xs
  induction xs with
  | nil =>
    intro resp found r1 f1 h2 h
    simp only [scanItems, Except.ok.injEq, Prod.mk.injEq] at h
    obtain ⟨_, rfl⟩ := h
    simp [h2]
  | cons x xs ih =>
    intro resp found r1 f1 h2 h
    simp only [scanItems] at h
    cases hu : um x with
    | error e => simp [hu] at h
    | ok n =>
      cases he : encodeKey schema n with
      | error e => simp [hu, he] at h
      | ok cursor =>
        simp only [hu, he] at h
        by_cases hf : found + 1 = first
        · simp only [hf, if_true, Except.ok.injEq, Prod.mk.injEq] at h
          obtain ⟨_, rfl⟩ := h
          have : ¬ (found + ((x :: xs).length : Int) < first) := by
            simp only [List.length_cons]; push_cast; omega
          rw [if_neg this]
        · simp only [hf, if_false] at h
          have := ih _ _ r1 f1 (by omega) h
          rw [this]
          simp only [List.length_cons]
          push_cast
          by_cases hlt : found + 1 + (xs.length : Int) < first
          · rw [if_pos hlt, if_pos (by omega)]; ring
          · rw [if_neg hlt, if_neg (by omega)]

theorem scanItems_discard (um : Option AttrMap → Except GoError node)
    (schema : List KeySchemaElement) (first : Int) (xs ys : List (Option AttrMap))
    (resp : response) (found : Int) (h1 : found < first) (h2 : first ≤ found + xs.length) :
    scanItems um schema first (xs ++ ys) resp found = scanItems um schema first xs resp found := by
  rw [scanItems_append um schema first xs ys resp found h1]
  cases h : scanItems um schema first xs resp found with
  | error e => rfl
  | ok r =>
    obtain ⟨r1, f1⟩ := r
    have hf := scanItems_found um schema first xs resp found r1 f1 h1 h
    rw [if_neg (by omega)] at hf
    simp [hf]

theorem scanLoop_done {σ : Type} (c : Collaborators σ) (schema : List KeySchemaElement)
    (first : Int) (fuel : Nat) (s : σ) (input : ScanInput) (resp : response) (found : Int)
    (calls : List Call) (h : ¬ (resp.Edges.length : Int) < first) :
    scanLoop c schema first fuel s input resp found calls = ⟨some (.ok resp), calls, s⟩ := by
  cases fuel <;> simp [scanLoop, h]

theorem scanLoop_chunks {σ : Type} (c : Collaborators σ) (schema : List KeySchemaElement)
    (first : Int) :
    ∀ (n : Nat) (cs : List ScanOutput) (fuel : Nat) (s : σ) (input : ScanInput)
      (resp : response) (found : Int) (calls : List Call),
      scanChunks c n s input = some cs → cs.length ≤ fuel →
      found = resp.Edges.length → found < first →
      (scanLoop c schema first fuel s input resp found calls).result =
        some ((scanItems c.unmarshalMap schema first (chunkItems cs) resp found).map Prod.fst) := by
  intro n
  induction n with
  | zero => intro cs fuel s input resp found calls h; simp [scanChunks] at h
  | succ n ih =>
    intro cs fuel s input resp found calls h hfuel hfound hlt
    have hcond : (resp.Edges.length : Int) < first := by omega
    simp only [scanChunks] at h
    rcases hscan : c.scan s input with ⟨r, s1⟩
    rw [hscan] at h
    cases r with
    | error e => simp at h
    | ok out =>
      simp only at h
      cases hk : out.LastEvaluatedKey with
      | none =>
        rw [hk] at h
        simp only [Option.some.injEq] at h
        subst h
        cases fuel with
        | zero => simp at hfuel
        | succ fuel =>
          simp only [scanLoop, hcond, if_true, hscan, chunkItems, List.flatMap_cons,
            List.flatMap_nil, List.append_nil]
          cases hi : scanItems c.unmarshalMap schema first out.Items resp found with
          | error e => rfl
          | ok r => simp [hk, Except.map]
      | some k =>
        rw [hk] at h
        simp only [Option.map_eq_some'] at h
        obtain ⟨rest, hrest, rfl⟩ := h
        cases fuel with
        | zero => simp at hfuel
        | succ fuel =>
          have hfuel2 : rest.length ≤ fuel := by simpa using hfuel
          simp only [scanLoop, hcond, if_true, hscan, chunkItems, List.flatMap_cons]
          rw [scanItems_append _ _ _ _ _ _ _ hlt]
          cases hi : scanItems c.unmarshalMap schema first out.Items resp found with
          | error e => rfl
          | ok r =>
            obtain ⟨r1, f1⟩ := r
            obtain ⟨hf1, hle⟩ := scanItems_inv _ _ _ _ _ _ _ _ hfound hlt hi
            simp only [hk]
            by_cases hcut : f1 = first
            · rw [scanLoop_done _ _ _ _ _ _ _ _ _ (by omega)]
              simp [hcut, Except.map]
            · simp only [hcut, if_false]
              exact ih rest fuel s1 _ r1 f1 _ hrest hfuel2 hf1 (by omega)

/-! ## The page of an accepted request -/

theorem scanItems_take {σ : Type} (c : Collaborators σ) (schema : List KeySchemaElement)
    (first : Int) :
    ∀ (items : List (Option AttrMap)) (k : Nat) (es : List edge) (resp : response) (found : Int),
      first = found + k → 0 < k → List.Forall₂ (IsEdgeOf c schema) (items.take k) es →
      scanItems c.unmarshalMap schema first items resp found =
        .ok (if items.length < k then
              ({ resp with Edges := resp.Edges ++ es }, found + items.length)
            else
              ({ Edges := resp.Edges ++ es
                 PageInfo := { resp.PageInfo with HasNext := true, EndCursor := lastCursor es } },
               first)) := by
  intro items
  induction items with
  | nil =>
    intro k es resp found hk hpos h
    simp only [List.take_nil, List.forall₂_nil_left_iff] at h
    subst h
    simp [scanItems, hpos]
  | cons x xs ih =>
    intro k es resp found hk hpos h
    obtain ⟨k, rfl⟩ : ∃ j, k = j + 1 := ⟨k - 1, by omega⟩
    simp only [List.take_succ_cons, List.forall₂_cons_left_iff] at h
    obtain ⟨e, es1, ⟨hu, he⟩, hrest, rfl⟩ := h
    simp only [scanItems, hu, he]
    by_cases hf : found + 1 = first
    · have hk0 : k = 0 := by omega
      subst hk0
      simp only [List.take_zero, List.forall₂_nil_left_iff] at hrest
      subst hrest
      simp [hf, lastCursor]
    · have hk1 : 0 < k := by omega
      simp only [hf, if_false]
      rw [ih k es1 _ (found + 1) (by omega) hk1 hrest]
      by_cases hlen : xs.length < k
      · have h2 : (x :: xs).length < k + 1 := by simpa using hlen
        rw [if_pos hlen, if_pos h2]
        simp only [List.append_assoc, List.singleton_append, List.length_cons]
        congr 2
        push_cast; ring
      · have h2 : ¬ (x :: xs).length < k + 1 := by simpa using hlen
        rw [if_neg hlen, if_neg h2]
        simp only [List.append_assoc, List.singleton_append]
        have hne : es1 ≠ [] := by
          intro h0
          subst h0
          have := hrest.length_eq
          simp only [List.length_take, List.length_nil] at this
          omega
        obtain ⟨e1, es2, rfl⟩ := List.exists_cons_of_ne_nil hne
        simp [lastCursor, List.getLast?_cons_cons]

/-- The serialisation step keeps the calls and the state. -/
theorem serialise_calls {σ : Type} (c : Collaborators σ) (o : Outcome σ) :
    (serialise c o).calls = o.calls ∧ (serialise c o).state = o.state := by
  unfold serialise
  split
  · split <;> exact ⟨rfl, rfl⟩
  · exact ⟨rfl, rfl⟩

/-- A response passes the serialisation step exactly when `json.Marshal`
accepts it. -/
theorem serialise_ok {σ : Type} (c : Collaborators σ) (o : Outcome σ) (resp : response) :
    (serialise c o).result = some (.ok resp) ↔
      o.result = some (.ok resp) ∧ c.marshalError resp = none := by
  unfold serialise
  split
  · rename_i r hr
    cases hm : c.marshalError r with
    | none =>
      simp only [hr, Option.some.injEq, Except.ok.injEq]
      constructor
      · intro h; subst h; exact ⟨rfl, hm⟩
      · intro h; exact h.1
    | some err =>
      simp only [hr, Option.some.injEq, Except.ok.injEq]
      constructor
      · intro h; simp at h
      · intro h
        obtain ⟨h1, h2⟩ := h
        subst h1
        rw [hm] at h2
        simp at h2
  · rename_i hne
    constructor
    · intro h; exact absurd h (hne resp)
    · intro h; exact absurd h.1 (hne resp)

/-- The result after the serialisation step, from the result of the loop. -/
theorem serialise_result {σ : Type} (c : Collaborators σ) (o : Outcome σ) :
    (serialise c o).result =
      match o.result with
      | some (.ok resp) =>
        (match c.marshalError resp with
          | some err => some (.error err)
          | none => some (.ok resp))
      | r => r := by
  rcases o with ⟨res, calls, st⟩
  unfold serialise
  cases res with
  | none => rfl
  | some r =>
    cases r with
    | error e => rfl
    | ok resp => cases hm : c.marshalError resp <;> simp [hm]

/-- An error of the loop passes the serialisation step unchanged. -/
theorem serialise_error {σ : Type} (c : Collaborators σ) (o : Outcome σ) (e : GoError)
    (h : o.result = some (.error e)) : (serialise c o).result = some (.error e) := by
  unfold serialise
  split
  · rename_i r hr
    rw [h] at hr
    simp at hr
  · exact h

/-- The serialisation step returns whenever the loop has. -/
theorem serialise_none {σ : Type} (c : Collaborators σ) (o : Outcome σ) :
    (serialise c o).result = none ↔ o.result = none := by
  unfold serialise
  split
  · rename_i r hr
    cases c.marshalError r <;> simp [hr]
  · rfl

/-- A response the loop returns and `json.Marshal` accepts is the result. -/
theorem serialise_accepts {σ : Type} (c : Collaborators σ) (o : Outcome σ) (resp : response)
    (h : o.result = some (.ok resp)) (hm : c.marshalError resp = none) :
    (serialise c o).result = some (.ok resp) :=
  (serialise_ok c o resp).mpr ⟨h, hm⟩

/-- A response the loop returns and `json.Marshal` rejects gives that error. -/
theorem serialise_rejects {σ : Type} (c : Collaborators σ) (o : Outcome σ) (resp : response)
    (e : GoError) (h : o.result = some (.ok resp)) (hm : c.marshalError resp = some e) :
    (serialise c o).result = some (.error e) := by
  unfold serialise
  simp only [h, hm]

theorem HandleRequest_accepted {σ : Type} (c : Collaborators σ) (fuel : Nat) (s : σ) (p : payload)
    (filter : dynamoFilterExpression) (k : Option AttrMap) (schema : List KeySchemaElement)
    (s1 : σ) (h : Accepted c s p filter k schema s1)
    (hcap : edgeSize * pageSize p ≤ maxAlloc) :
    HandleRequest c fuel s p =
      serialise c (scanLoop c schema (pageSize p) fuel s1 (firstInput p filter k)
        ⟨[], pageInfo.zero⟩ 0 [Call.describeTable p.TableName]) := by
  obtain ⟨hT, hF, hB, hL, hpos, hA, hD, hS⟩ := h
  have hL2 : ¬ p.Last > 0 := by omega
  have hlen : ¬ schema.length = 0 := by
    intro h0; exact hS (List.length_eq_zero.mp h0)
  have hneg : ¬ (pageSize p < 0 ∨ maxAlloc < edgeSize * pageSize p) := by omega
  unfold HandleRequest
  simp only [hT, if_false, hF, hB, hL2, ne_eq, not_true_eq_false, or_self]
  unfold startKey at hA
  by_cases ha : p.After = ""
  · simp only [ha, ne_eq, not_true_eq_false, if_false, Except.ok.injEq] at hA ⊢
    subst hA
    simp only [hD, hlen, hneg, if_false]
    rfl
  · simp only [ha, ne_eq, not_false_eq_true, if_true] at hA ⊢
    simp only [hA, hD, hlen, hneg, if_false]
    rfl

/-- An accepted request whose page size `make` rejects panics after the table
description, before any scan call. -/
theorem HandleRequest_too_large {σ : Type} (c : Collaborators σ) (fuel : Nat) (s : σ)
    (p : payload) (filter : dynamoFilterExpression) (k : Option AttrMap)
    (schema : List KeySchemaElement) (s1 : σ) (h : Accepted c s p filter k schema s1)
    (hcap : maxAlloc < edgeSize * pageSize p) :
    HandleRequest c fuel s p =
      ⟨some (.error "panic: runtime error: makeslice: cap out of range"),
        [Call.describeTable p.TableName], s1⟩ := by
  obtain ⟨hT, hF, hB, hL, hpos, hA, hD, hS⟩ := h
  have hL2 : ¬ p.Last > 0 := by omega
  have hlen : ¬ schema.length = 0 := by
    intro h0; exact hS (List.length_eq_zero.mp h0)
  have hneg : pageSize p < 0 ∨ maxAlloc < edgeSize * pageSize p := Or.inr hcap
  unfold HandleRequest
  simp only [hT, if_false, hF, hB, hL2, ne_eq, not_true_eq_false, or_self]
  unfold startKey at hA
  by_cases ha : p.After = ""
  · simp only [ha, ne_eq, not_true_eq_false, if_false, Except.ok.injEq] at hA ⊢
    subst hA
    simp only [hD, hlen, hneg, if_false, if_true]
  · simp only [ha, ne_eq, not_false_eq_true, if_true] at hA ⊢
    simp only [hA, hD, hlen, hneg, if_false, if_true]

/-! ## The shape of a returned page -/

theorem scanItems_shape (um : Option AttrMap → Except GoError node)
    (schema : List KeySchemaElement) (first : Int) :
    ∀ (xs : List (Option AttrMap)) (resp : response) (found : Int) (r1 : response) (f1 : Int),
      found = resp.Edges.length → found < first → resp.PageInfo = pageInfo.zero →
      scanItems um schema first xs resp found = .ok (r1, f1) →
      f1 = r1.Edges.length ∧ PageShape first r1 := by
  intro xs
  induction xs with
  | nil =>
    intro resp found r1 f1 h1 h2 h3 h
    simp only [scanItems, Except.ok.injEq, Prod.mk.injEq] at h
    obtain ⟨rfl, rfl⟩ := h
    exact ⟨h1, Or.inl ⟨by omega, h3⟩⟩
  | cons x xs ih =>
    intro resp found r1 f1 h1 h2 h3 h
    simp only [scanItems] at h
    cases hu : um x with
    | error e => simp [hu] at h
    | ok n =>
      cases he : encodeKey schema n with
      | error e => simp [hu, he] at h
      | ok cursor =>
        simp only [hu, he] at h
        by_cases hf : found + 1 = first
        · simp only [hf, if_true, Except.ok.injEq, Prod.mk.injEq] at h
          obtain ⟨rfl, rfl⟩ := h
          have hlen : ((resp.Edges ++ [(⟨cursor, n⟩ : edge)]).length : Int) = first := by
            simp only [List.length_append, List.length_singleton]
            rw [← hf, h1]; push_cast; rfl
          refine ⟨hlen.symm, Or.inr ⟨hlen, ?_, by simp⟩⟩
          simp [h3, pageInfo.zero, lastCursor]
        · simp only [hf, if_false] at h
          refine ih _ _ r1 f1 ?_ ?_ ?_ h
          · simp only [List.length_append, List.length_singleton]
            rw [h1]; push_cast; rfl
          · omega
          · exact h3

theorem scanLoop_shape {σ : Type} (c : Collaborators σ) (schema : List KeySchemaElement)
    (first : Int) :
    ∀ (fuel : Nat) (s : σ) (input : ScanInput) (resp : response) (found : Int)
      (calls : List Call) (r : response),
      found = resp.Edges.length → PageShape first resp →
      (scanLoop c schema first fuel s input resp found calls).result = some (.ok r) →
      PageShape first r := by
  intro fuel
  induction fuel with
  | zero =>
    intro s input resp found calls r h1 h2 h
    by_cases hc : (resp.Edges.length : Int) < first
    · simp [scanLoop, hc] at h
    · simp only [scanLoop, hc, if_false, Option.some.injEq, Except.ok.injEq] at h
      subst h; exact h2
  | succ fuel ih =>
    intro s input resp found calls r h1 h2 h
    by_cases hc : (resp.Edges.length : Int) < first
    · have h3 : resp.PageInfo = pageInfo.zero := by
        rcases h2 with h2 | h2
        · exact h2.2
        · omega
      simp only [scanLoop, hc, if_true] at h
      rcases hscan : c.scan s input with ⟨res, s1⟩
      rw [hscan] at h
      cases res with
      | error e => simp at h
      | ok out =>
        simp only at h
        cases hi : scanItems c.unmarshalMap schema first out.Items resp found with
        | error e => rw [hi] at h; simp at h
        | ok q =>
          obtain ⟨r1, f1⟩ := q
          rw [hi] at h
          obtain ⟨hf1, hshape⟩ := scanItems_shape _ _ _ _ _ _ _ _ h1 (by omega) h3 hi
          cases hk : out.LastEvaluatedKey with
          | none =>
            rw [hk] at h
            simp only [Option.some.injEq, Except.ok.injEq] at h
            subst h; exact hshape
          | some k =>
            rw [hk] at h
            exact ih _ _ _ _ _ _ hf1 hshape h
    · simp only [scanLoop, hc, if_false, Option.some.injEq, Except.ok.injEq] at h
      subst h; exact h2

theorem pageSize_ne_zero (p : payload) : pageSize p ≠ 0 := by
  unfold pageSize defaultPageSize
  split <;> omega

/-- A run that returns a response: the request was accepted, `make` accepted
its page size, the loop returned the response and `json.Marshal` accepted
it. -/
theorem HandleRequest_ok_run {σ : Type} (c : Collaborators σ) (fuel : Nat) (s : σ)
    (p : payload) (resp : response)
    (h : (HandleRequest c fuel s p).result = some (.ok resp)) :
    ∃ filter k schema s1, Accepted c s p filter k schema s1 ∧
      edgeSize * pageSize p ≤ maxAlloc ∧
      (scanLoop c schema (pageSize p) fuel s1 (firstInput p filter k) ⟨[], pageInfo.zero⟩ 0
        [Call.describeTable p.TableName]).result = some (.ok resp) ∧
      c.marshalError resp = none := by
  unfold HandleRequest at h
  by_cases hT : p.TableName = ""
  · simp [hT] at h
  · simp only [hT, if_false] at h
    cases hF : p.Filter with
    | none => simp [hF] at h
    | some filter =>
      simp only [hF] at h
      by_cases hB : p.Before ≠ "" ∨ p.Last > 0
      · simp [hB] at h
      · simp only [hB, if_false] at h
        have hB1 : p.Before = "" := by
          by_contra hne; exact hB (Or.inl hne)
        have hL : p.Last ≤ 0 := by
          by_contra hne; exact hB (Or.inr (by omega))
        have hrest : ∀ (k : Option AttrMap), startKey p = .ok k →
            (match c.describeTable s p.TableName with
              | (.error err, s1) =>
                (⟨some (.error err), [Call.describeTable p.TableName], s1⟩ : Outcome σ)
              | (.ok tableKeySchema, s1) =>
                if tableKeySchema.length = 0 then
                  ⟨some (.error "empty table key schema - unable to determine key fields"),
                    [Call.describeTable p.TableName], s1⟩
                else if pageSize p < 0 ∨ maxAlloc < edgeSize * pageSize p then
                  ⟨some (.error "panic: runtime error: makeslice: cap out of range"),
                    [Call.describeTable p.TableName], s1⟩
                else
                  serialise c (scanLoop c tableKeySchema (pageSize p) fuel s1
                    (firstInput p filter k)
                    ⟨[], ⟨false, false, "", ""⟩⟩ 0 [Call.describeTable p.TableName])).result
              = some (.ok resp) →
            ∃ filter k schema s1, Accepted c s p filter k schema s1 ∧
              edgeSize * pageSize p ≤ maxAlloc ∧
              (scanLoop c schema (pageSize p) fuel s1 (firstInput p filter k)
                ⟨[], pageInfo.zero⟩ 0 [Call.describeTable p.TableName]).result =
                  some (.ok resp) ∧
              c.marshalError resp = none := by
          intro k hA h
          rcases hD : c.describeTable s p.TableName with ⟨res, s1⟩
          rw [hD] at h
          cases res with
          | error e => simp at h
          | ok schema =>
            simp only at h
            by_cases hS : schema.length = 0
            · simp [hS] at h
            · by_cases hneg : pageSize p < 0 ∨ maxAlloc < edgeSize * pageSize p
              · simp [hS, hneg] at h
              · have := pageSize_ne_zero p
                simp only [hS, hneg, if_false] at h
                obtain ⟨h1, h2⟩ := (serialise_ok c _ resp).mp h
                exact ⟨filter, k, schema, s1,
                  ⟨hT, hF, hB1, hL, by omega, hA, hD, fun h0 => hS (by simp [h0])⟩,
                  by omega, h1, h2⟩
        by_cases ha : p.After = ""
        · simp only [ne_eq, ha, not_true_eq_false, if_false] at h
          exact hrest none (by simp [startKey, ha]) h
        · simp only [ne_eq, ha, not_false_eq_true, if_true] at h
          cases hdec : decodeKey p.After with
          | error e => rw [hdec] at h; simp at h
          | ok k =>
            rw [hdec] at h
            exact hrest k (by simp [startKey, ha, hdec]) h

theorem HandleRequest_ok_accepted {σ : Type} (c : Collaborators σ) (fuel : Nat) (s : σ)
    (p : payload) (resp : response)
    (h : (HandleRequest c fuel s p).result = some (.ok resp)) :
    ∃ filter k schema s1, Accepted c s p filter k schema s1 := by
  obtain ⟨filter, k, schema, s1, hacc, _⟩ := HandleRequest_ok_run c fuel s p resp h
  exact ⟨filter, k, schema, s1, hacc⟩

theorem HandleRequest_shape {σ : Type} (c : Collaborators σ) (fuel : Nat) (s : σ)
    (p : payload) (resp : response)
    (h : (HandleRequest c fuel s p).result = some (.ok resp)) :
    PageShape (pageSize p) resp := by
  obtain ⟨filter, k, schema, s1, hacc, _, hloop, _⟩ := HandleRequest_ok_run c fuel s p resp h
  have hpos : 0 < pageSize p := hacc.2.2.2.2.1
  exact scanLoop_shape c schema (pageSize p) fuel s1 _ _ 0 _ resp (by simp)
    (Or.inl ⟨by simpa using hpos, rfl⟩) hloop

/-- The result of the loop for an accepted request over a finite chunk
sequence whose wanted items become the edges `es`. -/
theorem scanLoop_page {σ : Type} (c : Collaborators σ) (fuel n : Nat) (s s1 : σ)
    (p : payload) (filter : dynamoFilterExpression) (k : Option AttrMap)
    (schema : List KeySchemaElement) (cs : List ScanOutput) (es : List edge)
    (hacc : Accepted c s p filter k schema s1)
    (hcs : scanChunks c n s1 (firstInput p filter k) = some cs) (hfuel : cs.length ≤ fuel)
    (hes : List.Forall₂ (IsEdgeOf c schema) ((chunkItems cs).take (pageSize p).toNat) es) :
    (scanLoop c schema (pageSize p) fuel s1 (firstInput p filter k) ⟨[], pageInfo.zero⟩ 0
        [Call.describeTable p.TableName]).result =
      some (.ok (if (chunkItems cs).length < (pageSize p).toNat then ⟨es, pageInfo.zero⟩
                 else ⟨es, ⟨true, false, "", lastCursor es⟩⟩)) := by
  have hpos : 0 < pageSize p := hacc.2.2.2.2.1
  rw [scanLoop_chunks c schema (pageSize p) n cs fuel s1 _ _ 0 _ hcs hfuel (by simp) hpos,
    scanItems_take c schema (pageSize p) (chunkItems cs) (pageSize p).toNat es _ 0
      (by omega) (by omega) hes]
  split <;> simp [Except.map, pageInfo.zero]

/-- A response returned for an accepted request over a finite chunk sequence
whose wanted items become the edges `es` is the page of these edges. -/
theorem HandleRequest_ok_page {σ : Type} (c : Collaborators σ) (fuel n : Nat) (s s1 : σ)
    (p : payload) (filter : dynamoFilterExpression) (k : Option AttrMap)
    (schema : List KeySchemaElement) (cs : List ScanOutput) (es : List edge) (resp : response)
    (hacc : Accepted c s p filter k schema s1)
    (hcs : scanChunks c n s1 (firstInput p filter k) = some cs) (hfuel : cs.length ≤ fuel)
    (hes : List.Forall₂ (IsEdgeOf c schema) ((chunkItems cs).take (pageSize p).toNat) es)
    (h : (HandleRequest c fuel s p).result = some (.ok resp)) :
    resp = (if (chunkItems cs).length < (pageSize p).toNat then ⟨es, pageInfo.zero⟩
            else ⟨es, ⟨true, false, "", lastCursor es⟩⟩) := by
  obtain ⟨_, _, _, _, _, hcap, _, _⟩ := HandleRequest_ok_run c fuel s p resp h
  rw [HandleRequest_accepted c fuel s p filter k schema s1 hacc hcap] at h
  have h1 := ((serialise_ok c _ resp).mp h).1
  rw [scanLoop_page c fuel n s s1 p filter k schema cs es hacc hcs hfuel hes] at h1
  simp only [Option.some.injEq, Except.ok.injEq] at h1
  exact h1.symm

theorem HandleRequest_page {σ : Type} (c : Collaborators σ) (fuel n : Nat) (s s1 : σ)
    (p : payload) (filter : dynamoFilterExpression) (k : Option AttrMap)
    (schema : List KeySchemaElement) (cs : List ScanOutput) (es : List edge)
    (hacc : Accepted c s p filter k schema s1)
    (hcap : edgeSize * pageSize p ≤ maxAlloc)
    (hcs : scanChunks c n s1 (firstInput p filter k) = some cs) (hfuel : cs.length ≤ fuel)
    (hes : List.Forall₂ (IsEdgeOf c schema) ((chunkItems cs).take (pageSize p).toNat) es)
    (hme : ∀ info, c.marshalError ⟨es, info⟩ = none) :
    (HandleRequest c fuel s p).result =
      some (.ok (if (chunkItems cs).length < (pageSize p).toNat then ⟨es, pageInfo.zero⟩
                 else ⟨es, ⟨true, false, "", lastCursor es⟩⟩)) := by
  rw [HandleRequest_accepted c fuel s p filter k schema s1 hacc hcap]
  apply serialise_accepts
  · exact scanLoop_page c fuel n s s1 p filter k schema cs es hacc hcs hfuel hes
  · split <;> exact hme _

/-! ## Pagination properties -/

theorem accepted_request (first : Int) (hpos : 0 < first) (chunks : List ScanOutput) :
    Accepted (scripted idSchema) chunks (request first "") requestFilter none idSchema chunks := by
  have hp : pageSize (request first "") = first := by
    have : first ≠ 0 := by omega
    simp [pageSize, request, this]
  exact ⟨by simp [request], rfl, rfl, by simp [request], by rw [hp]; exact hpos, rfl, rfl,
    by simp [idSchema]⟩

theorem forall₂_isEdgeOf {σ : Type} (c : Collaborators σ) (schema : List KeySchemaElement) :
    ∀ (items : List (Option AttrMap)) (rs : List node) (curs : List String),
      List.Forall₂ (fun item r => c.unmarshalMap item = .ok r) items rs →
      List.Forall₂ (fun r cur => encodeKey schema r = .ok cur) rs curs →
      List.Forall₂ (IsEdgeOf c schema) items (List.zipWith edge.mk curs rs) := by
  intro items rs curs h1
  induction h1 generalizing curs with
  | nil => intro h2; cases h2; exact List.Forall₂.nil
  | cons hx _ ih =>
    intro h2
    cases h2 with
    | cons hc hrest => exact List.Forall₂.cons ⟨hx, hc⟩ (ih _ hrest)

/-- C2 (as amended). Exhaustion: when the chunk sequence of an accepted request
holds `T ≤ first` records in total, all of which become edges, every response
`HandleRequest` returns has exactly `T` edges, and its `hasNextPage` is false
when `T < first` and true when `T = first`; and `HandleRequest` does return a
response when `make` accepts the page size and `json.Marshal` the edges. -/
theorem exhaustion_returns_all {σ : Type} (c : Collaborators σ) (fuel n : Nat) (s s1 : σ)
    (p : payload) (filter : dynamoFilterExpression) (k : Option AttrMap)
    (schema : List KeySchemaElement) (cs : List ScanOutput) (es : List edge)
    (hacc : Accepted c s p filter k schema s1)
    (hcs : scanChunks c n s1 (firstInput p filter k) = some cs) (hfuel : cs.length ≤ fuel)
    (hes : List.Forall₂ (IsEdgeOf c schema) (chunkItems cs) es)
    (hT : ((chunkItems cs).length : Int) ≤ pageSize p) :
    (∀ resp, (HandleRequest c fuel s p).result = some (.ok resp) →
      resp.Edges.length = (chunkItems cs).length ∧
      resp.PageInfo.HasNext = decide (((chunkItems cs).length : Int) = pageSize p)) ∧
    (edgeSize * pageSize p ≤ maxAlloc → (∀ info, c.marshalError ⟨es, info⟩ = none) →
      (HandleRequest c fuel s p).edgeCount = some (chunkItems cs).length ∧
      (HandleRequest c fuel s p).hasNext =
        some (decide (((chunkItems cs).length : Int) = pageSize p))) := by
  have htake : (chunkItems cs).take (pageSize p).toNat = chunkItems cs :=
    List.take_of_length_le (by omega)
  have hes2 : List.Forall₂ (IsEdgeOf c schema) ((chunkItems cs).take (pageSize p).toNat) es := by
    rw [htake]; exact hes
  have hlen : es.length = (chunkItems cs).length := hes.length_eq.symm
  have hshape : ∀ resp : response,
      resp = (if (chunkItems cs).length < (pageSize p).toNat then ⟨es, pageInfo.zero⟩
              else ⟨es, ⟨true, false, "", lastCursor es⟩⟩) →
      resp.Edges.length = (chunkItems cs).length ∧
      resp.PageInfo.HasNext = decide (((chunkItems cs).length : Int) = pageSize p) := by
    intro resp hresp
    by_cases hlt : (chunkItems cs).length < (pageSize p).toNat
    · have hne : ¬ ((chunkItems cs).length : Int) = pageSize p := by omega
      rw [if_pos hlt] at hresp
      simp [hresp, hlen, hne, pageInfo.zero]
    · have heq : ((chunkItems cs).length : Int) = pageSize p := by omega
      rw [if_neg hlt] at hresp
      simp [hresp, hlen, heq]
  constructor
  · intro resp h
    exact hshape resp
      (HandleRequest_ok_page c fuel n s s1 p filter k schema cs es resp hacc hcs hfuel hes2 h)
  · intro hcap hme
    have hpage := HandleRequest_page c fuel n s s1 p filter k schema cs es hacc hcap hcs hfuel
      hes2 hme
    obtain ⟨h1, h2⟩ := hshape _ rfl
    simp only [Outcome.edgeCount, Outcome.hasNext, hpage, h1, h2]
    exact ⟨trivial, trivial⟩

theorem exhaustion_returns_all_witness :
    ((chunkItems chunksAB).length : Int) ≤ pageSize (request 2 "") ∧
    edgeSize * pageSize (request 2 "") ≤ maxAlloc ∧
    (HandleRequest (scripted idSchema) 2 chunksAB (request 2 "")).edgeCount =
      some (chunkItems chunksAB).length ∧
    (HandleRequest (scripted idSchema) 2 chunksAB (request 2 "")).hasNext =
      some (decide (((chunkItems chunksAB).length : Int) = pageSize (request 2 ""))) :=
  ⟨by decide, by decide,
   (exhaustion_returns_all (scripted idSchema) 2 2 chunksAB chunksAB (request 2 "") requestFilter
    none idSchema chunksAB [⟨cursorA, idNode "a"⟩, ⟨cursorB, idNode "b"⟩]
    (accepted_request 2 (by decide) chunksAB) rfl (by decide)
    (List.Forall₂.cons ⟨rfl, rfl⟩ (List.Forall₂.cons ⟨rfl, rfl⟩ List.Forall₂.nil))
    (by decide)).2 (by decide) (fun _ => rfl)⟩

/-- C2 (counterexample). One chunk without continuation key holding one record,
`first = 1`: `T ≤ first`, one edge is returned, yet `hasNextPage` is true. -/
theorem exhaustion_at_first_has_next :
    scanChunks (scripted idSchema) 1 [⟨[idItem "a"], none⟩]
        (firstInput (request 1 "") requestFilter none) = some [⟨[idItem "a"], none⟩] ∧
    ((chunkItems [⟨[idItem "a"], none⟩]).length : Int) ≤ pageSize (request 1 "") ∧
    (HandleRequest (scripted idSchema) 1 [⟨[idItem "a"], none⟩] (request 1 "")).edgeCount
      = some 1 ∧
    (HandleRequest (scripted idSchema) 1 [⟨[idItem "a"], none⟩] (request 1 "")).hasNext
      = some true :=
  ⟨rfl, by decide, rfl, rfl⟩

theorem repeated_length (n : Nat) : (chunkItems (repeated n)).length = n := by
  simp [chunkItems, repeated]

theorem forall₂_replicate {α β : Type} (R : α → β → Prop) (a : α) (b : β) (h : R a b) :
    ∀ n : Nat, List.Forall₂ R (List.replicate n a) (List.replicate n b) := by
  intro n
  induction n with
  | zero => exact List.Forall₂.nil
  | succ n ih => exact List.Forall₂.cons h ih

/-- The first `m` items of the repeated chunk become `m` times the same edge. -/
theorem repeated_edges (n m : Nat) (h : m ≤ n) :
    List.Forall₂ (IsEdgeOf (scripted idSchema) idSchema) ((chunkItems (repeated n)).take m)
      (List.replicate m ⟨cursorA, idNode "a"⟩) := by
  have h1 : (chunkItems (repeated n)).take m = List.replicate m (idItem "a") := by
    simp [chunkItems, repeated, List.take_replicate, Nat.min_eq_left h]
  rw [h1]
  exact forall₂_replicate _ _ _ ⟨rfl, rfl⟩ m

/-- C3. Cutoff: when the chunk sequence of an accepted request holds more than
`first` records in total, the first `first` of which become edges, every
response `HandleRequest` returns has exactly `first` edges and `hasNextPage`
true; `HandleRequest` does return a response when `make` accepts the page
size and `json.Marshal` the edges; and when `make` rejects the page size the
run panics at line 125, after the table description and before any scan call. -/
theorem cutoff_returns_first {σ : Type} (c : Collaborators σ) (fuel n : Nat) (s s1 : σ)
    (p : payload) (filter : dynamoFilterExpression) (k : Option AttrMap)
    (schema : List KeySchemaElement) (cs : List ScanOutput) (es : List edge)
    (hacc : Accepted c s p filter k schema s1)
    (hcs : scanChunks c n s1 (firstInput p filter k) = some cs) (hfuel : cs.length ≤ fuel)
    (hes : List.Forall₂ (IsEdgeOf c schema) ((chunkItems cs).take (pageSize p).toNat) es)
    (hT : pageSize p < ((chunkItems cs).length : Int)) :
    (∀ resp, (HandleRequest c fuel s p).result = some (.ok resp) →
      (resp.Edges.length : Int) = pageSize p ∧ resp.PageInfo.HasNext = true) ∧
    (edgeSize * pageSize p ≤ maxAlloc → (∀ info, c.marshalError ⟨es, info⟩ = none) →
      (HandleRequest c fuel s p).edgeCount = some (pageSize p).toNat ∧
      (HandleRequest c fuel s p).hasNext = some true) ∧
    (maxAlloc < edgeSize * pageSize p →
      HandleRequest c fuel s p =
        ⟨some (.error "panic: runtime error: makeslice: cap out of range"),
          [Call.describeTable p.TableName], s1⟩) := by
  have hpos : 0 < pageSize p := hacc.2.2.2.2.1
  have hlen := hes.length_eq
  have hge : ¬ (chunkItems cs).length < (pageSize p).toNat := by omega
  simp only [List.length_take] at hlen
  have hes_len : es.length = (pageSize p).toNat := by omega
  refine ⟨?_, ?_, HandleRequest_too_large c fuel s p filter k schema s1 hacc⟩
  · intro resp h
    have hresp := HandleRequest_ok_page c fuel n s s1 p filter k schema cs es resp hacc hcs
      hfuel hes h
    rw [if_neg hge] at hresp
    rw [hresp]
    exact ⟨by simp only [hes_len]; omega, rfl⟩
  · intro hcap hme
    have hpage := HandleRequest_page c fuel n s s1 p filter k schema cs es hacc hcap hcs hfuel
      hes hme
    rw [if_neg hge] at hpage
    simp [Outcome.edgeCount, Outcome.hasNext, hpage, hes_len]

theorem cutoff_returns_first_witness :
    (pageSize (request 1 "") < ((chunkItems chunksAB).length : Int) ∧
      edgeSize * pageSize (request 1 "") ≤ maxAlloc ∧
      (HandleRequest (scripted idSchema) 2 chunksAB (request 1 "")).edgeCount =
        some (pageSize (request 1 "")).toNat ∧
      (HandleRequest (scripted idSchema) 2 chunksAB (request 1 "")).hasNext = some true) ∧
    (pageSize (request 11728124029611 "") <
        ((chunkItems (repeated 11728124029612)).length : Int) ∧
      maxAlloc < edgeSize * pageSize (request 11728124029611 "") ∧
      HandleRequest (scripted idSchema) 1 (repeated 11728124029612)
          (request 11728124029611 "") =
        ⟨some (.error "panic: runtime error: makeslice: cap out of range"),
          [Call.describeTable "t"], repeated 11728124029612⟩) :=
  ⟨⟨by decide, by decide,
    (cutoff_returns_first (scripted idSchema) 2 2 chunksAB chunksAB (request 1 "") requestFilter
      none idSchema chunksAB [⟨cursorA, idNode "a"⟩]
      (accepted_request 1 (by decide) chunksAB) rfl (by decide)
      (List.Forall₂.cons ⟨rfl, rfl⟩ List.Forall₂.nil)
      (by decide)).2.1 (by decide) (fun _ => rfl)⟩,
   ⟨by rw [repeated_length]; decide, by decide,
    (cutoff_returns_first (scripted idSchema) 1 1 (repeated 11728124029612)
      (repeated 11728124029612) (request 11728124029611 "") requestFilter none idSchema
      (repeated 11728124029612) (List.replicate 11728124029611 ⟨cursorA, idNode "a"⟩)
      (accepted_request 11728124029611 (by decide) _) rfl (by decide)
      (repeated_edges 11728124029612 11728124029611 (by decide))
      (by rw [repeated_length]; decide)).2.2 (by decide)⟩⟩

/-- C4. Count bound: whatever the collaborators do, a successful result of
`HandleRequest` has at most `first` edges (`first` after defaulting, which is
positive whenever the result is a success); and the items of a chunk that
follow the item with which the count reaches `first` are discarded: the inner
loop gives the same result with and without them. -/
theorem count_bound {σ : Type} (c : Collaborators σ) (fuel : Nat) (s : σ) (p : payload)
    (resp : response) (h : (HandleRequest c fuel s p).result = some (.ok resp)) :
    (0 < pageSize p ∧ (resp.Edges.length : Int) ≤ pageSize p) ∧
    ∀ (schema : List KeySchemaElement) (xs ys : List (Option AttrMap)) (r0 : response)
      (found : Int), found < pageSize p → pageSize p ≤ found + xs.length →
      scanItems c.unmarshalMap schema (pageSize p) (xs ++ ys) r0 found =
        scanItems c.unmarshalMap schema (pageSize p) xs r0 found := by
  obtain ⟨filter, k, schema, s1, hacc⟩ := HandleRequest_ok_accepted c fuel s p resp h
  refine ⟨⟨hacc.2.2.2.2.1, ?_⟩, ?_⟩
  · rcases HandleRequest_shape c fuel s p resp h with hs | hs
    · exact le_of_lt hs.1
    · exact le_of_eq hs.1
  · intro schema xs ys r0 found h1 h2
    exact scanItems_discard c.unmarshalMap schema (pageSize p) xs ys r0 found h1 h2

theorem count_bound_witness :
    (HandleRequest (scripted idSchema) 1 [⟨[idItem "a", idItem "b", idItem "c"], none⟩]
        (request 2 "")).result =
      some (.ok ⟨[⟨cursorA, idNode "a"⟩, ⟨cursorB, idNode "b"⟩], ⟨true, false, "", cursorB⟩⟩) ∧
    ((0 < pageSize (request 2 "") ∧
      (([⟨cursorA, idNode "a"⟩, ⟨cursorB, idNode "b"⟩] : List edge).length : Int) ≤
        pageSize (request 2 "")) ∧
     ∀ (schema : List KeySchemaElement) (xs ys : List (Option AttrMap)) (r0 : response)
      (found : Int), found < pageSize (request 2 "") →
      pageSize (request 2 "") ≤ found + xs.length →
      scanItems (scripted idSchema).unmarshalMap schema (pageSize (request 2 "")) (xs ++ ys)
          r0 found =
        scanItems (scripted idSchema).unmarshalMap schema (pageSize (request 2 "")) xs r0
          found) :=
  ⟨rfl, count_bound (scripted idSchema) 1 [⟨[idItem "a", idItem "b", idItem "c"], none⟩]
    (request 2 "") ⟨[⟨cursorA, idNode "a"⟩, ⟨cursorB, idNode "b"⟩], ⟨true, false, "", cursorB⟩⟩
    rfl⟩

/-- C5. Edges are the scanned records in scan order: when the items of the
chunk sequence of an accepted request unmarshal to the records `rs` and these
encode to the cursors `curs`, the edges of every response `HandleRequest`
returns are the pairs `(curs i, rs i)` of the first `min first T` records, in
order; `HandleRequest` does return a response when `make` accepts the page
size and `json.Marshal` these edges; and when `make` rejects the page size the
run panics at line 125, after the table description and before any scan call. -/
theorem edges_in_scan_order {σ : Type} (c : Collaborators σ) (fuel n : Nat) (s s1 : σ)
    (p : payload) (filter : dynamoFilterExpression) (k : Option AttrMap)
    (schema : List KeySchemaElement) (cs : List ScanOutput) (rs : List node)
    (curs : List String)
    (hacc : Accepted c s p filter k schema s1)
    (hcs : scanChunks c n s1 (firstInput p filter k) = some cs) (hfuel : cs.length ≤ fuel)
    (hrs : List.Forall₂ (fun item r => c.unmarshalMap item = .ok r) (chunkItems cs) rs)
    (hcurs : List.Forall₂ (fun r cur => encodeKey schema r = .ok cur) rs curs) :
    (∀ resp, (HandleRequest c fuel s p).result = some (.ok resp) →
      resp.Edges = (List.zipWith edge.mk curs rs).take (pageSize p).toNat) ∧
    (edgeSize * pageSize p ≤ maxAlloc →
      (∀ info, c.marshalError
        ⟨(List.zipWith edge.mk curs rs).take (pageSize p).toNat, info⟩ = none) →
      (HandleRequest c fuel s p).edges =
        some ((List.zipWith edge.mk curs rs).take (pageSize p).toNat)) ∧
    ((List.zipWith edge.mk curs rs).take (pageSize p).toNat).length =
      min (pageSize p).toNat (chunkItems cs).length ∧
    (maxAlloc < edgeSize * pageSize p →
      HandleRequest c fuel s p =
        ⟨some (.error "panic: runtime error: makeslice: cap out of range"),
          [Call.describeTable p.TableName], s1⟩) := by
  have hes := List.forall₂_take (pageSize p).toNat (forall₂_isEdgeOf c schema _ _ _ hrs hcurs)
  refine ⟨?_, ?_, ?_, HandleRequest_too_large c fuel s p filter k schema s1 hacc⟩
  · intro resp h
    have hresp := HandleRequest_ok_page c fuel n s s1 p filter k schema cs _ resp hacc hcs
      hfuel hes h
    rw [hresp]
    split <;> rfl
  · intro hcap hme
    have hpage := HandleRequest_page c fuel n s s1 p filter k schema cs _ hacc hcap hcs hfuel
      hes hme
    rw [Outcome.edges, hpage]
    by_cases hlt : (chunkItems cs).length < (pageSize p).toNat
    · rw [if_pos hlt]
    · rw [if_neg hlt]
  · have h1 := hrs.length_eq
    have h2 := hcurs.length_eq
    simp only [List.length_take, List.length_zipWith]
    omega

theorem edges_in_scan_order_witness :
    (edgeSize * pageSize (request 5 "") ≤ maxAlloc ∧
      (HandleRequest (scripted idSchema) 2 chunksAB (request 5 "")).edges =
        some ((List.zipWith edge.mk [cursorA, cursorB] [idNode "a", idNode "b"]).take
          (pageSize (request 5 "")).toNat)) ∧
    (maxAlloc < edgeSize * pageSize (request 4611686018427387904 "") ∧
      ((List.zipWith edge.mk [cursorA, cursorB] [idNode "a", idNode "b"]).take
          (pageSize (request 4611686018427387904 "")).toNat).length = 2 ∧
      HandleRequest (scripted idSchema) 2 chunksAB (request 4611686018427387904 "") =
        ⟨some (.error "panic: runtime error: makeslice: cap out of range"),
          [Call.describeTable "t"], chunksAB⟩) :=
  ⟨⟨by decide,
    (edges_in_scan_order (scripted idSchema) 2 2 chunksAB chunksAB (request 5 "") requestFilter
      none idSchema chunksAB [idNode "a", idNode "b"] [cursorA, cursorB]
      (accepted_request 5 (by decide) chunksAB) rfl (by decide)
      (List.Forall₂.cons rfl (List.Forall₂.cons rfl List.Forall₂.nil))
      (List.Forall₂.cons rfl (List.Forall₂.cons rfl List.Forall₂.nil))).2.1 (by decide)
      (fun _ => rfl)⟩,
   ⟨by decide, rfl,
    (edges_in_scan_order (scripted idSchema) 2 2 chunksAB chunksAB
      (request 4611686018427387904 "") requestFilter
      none idSchema chunksAB [idNode "a", idNode "b"] [cursorA, cursorB]
      (accepted_request 4611686018427387904 (by decide) chunksAB) rfl (by decide)
      (List.Forall₂.cons rfl (List.Forall₂.cons rfl List.Forall₂.nil))
      (List.Forall₂.cons rfl (List.Forall₂.cons rfl List.Forall₂.nil))).2.2.2 (by decide)⟩⟩

/-- C6. Chunk transparency: two scan collaborators whose chunk sequences for the
same accepted request hold the same items in the same order, however split
into chunks, make `HandleRequest` finish with the same result (the same edges
and page information, or the same error), `UnmarshalMap` and `json.Marshal`
being the same functions in both runs. -/
theorem chunk_transparency {σ τ : Type} (c : Collaborators σ) (d : Collaborators τ)
    (fuel fuel2 n n2 : Nat) (s s1 : σ) (t t1 : τ)
    (p : payload) (filter : dynamoFilterExpression) (k : Option AttrMap)
    (schema : List KeySchemaElement) (cs cs2 : List ScanOutput)
    (hum : c.unmarshalMap = d.unmarshalMap) (hjm : c.marshalError = d.marshalError)
    (hacc : Accepted c s p filter k schema s1) (hacc2 : Accepted d t p filter k schema t1)
    (hcs : scanChunks c n s1 (firstInput p filter k) = some cs)
    (hcs2 : scanChunks d n2 t1 (firstInput p filter k) = some cs2)
    (hfuel : cs.length ≤ fuel) (hfuel2 : cs2.length ≤ fuel2)
    (hitems : chunkItems cs = chunkItems cs2) :
    (HandleRequest c fuel s p).result = (HandleRequest d fuel2 t p).result ∧
    (HandleRequest c fuel s p).result ≠ none := by
  have hpos : 0 < pageSize p := hacc.2.2.2.2.1
  by_cases hcap : edgeSize * pageSize p ≤ maxAlloc
  · have h1 := scanLoop_chunks c schema (pageSize p) n cs fuel s1 (firstInput p filter k)
      ⟨[], pageInfo.zero⟩ 0 [Call.describeTable p.TableName] hcs hfuel (by simp) hpos
    have h2 := scanLoop_chunks d schema (pageSize p) n2 cs2 fuel2 t1 (firstInput p filter k)
      ⟨[], pageInfo.zero⟩ 0 [Call.describeTable p.TableName] hcs2 hfuel2 (by simp) hpos
    rw [hum, hitems] at h1
    rw [HandleRequest_accepted c fuel s p filter k schema s1 hacc hcap,
      HandleRequest_accepted d fuel2 t p filter k schema t1 hacc2 hcap]
    refine ⟨?_, ?_⟩
    · rw [serialise_result, serialise_result, h1, h2, hjm]
    · intro h0
      rw [serialise_none, h1] at h0
      simp at h0
  · rw [HandleRequest_too_large c fuel s p filter k schema s1 hacc (by omega),
      HandleRequest_too_large d fuel2 t p filter k schema t1 hacc2 (by omega)]
    exact ⟨rfl, by simp⟩

theorem chunk_transparency_witness :
    chunkItems chunksAB = chunkItems chunksAB2 ∧
    (HandleRequest (scripted idSchema) 2 chunksAB (request 2 "")).result =
      (HandleRequest (scripted idSchema) 3 chunksAB2 (request 2 "")).result ∧
    (HandleRequest (scripted idSchema) 2 chunksAB (request 2 "")).result ≠ none :=
  ⟨rfl,
   chunk_transparency (scripted idSchema) (scripted idSchema) 2 3 2 2 chunksAB chunksAB
    chunksAB2 chunksAB2 (request 2 "") requestFilter none idSchema chunksAB chunksAB2 rfl rfl
    (accepted_request 2 (by decide) chunksAB) (accepted_request 2 (by decide) chunksAB2)
    rfl rfl (by decide) (by decide) rfl⟩

/-- C8 (as amended). In every successful result of `HandleRequest`: when the
page holds `first` edges (the loop ended by cutoff) `endCursor` is the cursor
of the last edge; when it holds fewer (the loop ended by exhaustion)
`endCursor` is the empty string, whether or not the page has edges. -/
theorem end_cursor_by_cutoff {σ : Type} (c : Collaborators σ) (fuel : Nat) (s : σ)
    (p : payload) (resp : response)
    (h : (HandleRequest c fuel s p).result = some (.ok resp)) :
    ((resp.Edges.length : Int) = pageSize p →
      (resp.Edges.getLast?.map fun e => e.Cursor) = some resp.PageInfo.EndCursor) ∧
    ((resp.Edges.length : Int) < pageSize p → resp.PageInfo.EndCursor = "") := by
  rcases HandleRequest_shape c fuel s p resp h with hs | hs
  · refine ⟨fun heq => ?_, fun _ => ?_⟩
    · omega
    · rw [hs.2]; rfl
  · refine ⟨fun _ => ?_, fun hlt => ?_⟩
    · obtain ⟨_, hpi, hne⟩ := hs
      rw [hpi]
      obtain ⟨e, hlast⟩ : ∃ e, resp.Edges.getLast? = some e := by
        cases hl : resp.Edges.getLast? with
        | none => exact absurd (List.getLast?_eq_none_iff.mp hl) hne
        | some e => exact ⟨e, rfl⟩
      simp [lastCursor, hlast]
    · omega

theorem end_cursor_by_cutoff_witness :
    (HandleRequest (scripted idSchema) 2 chunksAB (request 1 "")).result =
      some (.ok ⟨[⟨cursorA, idNode "a"⟩], ⟨true, false, "", cursorA⟩⟩) ∧
    (((([⟨cursorA, idNode "a"⟩] : List edge).length : Int) = pageSize (request 1 "") →
      (([⟨cursorA, idNode "a"⟩] : List edge).getLast?.map fun e => e.Cursor) = some cursorA) ∧
    ((([⟨cursorA, idNode "a"⟩] : List edge).length : Int) < pageSize (request 1 "") →
      cursorA = "")) :=
  ⟨rfl, end_cursor_by_cutoff (scripted idSchema) 2 chunksAB (request 1 "")
    ⟨[⟨cursorA, idNode "a"⟩], ⟨true, false, "", cursorA⟩⟩ rfl⟩

/-- C8 (counterexample). One chunk without continuation key holding one record,
`first = 2`: the loop ends by exhaustion with one edge, whose cursor is not
empty, and `endCursor` is the empty string. -/
theorem end_cursor_empty_on_exhaustion :
    (HandleRequest (scripted idSchema) 1 [⟨[idItem "a"], none⟩] (request 2 "")).cursors
      = some [cursorA] ∧
    (HandleRequest (scripted idSchema) 1 [⟨[idItem "a"], none⟩] (request 2 "")).endCursor
      = some "" ∧
    cursorA ≠ "" :=
  ⟨rfl, rfl, by decide⟩

/-! ## Cursors that decode to no key -/

/-- C9 (failing input). The cursor `bnVsbA==` is the base64 form of the JSON text
`null`: `decodeKey` returns a nil key without an error, the first scan call is
made without a start key, and the page is the one the request without a
cursor gets. -/
theorem null_cursor_scans_from_start :
    decodeKey "bnVsbA==" = .ok none ∧
    (scanInputs (HandleRequest (scripted idSchema) 1 [⟨[idItem "a", idItem "b"], none⟩]
        (request 1 "bnVsbA==")).calls).map (fun i => i.ExclusiveStartKey) = [none] ∧
    (HandleRequest (scripted idSchema) 1 [⟨[idItem "a", idItem "b"], none⟩]
        (request 1 "bnVsbA==")).cursors = some [cursorA] ∧
    (HandleRequest (scripted idSchema) 1 [⟨[idItem "a", idItem "b"], none⟩]
        (request 1 "")).cursors = some [cursorA] :=
  ⟨rfl, rfl, rfl, rfl⟩

theorem serialized_key_is_key_map (schema : List KeySchemaElement) (n : node)
    (hne : schema ≠ []) (h : ∀ el ∈ schema, Populated (n.index el.AttributeName)) :
    SerializesKeyMap (utf8Encode (jsonOfAttrMapTop (some (restrict schema n)))) := by
  have hloop := encodeKeyLoop_populated schema n [] h
  obtain ⟨hs, hf⟩ := encodeKeyLoop_sorted_flat schema n [] (restrict schema n)
    (by simp [KeysSorted]) (by intro e he; simp at he)
    (by
      intro el hel av hav
      rw [marshal_populated _ (h el hel)] at hav
      simp only [Except.ok.injEq] at hav
      subst hav
      exact typedAttr_flat _)
    hloop
  refine ⟨restrict schema n, ⟨?_, ?_⟩, jsonUnmarshal_marshal _ hs hf⟩
  · obtain ⟨el, rest, rfl⟩ := List.exists_cons_of_ne_nil hne
    intro h0
    have hget := get_foldl_restrict n el.AttributeName (el :: rest) []
    unfold restrict at h0
    rw [h0] at hget
    simp [GoMap.get] at hget
  · have hmem : ∀ (l : List KeySchemaElement) (acc : AttrMap),
        (∀ el ∈ l, Populated (n.index el.AttributeName)) →
        (∀ e ∈ acc, ∃ av, e.2 = some av ∧ (av.S ≠ none ∨ av.N ≠ none ∨ av.B ≠ none)) →
        ∀ e ∈ l.foldl (fun key element => GoMap.insert element.AttributeName
            (some (typedAttr (n.index element.AttributeName))) key) acc,
          ∃ av, e.2 = some av ∧ (av.S ≠ none ∨ av.N ≠ none ∨ av.B ≠ none) := by
      intro l
      induction l with
      | nil => intro acc _ hacc e he; exact hacc e he
      | cons el l ih =>
        intro acc hl hacc e he
        simp only [List.foldl_cons] at he
        refine ih _ (fun x hx => hl x (List.mem_cons_of_mem _ hx)) ?_ e he
        intro e2 he2
        rcases mem_insert _ _ acc e2 he2 with h1 | h1
        · rw [h1]
          refine ⟨_, rfl, ?_⟩
          have hp := hl el (List.mem_cons_self _ _)
          cases hv : n.index el.AttributeName with
          | nil => rw [hv] at hp; exact absurd hp (by simp [Populated])
          | bool b => rw [hv] at hp; exact absurd hp (by simp [Populated])
          | str s => simp [typedAttr, AttributeValue.zero]
          | num t => simp [typedAttr, AttributeValue.zero]
          | bytes b => simp [typedAttr, AttributeValue.zero]
          | other r => rw [hv] at hp; exact absurd hp (by simp [Populated])
        · exact hacc e2 h1
    exact hmem schema [] h (by intro e he; simp at he)

/-- C10 (counterexample). The cursor `e30=` is the base64 form of the JSON text
of an empty object: its bytes do not deserialize to a key map (a key map has at
least the partition key), yet `decodeKey` succeeds on it. -/
theorem empty_object_cursor_accepted :
    base64Decode "e30=".data = some [123, 125] ∧
    ¬ SerializesKeyMap [123, 125] ∧
    decodeKey "e30=" = .ok (some []) := by
  refine ⟨rfl, ?_, rfl⟩
  rintro ⟨m, hk, hu⟩
  have h0 : jsonUnmarshal [123, 125] = .ok (some []) := rfl
  rw [h0] at hu
  simp only [Except.ok.injEq, Option.some.injEq] at hu
  exact hk.1 hu.symm

/-! ## The calls of a run -/

theorem scanInputs_append (a b : List Call) : scanInputs (a ++ b) = scanInputs a ++ scanInputs b := by
  induction a with
  | nil => rfl
  | cons x a ih =>
    cases x with
    | describeTable t => simpa [scanInputs] using ih
    | scan i => simp [scanInputs, ih]

theorem scanInputs_map_scan (l : List ScanInput) : scanInputs (l.map Call.scan) = l := by
  induction l with
  | nil => rfl
  | cons x l ih => simp [scanInputs, ih]

/-- The calls of the loop: none, or the current input followed by threaded
inputs, at most as many as the fuel allows. -/
theorem scanLoop_trace {σ : Type} (c : Collaborators σ) (schema : List KeySchemaElement)
    (first : Int) :
    ∀ (fuel : Nat) (s : σ) (input : ScanInput) (resp : response) (found : Int)
      (calls : List Call),
      (scanLoop c schema first fuel s input resp found calls).calls = calls ∨
      ∃ rest, (scanLoop c schema first fuel s input resp found calls).calls =
          calls ++ (input :: rest).map Call.scan ∧
        Threaded c s input rest ∧ rest.length < fuel := by
  intro fuel
  induction fuel with
  | zero =>
    intro s input resp found calls
    left
    unfold scanLoop
    split <;> rfl
  | succ fuel ih =>
    intro s input resp found calls
    unfold scanLoop
    by_cases hlt : (resp.Edges.length : Int) < first
    · rw [if_pos hlt]
      right
      rcases hsc : c.scan s input with ⟨res, s1⟩
      cases res with
      | error err => exact ⟨[], by simp, trivial, by simp⟩
      | ok result =>
        simp only
        cases hit : scanItems c.unmarshalMap schema first result.Items resp found with
        | error err => exact ⟨[], by simp, trivial, by simp⟩
        | ok r =>
          obtain ⟨resp1, found1⟩ := r
          simp only
          cases hk : result.LastEvaluatedKey with
          | none => exact ⟨[], by simp, trivial, by simp⟩
          | some k =>
            simp only
            rcases ih s1 { input with ExclusiveStartKey := some k } resp1 found1
              (calls ++ [Call.scan input]) with h | ⟨rest, h1, h2, h3⟩
            · exact ⟨[], by rw [h]; simp, trivial, by simp⟩
            · refine ⟨{ input with ExclusiveStartKey := some k } :: rest, ?_, ?_, ?_⟩
              · rw [h1]; simp
              · simp only [Threaded, hsc]
                exact ⟨⟨k, hk, rfl⟩, h2⟩
              · simp only [List.length_cons]; omega
    · rw [if_neg hlt]
      left; rfl

/-- Threaded inputs differ from the first one in the start key only. -/
theorem threaded_fields {σ : Type} (c : Collaborators σ) :
    ∀ (rest : List ScanInput) (s : σ) (i : ScanInput), Threaded c s i rest →
      ∀ j ∈ rest, j = { i with ExclusiveStartKey := j.ExclusiveStartKey } := by
  intro rest
  induction rest with
  | nil => intro s i _ j hj; simp at hj
  | cons x rest ih =>
    intro s i h j hj
    simp only [Threaded] at h
    rcases hsc : c.scan s i with ⟨res, s1⟩
    rw [hsc] at h
    cases res with
    | error err => exact absurd h (by simp)
    | ok out =>
      simp only at h
      obtain ⟨⟨k, hk, hx⟩, hrest⟩ := h
      rcases List.mem_cons.mp hj with hj1 | hj1
      · rw [hj1, hx]
      · have := ih s1 x hrest j hj1
        rw [this, hx]

/-- A request that passes the checks of lines 67-77 and whose start key is `k`
runs the table description and the loop. -/
theorem HandleRequest_valid {σ : Type} (c : Collaborators σ) (fuel : Nat) (s : σ) (p : payload)
    (filter : dynamoFilterExpression) (k : Option AttrMap)
    (hT : p.TableName ≠ "") (hF : p.Filter = some filter) (hB : p.Before = "")
    (hL : p.Last ≤ 0) (hk : startKey p = .ok k) :
    HandleRequest c fuel s p = describeAndScan c fuel s p filter k := by
  have hL2 : ¬ p.Last > 0 := by omega
  unfold HandleRequest describeAndScan
  simp only [hT, if_false, hF, hB, hL2, ne_eq, not_true_eq_false, or_self]
  unfold startKey at hk
  by_cases ha : p.After = ""
  · simp only [ha, ne_eq, not_true_eq_false, if_false, Except.ok.injEq] at hk ⊢
    subst hk
    rfl
  · simp only [ha, ne_eq, not_false_eq_true, if_true] at hk ⊢
    simp only [hk]
    try rfl

/-- A request that passes the checks of lines 67-77 with a cursor that does
not decode fails before any call. -/
theorem HandleRequest_bad_cursor {σ : Type} (c : Collaborators σ) (fuel : Nat) (s : σ)
    (p : payload) (filter : dynamoFilterExpression) (e : GoError)
    (hT : p.TableName ≠ "") (hF : p.Filter = some filter) (hB : p.Before = "")
    (hL : p.Last ≤ 0) (hA : p.After ≠ "") (hk : decodeKey p.After = .error e) :
    HandleRequest c fuel s p =
      ⟨some (.error (wrapError e "unable to decode \x27after\x27 cursor")), [], s⟩ := by
  have hL2 : ¬ p.Last > 0 := by omega
  unfold HandleRequest
  simp only [hT, if_false, hF, hB, hL2, ne_eq, not_true_eq_false, or_self, hA,
    not_false_eq_true, if_true, hk]

/-- The calls of the table description and the loop: the description, then
the scan calls, the first with the start key, the later ones threaded. -/
theorem describeAndScan_calls {σ : Type} (c : Collaborators σ) (fuel : Nat) (s : σ)
    (p : payload) (filter : dynamoFilterExpression) (k : Option AttrMap) :
    (describeAndScan c fuel s p filter k).calls = [Call.describeTable p.TableName] ∨
    ∃ rest, (describeAndScan c fuel s p filter k).calls =
        Call.describeTable p.TableName :: (firstInput p filter k :: rest).map Call.scan ∧
      Threaded c (c.describeTable s p.TableName).2 (firstInput p filter k) rest ∧
      rest.length < fuel := by
  unfold describeAndScan
  rcases hD : c.describeTable s p.TableName with ⟨res, s1⟩
  cases res with
  | error err => left; rfl
  | ok schema =>
    simp only
    by_cases hS : schema.length = 0
    · left; rw [if_pos hS]
    · rw [if_neg hS]
      by_cases hneg : pageSize p < 0 ∨ maxAlloc < edgeSize * pageSize p
      · left; rw [if_pos hneg]
      · rw [if_neg hneg, (serialise_calls c _).1]
        exact scanLoop_trace c schema (pageSize p) fuel s1 (firstInput p filter k) _ 0 _

/-! ## Request validation -/

/-- A wrapped cursor error is none of the validation messages. -/
theorem wrapError_not_validation (e : GoError) :
    wrapError e "unable to decode \x27after\x27 cursor" ∉ validationErrors := by
  have h : ∀ (a b : String), a = b → a.data.head? = b.data.head? := by
    intro a b hab; rw [hab]
  intro hmem
  simp only [validationErrors, List.mem_cons, List.mem_singleton, List.not_mem_nil,
    or_false] at hmem
  rcases hmem with h1 | h1 | h1
  all_goals
    have h2 := h _ _ h1
    simp [wrapError, String.data_append] at h2

/-- C11. Request validation: a request with an empty `tableName`, or without a
filter, or with a non-empty `before`, or with `last > 0` makes `HandleRequest`
return one of the three validation errors (and with it the empty string),
without any call on the client and with the service state untouched.
Conversely a request with a table name, a filter, an empty `before` and
`last <= 0` goes past these checks whatever its `first` and `after`: either
its cursor fails to decode, which is reported with a message that is none of
the validation messages, or the run goes on to the table description. -/
theorem request_validation {σ : Type} (c : Collaborators σ) (fuel : Nat) (s : σ) (p : payload) :
    ((p.TableName = "" ∨ p.Filter = none ∨ p.Before ≠ "" ∨ p.Last > 0) →
      ∃ e ∈ validationErrors, HandleRequest c fuel s p = ⟨some (.error e), [], s⟩) ∧
    ((p.TableName ≠ "" ∧ p.Filter ≠ none ∧ p.Before = "" ∧ p.Last ≤ 0) →
      (∃ e, p.After ≠ "" ∧ decodeKey p.After = .error e ∧
        wrapError e "unable to decode \x27after\x27 cursor" ∉ validationErrors ∧
        HandleRequest c fuel s p =
          ⟨some (.error (wrapError e "unable to decode \x27after\x27 cursor")), [], s⟩) ∨
      (∃ rest, (HandleRequest c fuel s p).calls = Call.describeTable p.TableName :: rest)) := by
  constructor
  · intro h
    unfold HandleRequest
    by_cases hT : p.TableName = ""
    · exact ⟨"request missing tableName", by simp [validationErrors], by rw [if_pos hT]⟩
    · rw [if_neg hT]
      cases hF : p.Filter with
      | none => exact ⟨"request missing filter expression", by simp [validationErrors], rfl⟩
      | some filter =>
        have hB : p.Before ≠ "" ∨ p.Last > 0 := by
          rcases h with h | h | h | h
          · exact absurd h hT
          · rw [hF] at h; exact absurd h (by simp)
          · exact Or.inl h
          · exact Or.inr h
        exact ⟨"backwards paging not yet supported", by simp [validationErrors],
          by simp only []; rw [if_pos hB]⟩
  · rintro ⟨hT, hF, hB, hL⟩
    cases hF2 : p.Filter with
    | none => exact absurd hF2 hF
    | some filter =>
      cases hk : startKey p with
      | error e =>
        left
        have hA : p.After ≠ "" := by
          intro ha
          simp [startKey, ha] at hk
        have hd : decodeKey p.After = .error e := by
          simpa [startKey, hA] using hk
        exact ⟨e, hA, hd, wrapError_not_validation e,
          HandleRequest_bad_cursor c fuel s p filter e hT hF2 hB hL hA hd⟩
      | ok k =>
        right
        rw [HandleRequest_valid c fuel s p filter k hT hF2 hB hL hk]
        rcases describeAndScan_calls c fuel s p filter k with h | ⟨rest, h, _⟩
        · exact ⟨[], h⟩
        · exact ⟨_, h⟩

theorem request_validation_witness :
    (((request 5 "").TableName ≠ "" ∧ (request 5 "").Filter ≠ none ∧
      (request 5 "").Before = "" ∧ (request 5 "").Last ≤ 0) ∧
    (HandleRequest (scripted idSchema) 1 [⟨[idItem "a"], none⟩] (request 5 "")).calls =
      [Call.describeTable "t", Call.scan (firstInput (request 5 "") requestFilter none)]) ∧
    (((⟨"", some requestFilter, 5, 0, "", ""⟩ : payload).TableName = "" ∨
      (⟨"", some requestFilter, 5, 0, "", ""⟩ : payload).Filter = none ∨
      (⟨"", some requestFilter, 5, 0, "", ""⟩ : payload).Before ≠ "" ∨
      (⟨"", some requestFilter, 5, 0, "", ""⟩ : payload).Last > 0) ∧
    ∃ e ∈ validationErrors,
      HandleRequest (scripted idSchema) 1 [⟨[idItem "a"], none⟩]
        ⟨"", some requestFilter, 5, 0, "", ""⟩ = ⟨some (.error e), [], [⟨[idItem "a"], none⟩]⟩) :=
  ⟨⟨⟨by decide, by simp [request], rfl, by decide⟩, rfl⟩,
    Or.inl rfl,
    (request_validation (scripted idSchema) 1 [⟨[idItem "a"], none⟩]
      ⟨"", some requestFilter, 5, 0, "", ""⟩).1 (Or.inl rfl)⟩

/-! ## Negative page size -/

/-- C12. A request with a negative `first` is not rejected by a check: when it
passes the checks of lines 67-77 and its cursor decodes, `HandleRequest` calls
the table description, and when that answers with a non-empty key schema the
allocation `make([]edge, 0, p.First)` of line 125 panics; no scan call is
made. -/
theorem negative_first_reaches_describe {σ : Type} (c : Collaborators σ) (fuel : Nat) (s : σ)
    (p : payload) (filter : dynamoFilterExpression) (k : Option AttrMap)
    (hT : p.TableName ≠ "") (hF : p.Filter = some filter) (hB : p.Before = "")
    (hL : p.Last ≤ 0) (hk : startKey p = .ok k) (hneg : p.First < 0) :
    (HandleRequest c fuel s p).calls = [Call.describeTable p.TableName] ∧
    ∀ schema s1, c.describeTable s p.TableName = (.ok schema, s1) → schema ≠ [] →
      (HandleRequest c fuel s p).result =
        some (.error "panic: runtime error: makeslice: cap out of range") := by
  have hps : pageSize p < 0 ∨ maxAlloc < edgeSize * pageSize p := by
    left
    unfold pageSize
    rw [if_neg (by omega)]
    exact hneg
  rw [HandleRequest_valid c fuel s p filter k hT hF hB hL hk]
  unfold describeAndScan
  rcases hD : c.describeTable s p.TableName with ⟨res, s1⟩
  cases res with
  | error err =>
    refine ⟨rfl, ?_⟩
    intro schema s2 h
    simp at h
  | ok schema =>
    simp only
    by_cases hS : schema.length = 0
    · rw [if_pos hS]
      refine ⟨rfl, ?_⟩
      intro schema2 s2 h hne
      simp only [Prod.mk.injEq, Except.ok.injEq] at h
      rw [← h.1] at hne
      exact absurd (List.length_eq_zero.mp hS) hne
    · rw [if_neg hS, if_pos hps]
      exact ⟨rfl, fun _ _ _ _ => rfl⟩

theorem negative_first_reaches_describe_witness :
    (request (-1) "").First < 0 ∧
    (HandleRequest (scripted idSchema) 1 [⟨[idItem "a"], none⟩] (request (-1) "")).calls =
      [Call.describeTable (request (-1) "").TableName] ∧
    (HandleRequest (scripted idSchema) 1 [⟨[idItem "a"], none⟩] (request (-1) "")).result =
      some (.error "panic: runtime error: makeslice: cap out of range") :=
  ⟨by decide,
    (negative_first_reaches_describe (scripted idSchema) 1 [⟨[idItem "a"], none⟩]
      (request (-1) "") requestFilter none (by decide) rfl rfl (by decide) rfl (by decide)).1,
    (negative_first_reaches_describe (scripted idSchema) 1 [⟨[idItem "a"], none⟩]
      (request (-1) "") requestFilter none (by decide) rfl rfl (by decide) rfl (by decide)).2
      idSchema [⟨[idItem "a"], none⟩] rfl (by simp [idSchema])⟩

/-! ## The key map of a cursor -/

theorem marshal_typed (v : GoValue) (h : Typed v) : marshal v = .ok (typedAttr v) := by
  cases v with
  | nil => rfl
  | bool b => rfl
  | str s =>
    have hne : s.data.isEmpty = false := by
      cases s with
      | mk d =>
        cases d with
        | nil => exact absurd rfl h
        | cons c cs => rfl
    simp [marshal, typedAttr, hne]
  | num t => rfl
  | bytes b =>
    have hne : b.isEmpty = false := by
      cases b with
      | nil => exact absurd rfl h
      | cons c cs => rfl
    simp [marshal, typedAttr, hne]
  | other r => exact absurd h (by simp [Typed])

theorem encodeKeyLoop_typed : ∀ (schema : List KeySchemaElement) (n : node) (acc : AttrMap),
    (∀ el ∈ schema, Typed (n.index el.AttributeName)) →
    encodeKeyLoop schema n acc =
      .ok (schema.foldl (fun key element =>
        GoMap.insert element.AttributeName
          (some (typedAttr (n.index element.AttributeName))) key) acc) := by
  intro schema
  induction schema with
  | nil => intro n acc _; rfl
  | cons el schema ih =>
    intro n acc h
    simp only [encodeKeyLoop, List.foldl_cons]
    rw [marshal_typed _ (h el (List.mem_cons_self _ _))]
    exact ih n _ (fun e he => h e (List.mem_cons_of_mem _ he))

/-- On type-preserved key fields the cursor is the wire format of the
restricted record. -/
theorem encodeKey_typed (schema : List KeySchemaElement) (n : node)
    (h : ∀ el ∈ schema, Typed (n.index el.AttributeName)) :
    encodeKey schema n = .ok (wireFormat (restrict schema n)) :=
  encodeKey_of_loop schema n (restrict schema n) (encodeKeyLoop_typed schema n [] h)

/-- The loop of `encodeKey` reads the record at the schema fields only. -/
theorem encodeKeyLoop_congr : ∀ (schema : List KeySchemaElement) (n n2 : node) (acc : AttrMap),
    (∀ el ∈ schema, n2.index el.AttributeName = n.index el.AttributeName) →
    encodeKeyLoop schema n2 acc = encodeKeyLoop schema n acc := by
  intro schema
  induction schema with
  | nil => intro n n2 acc _; rfl
  | cons el schema ih =>
    intro n n2 acc h
    simp only [encodeKeyLoop]
    rw [h el (List.mem_cons_self _ _)]
    cases marshal (n.index el.AttributeName) with
    | error e => rfl
    | ok v => exact ih n n2 _ (fun e he => h e (List.mem_cons_of_mem _ he))

theorem encodeKey_congr (schema : List KeySchemaElement) (n n2 : node)
    (h : ∀ el ∈ schema, n2.index el.AttributeName = n.index el.AttributeName) :
    encodeKey schema n2 = encodeKey schema n := by
  unfold encodeKey
  rw [encodeKeyLoop_congr schema n n2 [] h]

/-- C14 as stated fails on a key field that holds the empty string: it does
not become a string-typed attribute. The cursor of `emptyIdNode` is the wire
format of `id = NULL`, not the wire format of the record restricted to `id`
with its string type. -/
theorem empty_string_key_encodes_null :
    emptyIdNode.index "id" = GoValue.str "" ∧
    encodeKey idSchema emptyIdNode = .ok nullCursor ∧
    wireFormat (restrict idSchema emptyIdNode) = emptyStringCursor ∧
    restrict idSchema emptyIdNode = [("id", some { AttributeValue.zero with S := some "" })] ∧
    nullCursor ≠ emptyStringCursor :=
  ⟨rfl, rfl, rfl, rfl, by decide⟩

/-- C14, amended. Cursor wire format and projection: for every key schema and
every record whose key fields are each absent, a bool, a number, a non-empty
string or non-empty binary data, `encodeKey` returns the standard base64 text
of the JSON serialization of the record restricted to the schema: the map
whose keys are exactly the schema field names, each with the typed attribute
value of the field, a string as a string-typed attribute. Fields outside the
schema do not influence the cursor: records that agree on every schema field
get the same result from `encodeKey`. -/
theorem cursor_wire_format (schema : List KeySchemaElement) (n : node)
    (h : ∀ el ∈ schema, Typed (n.index el.AttributeName)) :
    encodeKey schema n = .ok (wireFormat (restrict schema n)) ∧
    (∀ name, GoMap.get name (restrict schema n) =
      if name ∈ schema.map (fun el => el.AttributeName) then
        some (some (typedAttr (n.index name)))
      else none) ∧
    (∀ el ∈ schema, ∀ s, n.index el.AttributeName = GoValue.str s →
      GoMap.get el.AttributeName (restrict schema n) =
        some (some { AttributeValue.zero with S := some s })) ∧
    (∀ n2 : node, (∀ el ∈ schema, n2.index el.AttributeName = n.index el.AttributeName) →
      encodeKey schema n2 = encodeKey schema n) := by
  have hget : ∀ name, GoMap.get name (restrict schema n) =
      if name ∈ schema.map (fun el => el.AttributeName) then
        some (some (typedAttr (n.index name)))
      else none := by
    intro name
    unfold restrict
    rw [get_foldl_restrict]
    rfl
  refine ⟨encodeKey_typed schema n h, hget, ?_, ?_⟩
  · intro el hel s hs
    rw [hget, if_pos (List.mem_map_of_mem _ hel), hs]
    rfl
  · intro n2 h2
    exact encodeKey_congr schema n n2 h2

theorem cursor_wire_format_witness :
    (∀ el ∈ idSchema, Typed (testNode.index el.AttributeName)) ∧
    encodeKey idSchema testNode = .ok testCursor ∧
    restrict idSchema testNode = [("id", some { AttributeValue.zero with S := some "11111" })] ∧
    encodeKey idSchema (idNode "11111") = encodeKey idSchema testNode :=
  ⟨by intro el hel; simp only [idSchema, List.mem_singleton] at hel; subst hel;
       exact (by decide : ("11111" : String) ≠ ""),
    (cursor_wire_format idSchema testNode
      (by intro el hel; simp only [idSchema, List.mem_singleton] at hel; subst hel;
          exact (by decide : ("11111" : String) ≠ ""))).1,
    rfl,
    (cursor_wire_format idSchema testNode
      (by intro el hel; simp only [idSchema, List.mem_singleton] at hel; subst hel;
          exact (by decide : ("11111" : String) ≠ ""))).2.2.2 (idNode "11111")
      (by intro el hel; simp only [idSchema, List.mem_singleton] at hel; subst hel; rfl)⟩

/-! ## Default page size -/

/-- Every scan input of a run carries the table name, the filter and the page
size of the request. -/
theorem HandleRequest_scan_fields {σ : Type} (c : Collaborators σ) (fuel : Nat) (s : σ)
    (p : payload) :
    ∀ i ∈ scanInputs (HandleRequest c fuel s p).calls,
      ∃ filter, p.Filter = some filter ∧ i = firstInput p filter i.ExclusiveStartKey := by
  intro i hi
  by_cases hT : p.TableName = ""
  · have : HandleRequest c fuel s p = ⟨some (.error "request missing tableName"), [], s⟩ := by
      unfold HandleRequest; rw [if_pos hT]
    rw [this] at hi
    simp [scanInputs] at hi
  · cases hF : p.Filter with
    | none =>
      have : HandleRequest c fuel s p =
          ⟨some (.error "request missing filter expression"), [], s⟩ := by
        unfold HandleRequest; rw [if_neg hT]; simp only [hF]
      rw [this] at hi
      simp [scanInputs] at hi
    | some filter =>
      refine ⟨filter, rfl, ?_⟩
      by_cases hB : p.Before ≠ "" ∨ p.Last > 0
      · have : HandleRequest c fuel s p =
            ⟨some (.error "backwards paging not yet supported"), [], s⟩ := by
          unfold HandleRequest; rw [if_neg hT]; simp only [hF]; rw [if_pos hB]
        rw [this] at hi
        simp [scanInputs] at hi
      · have hB1 : p.Before = "" := by
          by_contra hne; exact hB (Or.inl hne)
        have hL : p.Last ≤ 0 := by
          by_contra hne; exact hB (Or.inr (by omega))
        cases hk : startKey p with
        | error e =>
          have hA : p.After ≠ "" := by
            intro ha
            simp [startKey, ha] at hk
          have hd : decodeKey p.After = .error e := by
            simpa [startKey, hA] using hk
          rw [HandleRequest_bad_cursor c fuel s p filter e hT hF hB1 hL hA hd] at hi
          simp [scanInputs] at hi
        | ok k =>
          rw [HandleRequest_valid c fuel s p filter k hT hF hB1 hL hk] at hi
          rcases describeAndScan_calls c fuel s p filter k with h | ⟨rest, h, hthr, _⟩
          · rw [h] at hi
            simp [scanInputs] at hi
          · rw [h] at hi
            simp only [scanInputs, scanInputs_map_scan, List.map_cons] at hi
            rcases List.mem_cons.mp hi with h1 | h1
            · rw [h1]; rfl
            · have := threaded_fields c rest _ _ hthr i h1
              rw [this]; rfl

/-- C15. Default page size: a request with `first == 0` is handled exactly
as the same request with `first == 100`: the two runs are equal (result,
calls with their inputs, final state) for every collaborator, and every scan
call of the run has the limit 100. -/
theorem default_page_size {σ : Type} (c : Collaborators σ) (fuel : Nat) (s : σ) (p : payload)
    (h : p.First = 0) :
    HandleRequest c fuel s p = HandleRequest c fuel s { p with First := 100 } ∧
    ∀ i ∈ scanInputs (HandleRequest c fuel s p).calls, i.Limit = 100 := by
  have hps : pageSize p = 100 := by simp [pageSize, h, defaultPageSize]
  constructor
  · unfold HandleRequest
    have hps2 : pageSize { p with First := 100 } = 100 := by simp [pageSize]
    have hin : ∀ filter, scanInputOf { p with First := 100 } filter = scanInputOf p filter := by
      intro filter
      simp only [scanInputOf, hps, hps2]
    simp only [hps, hps2, hin]
  · intro i hi
    obtain ⟨filter, _, hi2⟩ := HandleRequest_scan_fields c fuel s p i hi
    rw [hi2]
    exact hps

theorem default_page_size_witness :
    (request 0 "").First = 0 ∧
    (HandleRequest threeRows 1 () (request 0 "") =
      HandleRequest threeRows 1 () { request 0 "" with First := 100 } ∧
     ∀ i ∈ scanInputs (HandleRequest threeRows 1 () (request 0 "")).calls, i.Limit = 100) ∧
    (HandleRequest threeRows 1 () (request 0 "")).edgeCount = some 3 ∧
    (HandleRequest threeRows 1 () (request 0 "")).hasNext = some false ∧
    ((scanInputs (HandleRequest threeRows 1 () (request 0 "")).calls).map fun i => i.Limit) =
      [100] :=
  ⟨rfl, default_page_size threeRows 1 () (request 0 "") rfl, rfl, rfl, rfl⟩

/-! ## Runs up to a failing step -/

theorem forall₂_append_split {α β : Type} (R : α → β → Prop) :
    ∀ (a b : List α) (es : List β), List.Forall₂ R (a ++ b) es →
      ∃ es1 es2, es = es1 ++ es2 ∧ List.Forall₂ R a es1 ∧ List.Forall₂ R b es2 := by
  intro a
  induction a with
  | nil => intro b es h; exact ⟨[], es, rfl, List.Forall₂.nil, h⟩
  | cons x a ih =>
    intro b es h
    rw [List.cons_append, List.forall₂_cons_left_iff] at h
    obtain ⟨y, ys, hxy, hrest, rfl⟩ := h
    obtain ⟨es1, es2, rfl, h1, h2⟩ := ih b ys hrest
    exact ⟨y :: es1, es2, rfl, List.Forall₂.cons hxy h1, h2⟩

/-- The inner loop over items that all become edges, below the page size:
the edges are appended and counted. -/
theorem scanItems_good {σ : Type} (c : Collaborators σ) (schema : List KeySchemaElement)
    (first : Int) :
    ∀ (items : List (Option AttrMap)) (es : List edge) (resp : response) (found : Int),
      List.Forall₂ (IsEdgeOf c schema) items es → found + es.length < first →
      scanItems c.unmarshalMap schema first items resp found =
        .ok ({ resp with Edges := resp.Edges ++ es }, found + es.length) := by
  intro items
  induction items with
  | nil =>
    intro es resp found h _
    rw [List.forall₂_nil_left_iff] at h
    subst h
    simp [scanItems]
  | cons item items ih =>
    intro es resp found h hlt
    rw [List.forall₂_cons_left_iff] at h
    obtain ⟨e, es1, ⟨hum, henc⟩, hrest, rfl⟩ := h
    simp only [List.length_cons, Nat.cast_add, Nat.cast_one] at hlt
    simp only [scanItems, hum, henc]
    rw [if_neg (by omega)]
    rw [ih es1 _ (found + 1) hrest (by omega)]
    simp only [List.append_assoc, List.singleton_append, List.length_cons, Nat.cast_add,
      Nat.cast_one]
    congr 2
    omega

/-- The inner loop aborts at the first item that does not become an edge. -/
theorem scanItems_bad {σ : Type} (c : Collaborators σ) (schema : List KeySchemaElement)
    (first : Int) (xs ys : List (Option AttrMap)) (item : Option AttrMap) (es : List edge)
    (resp : response) (found : Int)
    (hxs : List.Forall₂ (IsEdgeOf c schema) xs es) (hlt : found + es.length < first) :
    (∀ err, c.unmarshalMap item = .error err →
      scanItems c.unmarshalMap schema first (xs ++ item :: ys) resp found = .error err) ∧
    (∀ n err, c.unmarshalMap item = .ok n → encodeKey schema n = .error err →
      scanItems c.unmarshalMap schema first (xs ++ item :: ys) resp found =
        .error (wrapError err "failed to encode key")) := by
  have hfound : found < first := by omega
  have happ := scanItems_append c.unmarshalMap schema first xs (item :: ys) resp found hfound
  rw [scanItems_good c schema first xs es resp found hxs hlt] at happ
  simp only at happ
  rw [if_neg (by omega)] at happ
  constructor
  · intro err hum
    rw [happ]
    simp only [scanItems, hum]
  · intro n err hum henc
    rw [happ]
    simp only [scanItems, hum, henc]

/-- The loop after `j` scan calls that succeeded with a continuation key and
whose items all became edges, still below the page size: it goes on from the
state, the input and the response reached. -/
theorem scanLoop_prefix {σ : Type} (c : Collaborators σ) (schema : List KeySchemaElement)
    (first : Int) :
    ∀ (j : Nat) (cs : List ScanOutput) (s s2 : σ) (input input2 : ScanInput) (resp : response)
      (found : Int) (calls : List Call) (es : List edge) (fuel : Nat),
      scanPrefix c j s input = some (cs, s2, input2) →
      List.Forall₂ (IsEdgeOf c schema) (chunkItems cs) es →
      found = resp.Edges.length → found + es.length < first →
      ∃ calls2, scanLoop c schema first (j + fuel) s input resp found calls =
        scanLoop c schema first fuel s2 input2 { resp with Edges := resp.Edges ++ es }
          (found + es.length) calls2 := by
  intro j
  induction j with
  | zero =>
    intro cs s s2 input input2 resp found calls es fuel hpre hes hf hlt
    simp only [scanPrefix, Option.some.injEq, Prod.mk.injEq] at hpre
    obtain ⟨rfl, rfl, rfl⟩ := hpre
    simp only [chunkItems, List.flatMap_nil, List.forall₂_nil_left_iff] at hes
    subst hes
    refine ⟨calls, ?_⟩
    simp
  | succ j ih =>
    intro cs s s2 input input2 resp found calls es fuel hpre hes hf hlt
    simp only [scanPrefix] at hpre
    rcases hsc : c.scan s input with ⟨res, s1⟩
    rw [hsc] at hpre
    cases res with
    | error err => simp at hpre
    | ok out =>
      simp only at hpre
      cases hk : out.LastEvaluatedKey with
      | none => rw [hk] at hpre; simp at hpre
      | some k =>
        rw [hk] at hpre
        simp only at hpre
        cases hp : scanPrefix c j s1 { input with ExclusiveStartKey := some k } with
        | none => rw [hp] at hpre; simp at hpre
        | some r =>
          obtain ⟨cs1, s3, input3⟩ := r
          rw [hp] at hpre
          simp only [Option.map_some', Option.some.injEq, Prod.mk.injEq] at hpre
          obtain ⟨rfl, rfl, rfl⟩ := hpre
          have hci : chunkItems (out :: cs1) = out.Items ++ chunkItems cs1 := by
            simp [chunkItems]
          rw [hci] at hes
          obtain ⟨es1, es2, rfl, h1, h2⟩ := forall₂_append_split _ _ _ _ hes
          simp only [List.length_append, Nat.cast_add] at hlt
          have hstep : scanLoop c schema first (j + 1 + fuel) s input resp found calls =
              scanLoop c schema first (j + fuel) s1 { input with ExclusiveStartKey := some k }
                { resp with Edges := resp.Edges ++ es1 } (found + es1.length)
                (calls ++ [Call.scan input]) := by
            rw [show j + 1 + fuel = (j + fuel) + 1 from by omega]
            rw [scanLoop]
            rw [if_pos (by omega)]
            simp only [hsc]
            rw [scanItems_good c schema first out.Items es1 resp found h1 (by omega)]
            simp only [hk]
          obtain ⟨calls2, hrec⟩ := ih cs1 s1 s3 { input with ExclusiveStartKey := some k } input3
            { resp with Edges := resp.Edges ++ es1 } (found + es1.length)
            (calls ++ [Call.scan input]) es2 fuel hp h2
            (by simp only [List.length_append, Nat.cast_add]; omega) (by omega)
          refine ⟨calls2, ?_⟩
          rw [hstep, hrec]
          simp only [List.append_assoc, List.length_append, Nat.cast_add]
          congr 1
          omega

/-! ## No partial page -/

/-- Every edge the inner loop adds is the edge of a scanned item. -/
theorem scanItems_edges {σ : Type} (c : Collaborators σ) (schema : List KeySchemaElement)
    (first : Int) :
    ∀ (items : List (Option AttrMap)) (resp : response) (found : Int) (r1 : response) (f1 : Int),
      (∀ e ∈ resp.Edges, ∃ item, IsEdgeOf c schema item e) →
      scanItems c.unmarshalMap schema first items resp found = .ok (r1, f1) →
      ∀ e ∈ r1.Edges, ∃ item, IsEdgeOf c schema item e := by
  intro items
  induction items with
  | nil =>
    intro resp found r1 f1 hinv h
    simp only [scanItems, Except.ok.injEq, Prod.mk.injEq] at h
    rw [← h.1]
    exact hinv
  | cons item items ih =>
    intro resp found r1 f1 hinv h
    simp only [scanItems] at h
    cases hum : c.unmarshalMap item with
    | error err => rw [hum] at h; simp at h
    | ok n =>
      rw [hum] at h
      simp only at h
      cases henc : encodeKey schema n with
      | error err => rw [henc] at h; simp at h
      | ok cursor =>
        rw [henc] at h
        simp only at h
        have hinv2 : ∀ e ∈ resp.Edges ++ [(⟨cursor, n⟩ : edge)],
            ∃ item, IsEdgeOf c schema item e := by
          intro e he
          rcases List.mem_append.mp he with h1 | h1
          · exact hinv e h1
          · simp only [List.mem_singleton] at h1
            subst h1
            exact ⟨item, hum, henc⟩
        split at h
        · simp only [Except.ok.injEq, Prod.mk.injEq] at h
          rw [← h.1]
          exact hinv2
        · exact ih _ _ r1 f1 hinv2 h

/-- Every edge of a page the loop returns is the edge of a scanned item. -/
theorem scanLoop_edges {σ : Type} (c : Collaborators σ) (schema : List KeySchemaElement)
    (first : Int) :
    ∀ (fuel : Nat) (s : σ) (input : ScanInput) (resp : response) (found : Int)
      (calls : List Call) (r : response),
      (∀ e ∈ resp.Edges, ∃ item, IsEdgeOf c schema item e) →
      (scanLoop c schema first fuel s input resp found calls).result = some (.ok r) →
      ∀ e ∈ r.Edges, ∃ item, IsEdgeOf c schema item e := by
  intro fuel
  induction fuel with
  | zero =>
    intro s input resp found calls r hinv h
    unfold scanLoop at h
    split at h
    · simp at h
    · simp only [Option.some.injEq, Except.ok.injEq] at h
      rw [← h]; exact hinv
  | succ fuel ih =>
    intro s input resp found calls r hinv h
    unfold scanLoop at h
    split at h
    · rcases hsc : c.scan s input with ⟨res, s1⟩
      rw [hsc] at h
      cases res with
      | error err => simp at h
      | ok result =>
        simp only at h
        cases hit : scanItems c.unmarshalMap schema first result.Items resp found with
        | error err => rw [hit] at h; simp at h
        | ok r1 =>
          obtain ⟨resp1, found1⟩ := r1
          rw [hit] at h
          simp only at h
          have hinv1 := scanItems_edges c schema first _ _ _ _ _ hinv hit
          cases hk : result.LastEvaluatedKey with
          | none =>
            rw [hk] at h
            simp only [Option.some.injEq, Except.ok.injEq] at h
            rw [← h]; exact hinv1
          | some k =>
            rw [hk] at h
            exact ih _ _ _ _ _ r hinv1 h
    · simp only [Option.some.injEq, Except.ok.injEq] at h
      rw [← h]; exact hinv

/-- C16. No partial page on error. Take an accepted request and a run in which
the first `j` scan calls succeeded with a continuation key and all their items
became edges `es`, fewer than the page size. If the next scan call fails, or an
item of its result cannot be unmarshalled, or the cursor of its record cannot
be encoded (the items before it in that result having become edges `es2`, the
page still not full), then `HandleRequest` returns that error and with it no
response, however many edges `es` and `es2` hold; for a page size `make`
rejects it has panicked before the first scan call, again without a response.
Conversely every edge of a response that is returned is the edge of a scanned
item: its record was unmarshalled and its cursor encoded without error, and
`json.Marshal` of the response did not fail. -/
theorem no_partial_page {σ : Type} (c : Collaborators σ) (fuel j : Nat) (s s1 s2 : σ)
    (p : payload) (filter : dynamoFilterExpression) (k : Option AttrMap)
    (schema : List KeySchemaElement) (cs : List ScanOutput) (input2 : ScanInput)
    (es : List edge)
    (hacc : Accepted c s p filter k schema s1)
    (hpre : scanPrefix c j s1 (firstInput p filter k) = some (cs, s2, input2))
    (hes : List.Forall₂ (IsEdgeOf c schema) (chunkItems cs) es)
    (hlt : (es.length : Int) < pageSize p) :
    (∀ err s3, c.scan s2 input2 = (.error err, s3) →
      (HandleRequest c (j + (fuel + 1)) s p).result =
        some (.error (if edgeSize * pageSize p ≤ maxAlloc then err
          else "panic: runtime error: makeslice: cap out of range"))) ∧
    (∀ out s3 xs item ys es2, c.scan s2 input2 = (.ok out, s3) →
      out.Items = xs ++ item :: ys → List.Forall₂ (IsEdgeOf c schema) xs es2 →
      ((es.length : Int) + es2.length < pageSize p) →
      (∀ err, c.unmarshalMap item = .error err →
        (HandleRequest c (j + (fuel + 1)) s p).result =
          some (.error (if edgeSize * pageSize p ≤ maxAlloc then err
            else "panic: runtime error: makeslice: cap out of range"))) ∧
      (∀ n err, c.unmarshalMap item = .ok n → encodeKey schema n = .error err →
        (HandleRequest c (j + (fuel + 1)) s p).result =
          some (.error (if edgeSize * pageSize p ≤ maxAlloc then
            wrapError err "failed to encode key"
            else "panic: runtime error: makeslice: cap out of range")))) ∧
    (∀ (fuel2 : Nat) (resp : response),
      (HandleRequest c fuel2 s p).result = some (.ok resp) →
      (∀ e ∈ resp.Edges, ∃ item, IsEdgeOf c schema item e) ∧
      c.marshalError resp = none) := by
  by_cases hcap : edgeSize * pageSize p ≤ maxAlloc
  · have hrun : ∀ f, HandleRequest c f s p =
        serialise c (scanLoop c schema (pageSize p) f s1 (firstInput p filter k)
          ⟨[], pageInfo.zero⟩ 0 [Call.describeTable p.TableName]) :=
      fun f => HandleRequest_accepted c f s p filter k schema s1 hacc hcap
    obtain ⟨calls2, hgo⟩ := scanLoop_prefix c schema (pageSize p) j cs s1 s2
      (firstInput p filter k) input2 ⟨[], pageInfo.zero⟩ 0 [Call.describeTable p.TableName] es
      (fuel + 1) hpre hes (by simp) (by omega)
    have hlen : (((([] : List edge) ++ es).length : Nat) : Int) < pageSize p := by
      simpa using hlt
    simp only [hcap, if_true]
    refine ⟨?_, ?_, ?_⟩
    · intro err s3 hsc
      rw [hrun]
      apply serialise_error
      rw [hgo, scanLoop, if_pos hlen]
      simp only [hsc]
    · intro out s3 xs item ys es2 hsc hitems hxs hlt2
      have hbad := scanItems_bad c schema (pageSize p) xs ys item es2
        { Edges := [] ++ es, PageInfo := pageInfo.zero } (0 + es.length) hxs (by omega)
      constructor
      · intro err hum
        rw [hrun]
        apply serialise_error
        rw [hgo, scanLoop, if_pos hlen]
        simp only [hsc, hitems]
        rw [hbad.1 err hum]
      · intro n err hum henc
        rw [hrun]
        apply serialise_error
        rw [hgo, scanLoop, if_pos hlen]
        simp only [hsc, hitems]
        rw [hbad.2 n err hum henc]
    · intro fuel2 resp h
      rw [hrun] at h
      exact ⟨scanLoop_edges c schema (pageSize p) fuel2 s1 _ _ 0 _ resp
        (by intro e he; simp at he) ((serialise_ok c _ resp).mp h).1,
        ((serialise_ok c _ resp).mp h).2⟩
  · have hrun : ∀ f, HandleRequest c f s p =
        ⟨some (.error "panic: runtime error: makeslice: cap out of range"),
          [Call.describeTable p.TableName], s1⟩ :=
      fun f => HandleRequest_too_large c f s p filter k schema s1 hacc (by omega)
    simp only [hcap, if_false]
    refine ⟨?_, ?_, ?_⟩
    · intro err s3 _
      rw [hrun]
    · intro out s3 xs item ys es2 _ _ _ _
      exact ⟨fun err _ => by rw [hrun], fun n err _ _ => by rw [hrun]⟩
    · intro fuel2 resp h
      rw [hrun] at h
      simp at h

/-! ## A failing scan call after a first chunk -/

theorem no_partial_page_witness :
    scanPrefix (scripted idSchema) 1 [⟨[idItem "a"], some (idKey "a")⟩]
        (firstInput (request 5 "") requestFilter none) =
      some ([⟨[idItem "a"], some (idKey "a")⟩], [],
        { firstInput (request 5 "") requestFilter none with
          ExclusiveStartKey := some (idKey "a") }) ∧
    (HandleRequest (scripted idSchema) (1 + (0 + 1)) [⟨[idItem "a"], some (idKey "a")⟩]
        (request 5 "")).result =
      some (.error (if edgeSize * pageSize (request 5 "") ≤ maxAlloc then "no more results"
        else "panic: runtime error: makeslice: cap out of range")) ∧
    (HandleRequest (scripted idSchema) 2 [⟨[idItem "a"], some (idKey "a")⟩]
        (request 5 "")).result = some (.error "no more results") ∧
    (HandleRequest (scripted idSchema) 2
        [⟨[idItem "a"], some (idKey "a")⟩, ⟨[some [("id", some AttributeValue.zero)]], none⟩]
        (request 5 "")).result = some (.error "unsupported attribute in example") :=
  ⟨rfl,
    (no_partial_page (scripted idSchema) 0 1 [⟨[idItem "a"], some (idKey "a")⟩]
      [⟨[idItem "a"], some (idKey "a")⟩] [] (request 5 "") requestFilter none idSchema
      [⟨[idItem "a"], some (idKey "a")⟩]
      { firstInput (request 5 "") requestFilter none with
        ExclusiveStartKey := some (idKey "a") }
      [⟨cursorA, idNode "a"⟩]
      (accepted_request 5 (by decide) _) rfl
      (List.Forall₂.cons ⟨rfl, rfl⟩ List.Forall₂.nil) (by decide)).1 "no more results" [] rfl,
    rfl, rfl⟩

/-! ## Page information left at zero and resume keys -/

/-- C17. The fields `startCursor` and `hasPreviousPage` stay at their zero
values: in every response `HandleRequest` returns, whatever the request (with
or without an `after` cursor) and whatever the collaborators do,
`pageInfo.startCursor` is the empty string and `pageInfo.hasPreviousPage` is
false. -/
theorem start_cursor_and_has_previous_stay_zero {σ : Type} (c : Collaborators σ) (fuel : Nat)
    (s : σ) (p : payload) (resp : response)
    (h : (HandleRequest c fuel s p).result = some (.ok resp)) :
    resp.PageInfo.StartCursor = "" ∧ resp.PageInfo.HasPrev = false := by
  rcases HandleRequest_shape c fuel s p resp h with hs | hs
  · rw [hs.2]
    exact ⟨rfl, rfl⟩
  · rw [hs.2.1]
    exact ⟨rfl, rfl⟩

theorem start_cursor_and_has_previous_stay_zero_witness :
    (HandleRequest threeRows 1 () { request 1 "" with After := cursorA }).result =
      some (.ok ⟨[⟨cursorB, idNode "b"⟩], ⟨true, false, "", cursorB⟩⟩) ∧
    ((⟨[⟨cursorB, idNode "b"⟩], ⟨true, false, "", cursorB⟩⟩ : response).PageInfo.StartCursor = "" ∧
     (⟨[⟨cursorB, idNode "b"⟩], ⟨true, false, "", cursorB⟩⟩ : response).PageInfo.HasPrev = false) :=
  ⟨rfl, start_cursor_and_has_previous_stay_zero threeRows 1 ()
    { request 1 "" with After := cursorA } _ rfl⟩

/-- The scan calls of a run: none, or the first one with the start key of the
request followed by threaded ones. -/
theorem HandleRequest_trace {σ : Type} (c : Collaborators σ) (fuel : Nat) (s : σ)
    (p : payload) :
    scanInputs (HandleRequest c fuel s p).calls = [] ∨
    ∃ filter k rest, p.Filter = some filter ∧ startKey p = .ok k ∧
      scanInputs (HandleRequest c fuel s p).calls = firstInput p filter k :: rest ∧
      Threaded c (c.describeTable s p.TableName).2 (firstInput p filter k) rest ∧
      rest.length < fuel := by
  by_cases hT : p.TableName = ""
  · left
    have : HandleRequest c fuel s p = ⟨some (.error "request missing tableName"), [], s⟩ := by
      unfold HandleRequest; rw [if_pos hT]
    rw [this]; rfl
  · cases hF : p.Filter with
    | none =>
      left
      have : HandleRequest c fuel s p =
          ⟨some (.error "request missing filter expression"), [], s⟩ := by
        unfold HandleRequest; rw [if_neg hT]; simp only [hF]
      rw [this]; rfl
    | some filter =>
      by_cases hB : p.Before ≠ "" ∨ p.Last > 0
      · left
        have : HandleRequest c fuel s p =
            ⟨some (.error "backwards paging not yet supported"), [], s⟩ := by
          unfold HandleRequest; rw [if_neg hT]; simp only [hF]; rw [if_pos hB]
        rw [this]; rfl
      · have hB1 : p.Before = "" := by
          by_contra hne; exact hB (Or.inl hne)
        have hL : p.Last ≤ 0 := by
          by_contra hne; exact hB (Or.inr (by omega))
        cases hk : startKey p with
        | error e =>
          left
          have hA : p.After ≠ "" := by
            intro ha
            simp [startKey, ha] at hk
          have hd : decodeKey p.After = .error e := by
            simpa [startKey, hA] using hk
          rw [HandleRequest_bad_cursor c fuel s p filter e hT hF hB1 hL hA hd]; rfl
        | ok k =>
          rw [HandleRequest_valid c fuel s p filter k hT hF hB1 hL hk]
          rcases describeAndScan_calls c fuel s p filter k with h | ⟨rest, h, hthr, hlen⟩
          · left; rw [h]; rfl
          · right
            refine ⟨filter, k, rest, rfl, rfl, ?_, hthr, hlen⟩
            rw [h]
            simp only [scanInputs, scanInputs_map_scan, List.map_cons]

/-- C18. Resume-key threading: in every run of `HandleRequest` the first scan
call gets as start key the decoded `after` cursor when `after` is non-empty
and none otherwise; every later scan call follows a call that succeeded and
reported a continuation key, and gets exactly that key, all else unchanged;
and every scan call carries the table name and the filter of the request and
the page size as limit. -/
theorem resume_key_threading {σ : Type} (c : Collaborators σ) (fuel : Nat) (s : σ)
    (p : payload) :
    (∀ i rest, scanInputs (HandleRequest c fuel s p).calls = i :: rest →
      (p.After ≠ "" → decodeKey p.After = .ok i.ExclusiveStartKey) ∧
      (p.After = "" → i.ExclusiveStartKey = none) ∧
      Threaded c (c.describeTable s p.TableName).2 i rest) ∧
    (∀ i ∈ scanInputs (HandleRequest c fuel s p).calls,
      ∃ filter, p.Filter = some filter ∧ i.TableName = p.TableName ∧
        i.FilterExpression = filter.Expression ∧
        i.ExpressionAttributeNames = filter.Names ∧
        i.ExpressionAttributeValues = filter.Values ∧ i.Limit = pageSize p) := by
  constructor
  · intro i rest hcalls
    rcases HandleRequest_trace c fuel s p with h | ⟨filter, k, rest2, hF, hk, h, hthr, _⟩
    · rw [h] at hcalls; simp at hcalls
    · rw [h] at hcalls
      simp only [List.cons.injEq] at hcalls
      obtain ⟨rfl, rfl⟩ := hcalls
      refine ⟨?_, ?_, hthr⟩
      · intro hA
        simpa [startKey, hA] using hk
      · intro hA
        have : k = none := by
          simp only [startKey, hA, ne_eq, not_true_eq_false, if_false, Except.ok.injEq] at hk
          exact hk.symm
        rw [this]; rfl
  · intro i hi
    obtain ⟨filter, hF, hi2⟩ := HandleRequest_scan_fields c fuel s p i hi
    refine ⟨filter, hF, ?_⟩
    rw [hi2]
    exact ⟨rfl, rfl, rfl, rfl, rfl⟩

theorem resume_key_threading_witness :
    scanInputs (HandleRequest (scripted idSchema) 2 chunksAB (request 2 "")).calls =
      [firstInput (request 2 "") requestFilter none,
       firstInput (request 2 "") requestFilter (some (idKey "a"))] ∧
    (((request 2 "").After ≠ "" →
        decodeKey (request 2 "").After =
          .ok (firstInput (request 2 "") requestFilter none).ExclusiveStartKey) ∧
      ((request 2 "").After = "" →
        (firstInput (request 2 "") requestFilter none).ExclusiveStartKey = none) ∧
      Threaded (scripted idSchema)
        ((scripted idSchema).describeTable chunksAB (request 2 "").TableName).2
        (firstInput (request 2 "") requestFilter none)
        [firstInput (request 2 "") requestFilter (some (idKey "a"))]) ∧
    ((scanInputs (HandleRequest (scripted idSchema) 2 chunksAB (request 2 "")).calls).map
      fun i => i.Limit) = [2, 2] :=
  ⟨rfl,
    (resume_key_threading (scripted idSchema) 2 chunksAB (request 2 "")).1
      (firstInput (request 2 "") requestFilter none)
      [firstInput (request 2 "") requestFilter (some (idKey "a"))] rfl,
    rfl⟩

/-! ## Counting scan calls -/

theorem chunkItems_cons (out : ScanOutput) (rest : List ScanOutput) :
    chunkItems (out :: rest) = out.Items ++ chunkItems rest := by
  simp [chunkItems]

/-- The number of scan calls of the loop over a finite chunk sequence whose
consumed items all become edges, `k` more edges being wanted. -/
theorem scanLoop_count {σ : Type} (c : Collaborators σ) (schema : List KeySchemaElement)
    (first : Int) :
    ∀ (n : Nat) (cs : List ScanOutput) (fuel : Nat) (s : σ) (input : ScanInput)
      (resp : response) (found : Int) (calls : List Call) (k : Nat) (es : List edge),
      scanChunks c n s input = some cs → cs.length ≤ fuel →
      found = resp.Edges.length → first = found + k → 0 < k →
      List.Forall₂ (IsEdgeOf c schema) ((chunkItems cs).take k) es →
      (scanInputs (scanLoop c schema first fuel s input resp found calls).calls).length =
        (scanInputs calls).length + callsNeeded k cs := by
  intro n
  induction n with
  | zero => intro cs fuel s input resp found calls k es h; simp [scanChunks] at h
  | succ n ih =>
    intro cs fuel s input resp found calls k es h hfuel hfound hfirst hk0 hes
    have hcond : (resp.Edges.length : Int) < first := by omega
    simp only [scanChunks] at h
    rcases hscan : c.scan s input with ⟨r, s1⟩
    rw [hscan] at h
    cases r with
    | error e => simp at h
    | ok out =>
      simp only at h
      have hone : (scanInputs (calls ++ [Call.scan input])).length =
          (scanInputs calls).length + 1 := by
        simp [scanInputs_append, scanInputs]
      cases hk : out.LastEvaluatedKey with
      | none =>
        rw [hk] at h
        simp only [Option.some.injEq] at h
        subst h
        cases fuel with
        | zero => simp at hfuel
        | succ fuel =>
          rw [chunkItems_cons] at hes
          simp only [chunkItems, List.flatMap_nil, List.append_nil] at hes
          have hit := scanItems_take c schema first out.Items k es resp found hfirst hk0 hes
          simp only [scanLoop, hcond, if_true, hscan]
          rw [hit]
          simp only [hk]
          rw [hone]
          simp only [callsNeeded]
          split <;> simp
      | some key =>
        rw [hk] at h
        simp only [Option.map_eq_some'] at h
        obtain ⟨rest, hrest, rfl⟩ := h
        cases fuel with
        | zero => simp at hfuel
        | succ fuel =>
          have hfuel2 : rest.length ≤ fuel := by simpa using hfuel
          rw [chunkItems_cons, List.take_append_eq_append_take] at hes
          obtain ⟨es1, es2, rfl, h1, h2⟩ := forall₂_append_split _ _ _ _ hes
          have hit := scanItems_take c schema first out.Items k es1 resp found hfirst hk0 h1
          have hlen1 := h1.length_eq
          simp only [List.length_take] at hlen1
          simp only [scanLoop, hcond, if_true, hscan]
          rw [hit]
          by_cases hcut : out.Items.length < k
          · simp only [hcut, if_true, hk]
            rw [ih rest fuel s1 _ _ _ _ (k - out.Items.length) es2 hrest hfuel2
              (by simp only [List.length_append, Nat.cast_add]; omega) (by omega) (by omega) h2]
            rw [hone]
            simp only [callsNeeded]
            rw [if_neg (by omega)]
            omega
          · simp only [hcut, if_false, hk]
            rw [scanLoop_done _ _ _ _ _ _ _ _ _
              (by simp only [List.length_append, Nat.cast_add]; omega)]
            simp only
            rw [hone]
            simp only [callsNeeded]
            rw [if_pos (by omega)]

/-- The number `callsNeeded k cs` is the least number of chunks that hold `k`
items, or the number of all chunks when they hold fewer. -/
theorem callsNeeded_spec : ∀ (cs : List ScanOutput) (k : Nat), 0 < k →
    callsNeeded k cs ≤ cs.length ∧
    (callsNeeded k cs = cs.length ∨ k ≤ (chunkItems (cs.take (callsNeeded k cs))).length) ∧
    (∀ j, j < callsNeeded k cs → (chunkItems (cs.take j)).length < k) ∧
    (cs ≠ [] → 1 ≤ callsNeeded k cs) := by
  intro cs
  induction cs with
  | nil =>
    intro k hk
    simp [callsNeeded]
  | cons out rest ih =>
    intro k hk
    simp only [callsNeeded]
    by_cases hle : k ≤ out.Items.length
    · rw [if_pos hle]
      refine ⟨by simp, Or.inr (by simp [chunkItems_cons, chunkItems]; omega), ?_, by simp⟩
      intro j hj
      have : j = 0 := by omega
      subst this
      simpa [chunkItems] using hk
    · rw [if_neg hle]
      obtain ⟨h1, h2, h3, _⟩ := ih (k - out.Items.length) (by omega)
      refine ⟨by simp only [List.length_cons]; omega, ?_, ?_, by omega⟩
      · rcases h2 with h2 | h2
        · left; simp only [List.length_cons]; omega
        · right
          rw [show 1 + callsNeeded (k - out.Items.length) rest =
            callsNeeded (k - out.Items.length) rest + 1 from by omega]
          simp only [List.take_succ_cons, chunkItems_cons, List.length_append]
          omega
      · intro j hj
        cases j with
        | zero => simpa [chunkItems] using hk
        | succ j =>
          have := h3 j (by omega)
          simp only [List.take_succ_cons, chunkItems_cons, List.length_append]
          omega

/-- Against a scan that always answers with an empty chunk and a continuation
key the loop uses up any fuel. -/
theorem scanLoop_endless {σ : Type} (c : Collaborators σ) (schema : List KeySchemaElement)
    (first : Int)
    (hc : ∀ st input, ∃ key st2, c.scan st input = (.ok ⟨[], some key⟩, st2)) :
    ∀ (fuel : Nat) (s : σ) (input : ScanInput) (resp : response) (found : Int)
      (calls : List Call), (resp.Edges.length : Int) < first →
      (scanLoop c schema first fuel s input resp found calls).result = none ∧
      (scanInputs (scanLoop c schema first fuel s input resp found calls).calls).length =
        (scanInputs calls).length + fuel := by
  intro fuel
  induction fuel with
  | zero =>
    intro s input resp found calls hlt
    simp only [scanLoop, hlt, if_true]
    simp
  | succ fuel ih =>
    intro s input resp found calls hlt
    obtain ⟨key, st2, hsc⟩ := hc s input
    simp only [scanLoop, hlt, if_true, hsc, scanItems]
    obtain ⟨h1, h2⟩ := ih st2 { input with ExclusiveStartKey := some key } resp found
      (calls ++ [Call.scan input]) hlt
    refine ⟨h1, ?_⟩
    rw [h2]
    simp only [scanInputs_append, scanInputs, List.length_append, List.length_cons,
      List.length_nil]
    omega

/-! ## Termination of the loop -/

theorem accepted_endless (first : Int) (hpos : 0 < first) :
    Accepted endless () (request first "") requestFilter none idSchema () := by
  have hp : pageSize (request first "") = first := by
    have : first ≠ 0 := by omega
    simp [pageSize, request, this]
  exact ⟨by simp [request], rfl, rfl, by simp [request], by rw [hp]; exact hpos, rfl, rfl,
    by simp [idSchema]⟩

/-- A chunk sequence has at least one chunk. -/
theorem scanChunks_ne_nil {σ : Type} (c : Collaborators σ) (n : Nat) (s : σ) (input : ScanInput)
    (cs : List ScanOutput) (hcs : scanChunks c n s input = some cs) : cs ≠ [] := by
  intro h0
  subst h0
  cases n with
  | zero => simp [scanChunks] at hcs
  | succ n =>
    simp only [scanChunks] at hcs
    rcases hsc : c.scan s input with ⟨r, s2⟩
    rw [hsc] at hcs
    cases r with
    | error e => simp at hcs
    | ok out =>
      simp only at hcs
      cases hk : out.LastEvaluatedKey with
      | none => rw [hk] at hcs; simp at hcs
      | some key => rw [hk] at hcs; simp at hcs

/-- C19. Termination and scan-call count, for an accepted request (its page
size is positive). When `make` accepts the page size, the run reaches the loop:
if the scan collaborator has the finite chunk sequence `cs` (only its last
chunk without a continuation key) and the items wanted become edges, the loop
ends, given fuel for `cs.length` calls, after exactly `m` scan calls, `m` being
the least index at which the chunks together hold `first` items, or the number
of all chunks: no call follows the cutoff; and if every scan result is an empty
chunk with a continuation key, the loop has not ended after any number `fuel`
of scan calls. When `make` rejects the page size, the run panics at line 125
and makes no scan call at all. -/
theorem scan_call_count {σ : Type} (c : Collaborators σ) (s s1 : σ) (p : payload)
    (filter : dynamoFilterExpression) (k : Option AttrMap) (schema : List KeySchemaElement)
    (hacc : Accepted c s p filter k schema s1) :
    (edgeSize * pageSize p ≤ maxAlloc →
      (∀ (n fuel : Nat) (cs : List ScanOutput) (es : List edge),
        scanChunks c n s1 (firstInput p filter k) = some cs → cs.length ≤ fuel →
        List.Forall₂ (IsEdgeOf c schema) ((chunkItems cs).take (pageSize p).toNat) es →
        (HandleRequest c fuel s p).result ≠ none ∧
        ∃ m, (scanInputs (HandleRequest c fuel s p).calls).length = m ∧
          1 ≤ m ∧ m ≤ cs.length ∧
          (m = cs.length ∨ pageSize p ≤ ((chunkItems (cs.take m)).length : Int)) ∧
          ∀ j, j < m → ((chunkItems (cs.take j)).length : Int) < pageSize p) ∧
      ((∀ st input, ∃ key st2, c.scan st input = (.ok ⟨[], some key⟩, st2)) →
        ∀ fuel, (HandleRequest c fuel s p).result = none ∧
          (scanInputs (HandleRequest c fuel s p).calls).length = fuel)) ∧
    (maxAlloc < edgeSize * pageSize p →
      ∀ fuel, (HandleRequest c fuel s p).result =
          some (.error "panic: runtime error: makeslice: cap out of range") ∧
        scanInputs (HandleRequest c fuel s p).calls = []) := by
  have hpos : 0 < pageSize p := hacc.2.2.2.2.1
  constructor
  · intro hcap
    have hrun : ∀ f, HandleRequest c f s p =
        serialise c (scanLoop c schema (pageSize p) f s1 (firstInput p filter k)
          ⟨[], pageInfo.zero⟩ 0 [Call.describeTable p.TableName]) :=
      fun f => HandleRequest_accepted c f s p filter k schema s1 hacc hcap
    constructor
    · intro n fuel cs es hcs hfuel hes
      constructor
      · intro h0
        rw [hrun, serialise_none,
          scanLoop_page c fuel n s s1 p filter k schema cs es hacc hcs hfuel hes] at h0
        simp at h0
      · have hcount := scanLoop_count c schema (pageSize p) n cs fuel s1 (firstInput p filter k)
          ⟨[], pageInfo.zero⟩ 0 [Call.describeTable p.TableName] (pageSize p).toNat es hcs hfuel
          (by simp) (by omega) (by omega) hes
        have hne : cs ≠ [] := scanChunks_ne_nil c n s1 _ cs hcs
        obtain ⟨h1, h2, h3, h4⟩ := callsNeeded_spec cs (pageSize p).toNat (by omega)
        refine ⟨callsNeeded (pageSize p).toNat cs, ?_, h4 hne, h1, ?_, ?_⟩
        · rw [hrun, (serialise_calls c _).1, hcount]
          simp [scanInputs]
        · rcases h2 with h2 | h2
          · exact Or.inl h2
          · right; omega
        · intro j hj
          have := h3 j hj
          omega
    · intro hc fuel
      rw [hrun]
      have := scanLoop_endless c schema (pageSize p) hc fuel s1 (firstInput p filter k)
        ⟨[], pageInfo.zero⟩ 0 [Call.describeTable p.TableName] (by simpa using hpos)
      refine ⟨(serialise_none c _).mpr this.1, ?_⟩
      rw [(serialise_calls c _).1, this.2]
      simp [scanInputs]
  · intro hcap fuel
    rw [HandleRequest_too_large c fuel s p filter k schema s1 hacc hcap]
    exact ⟨rfl, rfl⟩

theorem scan_call_count_witness :
    (edgeSize * pageSize (request 2 "") ≤ maxAlloc ∧
      scanChunks (scripted idSchema) 3 chunksABC (firstInput (request 2 "") requestFilter none) =
        some chunksABC ∧
      ((HandleRequest (scripted idSchema) 3 chunksABC (request 2 "")).result ≠ none ∧
        ∃ m, (scanInputs (HandleRequest (scripted idSchema) 3 chunksABC
              (request 2 "")).calls).length = m ∧
          1 ≤ m ∧ m ≤ chunksABC.length ∧
          (m = chunksABC.length ∨
            pageSize (request 2 "") ≤ ((chunkItems (chunksABC.take m)).length : Int)) ∧
          ∀ j, j < m →
            ((chunkItems (chunksABC.take j)).length : Int) < pageSize (request 2 "")) ∧
      (scanInputs (HandleRequest (scripted idSchema) 3 chunksABC (request 2 "")).calls).length
        = 2 ∧
      (∀ fuel, (HandleRequest endless fuel () (request 2 "")).result = none ∧
        (scanInputs (HandleRequest endless fuel () (request 2 "")).calls).length = fuel)) ∧
    (maxAlloc < edgeSize * pageSize (request 4611686018427387904 "") ∧
      scanChunks (scripted idSchema) 3 chunksABC
          (firstInput (request 4611686018427387904 "") requestFilter none) = some chunksABC ∧
      ∀ fuel, (HandleRequest (scripted idSchema) fuel chunksABC
            (request 4611686018427387904 "")).result =
          some (.error "panic: runtime error: makeslice: cap out of range") ∧
        scanInputs (HandleRequest (scripted idSchema) fuel chunksABC
          (request 4611686018427387904 "")).calls = []) :=
  ⟨⟨by decide, rfl,
    ((scan_call_count (scripted idSchema) chunksABC chunksABC (request 2 "") requestFilter none
      idSchema (accepted_request 2 (by decide) chunksABC)).1 (by decide)).1 3 3 chunksABC
      [⟨cursorA, idNode "a"⟩, ⟨cursorB, idNode "b"⟩] rfl (by decide)
      (List.Forall₂.cons ⟨rfl, rfl⟩ (List.Forall₂.cons ⟨rfl, rfl⟩ List.Forall₂.nil)),
    rfl,
    ((scan_call_count endless () () (request 2 "") requestFilter none idSchema
      (accepted_endless 2 (by decide))).1 (by decide)).2 (fun _ _ => ⟨_, _, rfl⟩)⟩,
   ⟨by decide, rfl,
    (scan_call_count (scripted idSchema) chunksABC chunksABC (request 4611686018427387904 "")
      requestFilter none idSchema
      (accepted_request 4611686018427387904 (by decide) chunksABC)).2 (by decide)⟩⟩

/-! ## The next-page flag -/

/-- What the shape of a page says of `hasNextPage` and `endCursor`. -/
theorem pageShape_next (first : Int) (resp : response) (hs : PageShape first resp) :
    (resp.PageInfo.HasNext = true ↔ (resp.Edges.length : Int) = first) ∧
    ((resp.Edges.length : Int) = first →
      (resp.Edges.getLast?.map fun e => e.Cursor) = some resp.PageInfo.EndCursor) ∧
    ((resp.Edges.length : Int) ≠ first →
      (resp.Edges.length : Int) < first ∧ resp.PageInfo.EndCursor = "") := by
  rcases hs with hs | hs
  · obtain ⟨hlt, hpi⟩ := hs
    refine ⟨?_, fun heq => ?_, fun _ => ⟨hlt, by rw [hpi]; rfl⟩⟩
    · rw [hpi]
      constructor
      · intro h; simp [pageInfo.zero] at h
      · intro h; omega
    · omega
  · obtain ⟨heq, hpi, hne⟩ := hs
    refine ⟨?_, fun _ => ?_, fun h => absurd heq h⟩
    · rw [hpi]
      exact ⟨fun _ => heq, fun _ => rfl⟩
    · rw [hpi]
      obtain ⟨e, hlast⟩ : ∃ e, resp.Edges.getLast? = some e := by
        cases hl : resp.Edges.getLast? with
        | none => exact absurd (List.getLast?_eq_none_iff.mp hl) hne
        | some e => exact ⟨e, rfl⟩
      simp [lastCursor, hlast]

/-- C20. Characterisation of `hasNextPage`. For every response `HandleRequest`
returns (which implies a positive page size `first`): the inner loop keeps the
counter `found` equal to the number of edges; `hasNextPage` is true if and
only if the number of edges equals `first`; then `endCursor` is the cursor of
the last edge, and otherwise there are fewer than `first` edges and
`endCursor` is the empty string. `hasNextPage` is thus decided by the number
of edges alone: any other run for the same request that returns as many edges,
whatever continuation keys its collaborator reports, has the same
`hasNextPage`. -/
theorem has_next_iff_full {σ : Type} (c : Collaborators σ) (fuel : Nat) (s : σ)
    (p : payload) (resp : response)
    (h : (HandleRequest c fuel s p).result = some (.ok resp)) :
    0 < pageSize p ∧
    (∀ (schema : List KeySchemaElement) (items : List (Option AttrMap)) (r0 : response)
      (f0 : Int) (r1 : response) (f1 : Int), f0 = r0.Edges.length → f0 < pageSize p →
      scanItems c.unmarshalMap schema (pageSize p) items r0 f0 = .ok (r1, f1) →
      f1 = r1.Edges.length) ∧
    (resp.PageInfo.HasNext = true ↔ (resp.Edges.length : Int) = pageSize p) ∧
    ((resp.Edges.length : Int) = pageSize p →
      (resp.Edges.getLast?.map fun e => e.Cursor) = some resp.PageInfo.EndCursor) ∧
    ((resp.Edges.length : Int) ≠ pageSize p →
      (resp.Edges.length : Int) < pageSize p ∧ resp.PageInfo.EndCursor = "") ∧
    (∀ (d : Collaborators σ) (fuel2 : Nat) (t : σ) (resp2 : response),
      (HandleRequest d fuel2 t p).result = some (.ok resp2) →
      resp2.Edges.length = resp.Edges.length →
      resp2.PageInfo.HasNext = resp.PageInfo.HasNext) := by
  obtain ⟨filter, k, schema, s1, hacc⟩ := HandleRequest_ok_accepted c fuel s p resp h
  obtain ⟨h1, h2, h3⟩ := pageShape_next (pageSize p) resp (HandleRequest_shape c fuel s p resp h)
  refine ⟨hacc.2.2.2.2.1, ?_, h1, h2, h3, ?_⟩
  · intro schema2 items r0 f0 r1 f1 hf0 hlt hit
    exact (scanItems_inv c.unmarshalMap schema2 (pageSize p) items r0 f0 r1 f1 hf0 hlt hit).1
  · intro d fuel2 t resp2 hd hlen
    obtain ⟨g1, _, _⟩ := pageShape_next (pageSize p) resp2
      (HandleRequest_shape d fuel2 t p resp2 hd)
    rw [Bool.eq_iff_iff, g1, h1, hlen]

theorem has_next_iff_full_witness :
    (HandleRequest (scripted idSchema) 2 [⟨[idItem "a"], some (idKey "a")⟩, ⟨[], none⟩]
        (request 2 "")).result =
      some (.ok ⟨[⟨cursorA, idNode "a"⟩], ⟨false, false, "", ""⟩⟩) ∧
    (HandleRequest (scripted idSchema) 1 [⟨[idItem "a"], none⟩] (request 1 "")).result =
      some (.ok ⟨[⟨cursorA, idNode "a"⟩], ⟨true, false, "", cursorA⟩⟩) ∧
    ((⟨[⟨cursorA, idNode "a"⟩], ⟨true, false, "", cursorA⟩⟩ : response).PageInfo.HasNext = true ↔
      (((⟨[⟨cursorA, idNode "a"⟩], ⟨true, false, "", cursorA⟩⟩ : response).Edges.length : Nat) :
        Int) = pageSize (request 1 "")) :=
  ⟨rfl, rfl,
    (has_next_iff_full (scripted idSchema) 1 [⟨[idItem "a"], none⟩] (request 1 "")
      ⟨[⟨cursorA, idNode "a"⟩], ⟨true, false, "", cursorA⟩⟩ rfl).2.2.1⟩

/-! ## Resuming over a table with number keys -/

/-- C7 (failing input). The table `bigRows` has three rows with the pairwise
distinct number keys 2^53, 2^53 + 1, 2^53 + 2. The page of `first = 2` ends by
cutoff at the second row, but its `endCursor` is computed from the
unmarshalled record, whose number has passed through `float64`: it is the
cursor of the key 2^53, the key of the first row. The request with that
cursor as `after` is answered from the row after the first one: the second
row is returned again, and the two pages hold four edges of a table of three
rows. -/
theorem resume_repeats_row_of_rounded_key :
    (sameKey (keyOfItem idSchema (numKey "9007199254740992"))
        (keyOfItem idSchema (numKey "9007199254740993")) = false ∧
      sameKey (keyOfItem idSchema (numKey "9007199254740992"))
        (keyOfItem idSchema (numKey "9007199254740994")) = false ∧
      sameKey (keyOfItem idSchema (numKey "9007199254740993"))
        (keyOfItem idSchema (numKey "9007199254740994")) = false) ∧
    (HandleRequest bigTable 1 () (request 2 "")).result =
      some (.ok ⟨[⟨cursorN, numNode "9007199254740992"⟩, ⟨cursorN, numNode "9007199254740992"⟩],
        ⟨true, false, "", cursorN⟩⟩) ∧
    decodeKey cursorN = .ok (some (numKey "9007199254740992")) ∧
    (scanInputs (HandleRequest bigTable 1 () { request 2 "" with After := cursorN }).calls).map
        (fun i => i.ExclusiveStartKey) = [some (numKey "9007199254740992")] ∧
    recordsAfter idSchema (numKey "9007199254740992") bigRows =
      [numKey "9007199254740993", numKey "9007199254740994"] ∧
    (HandleRequest bigTable 1 () { request 2 "" with After := cursorN }).result =
      some (.ok ⟨[⟨cursorN, numNode "9007199254740992"⟩, ⟨cursorN2, numNode "9007199254740994"⟩],
        ⟨true, false, "", cursorN2⟩⟩) :=
  ⟨⟨rfl, rfl, rfl⟩, rfl, rfl, rfl, rfl, rfl⟩

/-! ## The base64 decoder as a recogniser -/

theorem b64Val_not_newline (c : Char) (h : (b64Val c).isSome = true) : isNewline c = false := by
  unfold b64Val at h
  unfold isNewline
  simp only at h
  by_cases h1 : c.toNat = 10
  · simp [h1] at h
  · by_cases h2 : c.toNat = 13
    · simp [h2] at h
    · simp [h1, h2]

theorem b64Val_not_pad (c : Char) (h : (b64Val c).isSome = true) : c ≠ b64Pad := by
  intro hc
  subst hc
  revert h
  decide

theorem stripNewlines_cons_keep (c : Char) (rest : List Char) (h : isNewline c = false) :
    stripNewlines (c :: rest) = c :: stripNewlines rest := by
  simp [stripNewlines, List.filter_cons, h]

theorem stripNewlines_cons_drop (c : Char) (rest : List Char) (h : isNewline c = true) :
    stripNewlines (c :: rest) = stripNewlines rest := by
  simp [stripNewlines, List.filter_cons, h]

theorem stripNewlines_skip : ∀ (l : List Char),
    stripNewlines (skipNewlines l) = stripNewlines l := by
  intro l
  induction l with
  | nil => rfl
  | cons c rest ih =>
    by_cases h : isNewline c = true
    · simp only [skipNewlines, h, if_true]
      rw [ih, stripNewlines_cons_drop c rest h]
    · simp only [skipNewlines, h]
      rfl

theorem skipNewlines_head : ∀ (l : List Char) (p : Char) (r : List Char),
    skipNewlines l = p :: r → isNewline p = false := by
  intro l
  induction l with
  | nil => intro p r h; simp [skipNewlines] at h
  | cons c rest ih =>
    intro p r h
    by_cases hc : isNewline c = true
    · simp only [skipNewlines, hc, if_true] at h
      exact ih p r h
    · simp only [skipNewlines, hc] at h
      simp only [Bool.false_eq_true, if_false, List.cons.injEq] at h
      rw [← h.1]
      simpa using hc

theorem skipNewlines_eq_nil (l : List Char) : skipNewlines l = [] ↔ stripNewlines l = [] := by
  constructor
  · intro h
    rw [← stripNewlines_skip, h]
    rfl
  · intro h
    cases hs : skipNewlines l with
    | nil => rfl
    | cons p r =>
      have hp := skipNewlines_head l p r hs
      rw [← stripNewlines_skip, hs, stripNewlines_cons_keep p r hp] at h
      simp at h

theorem skipNewlines_cons (l : List Char) (p : Char) (r : List Char)
    (h : skipNewlines l = p :: r) : stripNewlines l = p :: stripNewlines r := by
  have hp := skipNewlines_head l p r h
  rw [← stripNewlines_skip, h, stripNewlines_cons_keep p r hp]

/-- The padding step accepts exactly the padding the recogniser accepts. -/
theorem base64Padding_isSome (j val : Nat) (rest : List Char) :
    (base64Padding j val rest).isSome =
      ((j == 2 && stripNewlines rest == [b64Pad]) || (j == 3 && (stripNewlines rest).isEmpty)) := by
  unfold base64Padding
  by_cases h2 : j = 2
  · subst h2
    simp only [if_true, beq_self_eq_true, Bool.true_and]
    have h23 : ((2 : Nat) == 3) = false := by decide
    rw [h23, Bool.false_and, Bool.or_false]
    cases hs : skipNewlines rest with
    | nil =>
      have := (skipNewlines_eq_nil rest).mp hs
      rw [this]
      rfl
    | cons p r =>
      have hst := skipNewlines_cons rest p r hs
      rw [hst]
      simp only
      by_cases hp : p = b64Pad
      · by_cases hr : skipNewlines r = []
        · have := (skipNewlines_eq_nil r).mp hr
          simp [hp, hr, this]
        · have : stripNewlines r ≠ [] := fun h0 => hr ((skipNewlines_eq_nil r).mpr h0)
          simp [hp, hr, this]
      · simp [hp]
  · rw [if_neg h2]
    have h2b : (j == 2) = false := by simpa using h2
    rw [h2b, Bool.false_and, Bool.false_or]
    by_cases h3 : j = 3
    · subst h3
      simp only [if_true, beq_self_eq_true, Bool.true_and]
      by_cases hr : skipNewlines rest = []
      · have := (skipNewlines_eq_nil rest).mp hr
        simp [hr, this]
      · have : stripNewlines rest ≠ [] := fun h0 => hr ((skipNewlines_eq_nil rest).mpr h0)
        simp [hr, this]
    · rw [if_neg h3]
      have h3b : (j == 3) = false := by simpa using h3
      rw [h3b]
      rfl

/-- The decoding loop accepts exactly what the recogniser accepts of the input
without its line breaks. -/
theorem base64DecodeAux_isSome : ∀ (cs : List Char) (j val : Nat),
    (base64DecodeAux j val cs).isSome = validFrom j (stripNewlines cs) := by
  intro cs
  induction cs with
  | nil =>
    intro j val
    simp only [base64DecodeAux, stripNewlines, List.filter_nil, validFrom]
    by_cases h : j = 0
    · simp [h]
    · simp [h]
  | cons c rest ih =>
    intro j val
    simp only [base64DecodeAux]
    cases hv : b64Val c with
    | some v =>
      have hsome : (b64Val c).isSome = true := by rw [hv]; rfl
      rw [stripNewlines_cons_keep c rest (b64Val_not_newline c hsome)]
      simp only [validFrom, hsome, if_true]
      by_cases h3 : j = 3
      · simp only [h3, if_true, Option.isSome_map']
        exact ih 0 0
      · simp only [h3, if_false]
        exact ih _ _
    | none =>
      simp only
      by_cases hn : isNewline c = true
      · rw [if_pos hn, stripNewlines_cons_drop c rest hn]
        exact ih j val
      · rw [if_neg hn]
        have hn2 : isNewline c = false := by simpa using hn
        rw [stripNewlines_cons_keep c rest hn2]
        simp only [validFrom, hv, Option.isSome_none, Bool.false_eq_true, if_false]
        by_cases hp : c = b64Pad
        · rw [if_pos hp, if_pos hp, base64Padding_isSome]
        · rw [if_neg hp, if_neg hp]
          rfl

/-! ## Valid base64 -/

theorem pad_not_alphabet : (b64Val b64Pad).isSome = false := by decide

/-- The recogniser, started between groups, accepts exactly the valid
groups. -/
theorem validFrom_zero : ∀ (l : List Char), validFrom 0 l = validGroups l := by
  intro l
  induction l using validGroups.induct with
  | case1 => rfl
  | case2 a b c d rest ih =>
    have key : ∀ x : Char, (b64Val x).isSome = true → (x == b64Pad) = false :=
      fun x hx => beq_eq_false_iff_ne.mpr (b64Val_not_pad x hx)
    have key2 : ∀ x : Char, (x == b64Pad) = true → (b64Val x).isSome = false := by
      intro x hx
      have : x = b64Pad := by simpa using hx
      rw [this]
      exact pad_not_alphabet
    simp only [validFrom, validGroups]
    cases ha : (b64Val a).isSome <;> cases hb : (b64Val b).isSome <;>
      cases hc : (b64Val c).isSome <;> cases hd : (b64Val d).isSome <;>
      cases hap : (a == b64Pad) <;> cases hbp : (b == b64Pad) <;>
      cases hcp : (c == b64Pad) <;> cases hdp : (d == b64Pad) <;>
      first
      | exact Bool.noConfusion (hap.symm.trans (key a ha))
      | exact Bool.noConfusion (hbp.symm.trans (key b hb))
      | exact Bool.noConfusion (hcp.symm.trans (key c hc))
      | exact Bool.noConfusion (hdp.symm.trans (key d hd))
      | (have hap2 : a = b64Pad ↔ False := by simpa using hap
         have hbp2 : b = b64Pad ↔ False := by simpa using hbp
         have hcp2 : c = b64Pad ↔ False := by simpa using hcp
         have hdp2 : d = b64Pad ↔ False := by simpa using hdp
         simp [hap2, hbp2, hcp2, hdp2, ih])
      | (have hap2 : a = b64Pad ↔ False := by simpa using hap
         have hbp2 : b = b64Pad ↔ False := by simpa using hbp
         have hcp2 : c = b64Pad ↔ False := by simpa using hcp
         have hdp2 : d = b64Pad := by simpa using hdp
         simp [hap2, hbp2, hcp2, hdp2, ih])
      | (have hap2 : a = b64Pad ↔ False := by simpa using hap
         have hbp2 : b = b64Pad ↔ False := by simpa using hbp
         have hcp2 : c = b64Pad := by simpa using hcp
         have hdp2 : d = b64Pad ↔ False := by simpa using hdp
         simp [hap2, hbp2, hcp2, hdp2, ih])
      | (have hap2 : a = b64Pad ↔ False := by simpa using hap
         have hbp2 : b = b64Pad ↔ False := by simpa using hbp
         have hcp2 : c = b64Pad := by simpa using hcp
         have hdp2 : d = b64Pad := by simpa using hdp
         simp [hap2, hbp2, hcp2, hdp2, ih])
      | simp [ih]
  | case3 l h1 h2 =>
    match l, h1, h2 with
    | [], h1, _ => exact absurd rfl h1
    | [a], _, _ =>
      simp only [validFrom, validGroups]
      by_cases ha : (b64Val a).isSome = true <;> by_cases hap : a = b64Pad <;> simp [ha, hap]
    | [a, b], _, _ =>
      simp only [validFrom, validGroups]
      by_cases ha : (b64Val a).isSome = true <;> by_cases hap : a = b64Pad <;>
        by_cases hb : (b64Val b).isSome = true <;> by_cases hbp : b = b64Pad <;>
        simp [ha, hap, hb, hbp]
    | [a, b, c], _, _ =>
      simp only [validFrom, validGroups]
      by_cases ha : (b64Val a).isSome = true <;> by_cases hap : a = b64Pad <;>
        by_cases hb : (b64Val b).isSome = true <;> by_cases hbp : b = b64Pad <;>
        by_cases hc : (b64Val c).isSome = true <;> by_cases hcp : c = b64Pad <;>
        simp [ha, hap, hb, hbp, hc, hcp]
    | a :: b :: c :: d :: rest, _, h2 => exact absurd rfl (h2 a b c d rest)

/-- `StdEncoding.DecodeString` succeeds exactly on valid base64, line breaks
aside. -/
theorem base64Decode_isSome (cs : List Char) :
    (base64Decode cs).isSome = validGroups (stripNewlines cs) := by
  unfold base64Decode
  rw [base64DecodeAux_isSome, validFrom_zero]

theorem base64Decode_invalid (s : String) (h : ¬ ValidBase64 s) : base64Decode s.data = none := by
  have := base64Decode_isSome s.data
  unfold ValidBase64 at h
  cases hd : base64Decode s.data with
  | none => rfl
  | some bs =>
    rw [hd] at this
    exact absurd this.symm h

theorem base64Decode_valid (s : String) (h : ValidBase64 s) : ∃ bs, base64Decode s.data = some bs := by
  have := base64Decode_isSome s.data
  unfold ValidBase64 at h
  rw [h] at this
  exact Option.isSome_iff_exists.mp this

/-! ## The cursors decodeKey rejects -/

theorem bind_isOk {α β : Type} (e : Except GoError α) (f : α → Except GoError β) (b c : Bool)
    (he : e.isOk = b) (hf : ∀ x, e = .ok x → (f x).isOk = c) :
    (e.bind f).isOk = (b && c) := by
  cases e with
  | error err =>
    have : b = false := by rw [← he]; rfl
    rw [this]; rfl
  | ok x =>
    have : b = true := by rw [← he]; rfl
    rw [this, Bool.true_and]; exact hf x rfl

theorem map_isOk {α β : Type} (e : Except GoError α) (f : α → β) :
    (e.map f).isOk = e.isOk := by
  cases e <;> rfl

theorem mapM_isOk {α β : Type} (f : α → Except GoError β) (g : α → Bool)
    (h : ∀ x, (f x).isOk = g x) : ∀ xs : List α, (xs.mapM f).isOk = xs.all g := by
  intro xs
  induction xs with
  | nil => rfl
  | cons x xs ih =>
    rw [List.mapM_cons, List.all_cons]
    have hx := h x
    cases hfx : f x with
    | error e => rw [hfx] at hx; rw [← hx]; rfl
    | ok y =>
      rw [hfx] at hx; rw [← hx, ← ih]
      cases hm : xs.mapM f <;> rfl

theorem decodeString_isOk (j : JValue) : (decodeString j).isOk = fitsString j := by
  cases j <;> rfl

theorem decodeBool_isOk (j : JValue) : (decodeBool j).isOk = fitsBool j := by
  cases j <;> rfl

theorem decodeUint8_isOk (j : JValue) : (decodeUint8 j).isOk = fitsUint8 j := by
  cases j with
  | num lit =>
    simp only [decodeUint8, fitsUint8]
    split
    · rename_i h; simp [h.1, h.2, Except.isOk, Except.toBool]
    · rename_i h
      simp only [Except.isOk, Except.toBool]
      by_cases h1 : lit.all isDigit = true
      · have h2 : ¬ (List.foldl (fun a c => a * 10 + (c.toNat - 48)) 0 lit ≤ 255) := fun h2 => h ⟨h1, h2⟩
        simp [h2]
      · simp [h1]
  | _ => rfl

theorem decodeBytes_isOk (j : JValue) : (decodeBytes j).isOk = fitsBytes j := by
  cases j with
  | str s =>
    simp only [decodeBytes, fitsBytes]
    rw [← base64Decode_isSome]
    cases base64Decode s.data <;> rfl
  | arr xs =>
    simp only [decodeBytes, fitsBytes]
    rw [map_isOk, mapM_isOk decodeUint8 fitsUint8 decodeUint8_isOk]
  | _ => rfl

theorem decodeStrings_isOk (j : JValue) : (decodeStrings j).isOk = fitsStrings j := by
  cases j with
  | arr xs =>
    simp only [decodeStrings, fitsStrings]
    rw [map_isOk, mapM_isOk decodeString fitsString decodeString_isOk]
  | _ => rfl

theorem decodeBytesList_isOk (j : JValue) : (decodeBytesList j).isOk = fitsBytesList j := by
  cases j with
  | arr xs =>
    simp only [decodeBytesList, fitsBytesList]
    rw [map_isOk, mapM_isOk decodeBytes fitsBytes decodeBytes_isOk]
  | _ => rfl

mutual
theorem decodeAttrPtr_isOk : ∀ j, (decodeAttrPtr j).isOk = fitsAttr j
  | .null => rfl
  | .bool _ => rfl
  | .num _ => rfl
  | .str _ => rfl
  | .arr _ => rfl
  | .obj ms => by
    simp only [decodeAttrPtr, fitsAttr]
    rw [map_isOk, decodeAttrFields_isOk ms]
theorem decodeAttrFields_isOk : ∀ ms av, (decodeAttrFields ms av).isOk = fitsFields ms
  | [], _ => rfl
  | (k, v) :: rest, av => by
    simp only [decodeAttrFields, fitsFields]
    cases hk : attrFieldOf k with
    | none => simp only [Bool.true_and]; exact decodeAttrFields_isOk rest av
    | some f =>
      cases f
      · exact bind_isOk _ _ _ _ (decodeBytes_isOk v) (fun x _ => decodeAttrFields_isOk rest _)
      · exact bind_isOk _ _ _ _ (decodeBool_isOk v) (fun x _ => decodeAttrFields_isOk rest _)
      · exact bind_isOk _ _ _ _ (decodeBytesList_isOk v) (fun x _ => decodeAttrFields_isOk rest _)
      · exact bind_isOk _ _ _ _ (decodeAttrList_isOk v) (fun x _ => decodeAttrFields_isOk rest _)
      · exact bind_isOk _ _ _ _ (decodeAttrMap_isOk v _) (fun x _ => decodeAttrFields_isOk rest _)
      · exact bind_isOk _ _ _ _ (decodeString_isOk v) (fun x _ => decodeAttrFields_isOk rest _)
      · exact bind_isOk _ _ _ _ (decodeStrings_isOk v) (fun x _ => decodeAttrFields_isOk rest _)
      · exact bind_isOk _ _ _ _ (decodeBool_isOk v) (fun x _ => decodeAttrFields_isOk rest _)
      · exact bind_isOk _ _ _ _ (decodeString_isOk v) (fun x _ => decodeAttrFields_isOk rest _)
      · exact bind_isOk _ _ _ _ (decodeStrings_isOk v) (fun x _ => decodeAttrFields_isOk rest _)
theorem decodeAttrList_isOk : ∀ j, (decodeAttrList j).isOk = fitsAttrList j
  | .null => rfl
  | .bool _ => rfl
  | .num _ => rfl
  | .str _ => rfl
  | .obj _ => rfl
  | .arr xs => by
    simp only [decodeAttrList, fitsAttrList]
    rw [map_isOk, decodeAttrElems_isOk xs]
theorem decodeAttrElems_isOk : ∀ xs, (decodeAttrElems xs).isOk = fitsElems xs
  | [] => rfl
  | x :: xs => by
    simp only [decodeAttrElems, fitsElems]
    exact bind_isOk _ _ _ _ (decodeAttrPtr_isOk x)
      (fun a _ => by rw [map_isOk]; exact decodeAttrElems_isOk xs)
theorem decodeAttrMap_isOk : ∀ j old, (decodeAttrMap j old).isOk = fitsMap j
  | .null, _ => rfl
  | .bool _, _ => rfl
  | .num _, _ => rfl
  | .str _, _ => rfl
  | .arr _, _ => rfl
  | .obj ms, old => by
    simp only [decodeAttrMap, fitsMap]
    rw [map_isOk, decodeAttrMembers_isOk ms]
theorem decodeAttrMembers_isOk : ∀ ms m, (decodeAttrMembers ms m).isOk = fitsMembers ms
  | [], _ => rfl
  | (k, v) :: rest, m => by
    simp only [decodeAttrMembers, fitsMembers]
    exact bind_isOk _ _ _ _ (decodeAttrPtr_isOk v) (fun a _ => decodeAttrMembers_isOk rest _)
end

/-- `json.Unmarshal` into the key map succeeds exactly on a serialized map of
attribute values and on the text `null`. -/
theorem jsonUnmarshal_isOk (bs : List Byte) :
    (jsonUnmarshal bs).isOk = (SerializedMap bs || NullText bs) := by
  unfold jsonUnmarshal SerializedMap NullText
  cases parseJSON (utf8Decode bs) with
  | none => rfl
  | some j =>
    simp only [decodeAttrMap_isOk]
    cases j <;> simp [fitsMap]

/-- The strings `decodeKey` accepts. -/
theorem decodeKey_isOk (s : String) :
    (decodeKey s).isOk =
      match base64Decode s.data with
      | none => false
      | some bs => SerializedMap bs || NullText bs := by
  unfold decodeKey
  cases h : base64Decode s.data with
  | none => rfl
  | some bs =>
    simp only
    rw [← jsonUnmarshal_isOk]
    cases jsonUnmarshal bs <;> rfl

theorem isOk_false {α : Type} (e : Except GoError α) (h : e.isOk = false) :
    ∃ err, e = .error err := by
  cases e with
  | error err => exact ⟨err, rfl⟩
  | ok x => exact absurd h (by simp [Except.isOk, Except.toBool])

/-- C10 (amended). `decodeKey` returns an error for every string that is not
valid standard base64 (line breaks ignored), and for every string whose decoded
bytes are neither a serialized map of attribute values nor the text `null`;
these are all its errors. For every request that passes the checks of lines
67-77 and whose non-empty `after` makes `decodeKey` fail, `HandleRequest`
returns that error wrapped and makes no call at all. -/
theorem malformed_cursor_fails_before_calls {σ : Type} (c : Collaborators σ) (fuel : Nat)
    (st : σ) (p : payload) (hT : p.TableName ≠ "") (hF : p.Filter ≠ none)
    (hB : p.Before = "") (hL : p.Last ≤ 0) (hA : p.After ≠ "") :
    (∀ s : String, ¬ ValidBase64 s → ∃ e, decodeKey s = .error e) ∧
    (∀ (s : String) (bs : List Byte), base64Decode s.data = some bs →
      SerializedMap bs = false → NullText bs = false → ∃ e, decodeKey s = .error e) ∧
    (∀ (s : String) (e : GoError), decodeKey s = .error e →
      ¬ ValidBase64 s ∨
      ∃ bs, base64Decode s.data = some bs ∧ SerializedMap bs = false ∧ NullText bs = false) ∧
    (∀ e, decodeKey p.After = .error e →
      HandleRequest c fuel st p =
        ⟨some (.error (wrapError e "unable to decode \x27after\x27 cursor")), [], st⟩) := by
  refine ⟨?_, ?_, ?_, ?_⟩
  · intro s h
    apply isOk_false
    rw [decodeKey_isOk, base64Decode_invalid s h]
  · intro s bs hb h1 h2
    apply isOk_false
    rw [decodeKey_isOk, hb]
    simp only [h1, h2, Bool.or_self]
  · intro s e he
    have hok := decodeKey_isOk s
    rw [he] at hok
    cases hb : base64Decode s.data with
    | none =>
      left
      intro hv
      obtain ⟨bs, hbs⟩ := base64Decode_valid s hv
      rw [hbs] at hb
      exact absurd hb (by simp)
    | some bs =>
      right
      rw [hb] at hok
      have hok2 : (SerializedMap bs || NullText bs) = false := hok.symm
      rw [Bool.or_eq_false_iff] at hok2
      exact ⟨bs, rfl, hok2.1, hok2.2⟩
  · intro e he
    cases hf : p.Filter with
    | none => exact absurd hf hF
    | some filter => exact HandleRequest_bad_cursor c fuel st p filter e hT hf hB hL hA he

theorem malformed_cursor_fails_before_calls_witness :
    ((request 1 "e30").TableName ≠ "" ∧ (request 1 "e30").Filter ≠ none ∧
      (request 1 "e30").Before = "" ∧ (request 1 "e30").Last ≤ 0 ∧
      (request 1 "e30").After ≠ "") ∧
    (¬ ValidBase64 "e30" ∧ ¬ ValidBase64 "YQ" ∧ ¬ ValidBase64 "=e30" ∧
      ¬ ValidBase64 "no cursor!") ∧
    (base64Decode "eyJpZCI6NX0=".data = some [123, 34, 105, 100, 34, 58, 53, 125] ∧
      SerializedMap [123, 34, 105, 100, 34, 58, 53, 125] = false ∧
      NullText [123, 34, 105, 100, 34, 58, 53, 125] = false) ∧
    (base64Decode "e30K".data = some [123, 125, 10] ∧ SerializedMap [123, 125, 10] = true) ∧
    ((∃ e, decodeKey "e30" = .error e) ∧ (∃ e, decodeKey "YQ" = .error e) ∧
      (∃ e, decodeKey "=e30" = .error e) ∧ (∃ e, decodeKey "no cursor!" = .error e) ∧
      (∃ e, decodeKey "eyJpZCI6NX0=" = .error e)) ∧
    ∃ e, decodeKey (request 1 "e30").After = .error e ∧
      HandleRequest threeRows 1 () (request 1 "e30") =
        ⟨some (.error (wrapError e "unable to decode \x27after\x27 cursor")), [], ()⟩ :=
  have T := malformed_cursor_fails_before_calls threeRows 1 () (request 1 "e30")
    (by decide) (fun h => Option.noConfusion h) rfl (by decide) (by decide)
  have h1 : ¬ ValidBase64 "e30" := by unfold ValidBase64; decide
  have h2 : ¬ ValidBase64 "YQ" := by unfold ValidBase64; decide
  have h3 : ¬ ValidBase64 "=e30" := by unfold ValidBase64; decide
  have h4 : ¬ ValidBase64 "no cursor!" := by unfold ValidBase64; decide
  ⟨⟨by decide, fun h => Option.noConfusion h, rfl, by decide, by decide⟩, ⟨h1, h2, h3, h4⟩, ⟨rfl, rfl, rfl⟩,
    ⟨rfl, rfl⟩,
    ⟨T.1 _ h1, T.1 _ h2, T.1 _ h3, T.1 _ h4, T.2.1 "eyJpZCI6NX0=" _ rfl rfl rfl⟩,
    (T.1 _ h1).elim fun e he => ⟨e, he, T.2.2.2 e he⟩⟩

end Pager
